import Mathlib

/-! BARES: a shallow embedding of the expression evaluator

The development follows `src/source/src/bares_manager.cpp` (precedence table,
infix to postfix conversion, postfix evaluation) and `src/source/lib/stack.h`
(the stack both algorithms run on).

Conventions of the embedding:

* `sc::vector<Token>` is a `List Token`; `push_back` appends at the end.
* `sta::stack<T>` keeps its three fields (`m_end`, `m_capacity`, `m_storage`).
* A C++ exception that leaves the function, and behaviour the language leaves
  undefined, are values of `Fault` returned through `Except`.
* `Parser::input_int_type` is a 64-bit two's-complement integer: every
  arithmetic result is reduced by `wrap64`.
* The bounds of `Parser::required_int_type` are the parameters `MIN` and `MAX`.
-/

set_option autoImplicit false
set_option maxRecDepth 8000

/-! ## Faults -/

/-- Ways in which a run leaves the normal control flow. -/
inductive Fault where
  /-- `std::runtime_error` thrown by `sta::stack::pop` on an empty stack. -/
  | pop_on_empty
  /-- `std::runtime_error` thrown by `sta::stack::top` on an empty stack. -/
  | top_on_empty
  /-- An integer division or remainder whose behaviour is undefined was
  executed: by zero, or of the smallest value of the working type by `-1` (the
  quotient is not representable); the machine stops the run. -/
  | division_trap
  /-- The iteration budget of a loop of the model ran out. -/
  | out_of_fuel
  /-- A read or a write beyond the last cell of a string or of a storage
  area. -/
  | index_out_of_range
  deriving DecidableEq, Repr

/-! ## Tokens and parser results -/

namespace Token

/-- Modelled from the spec: the header `token.h` is missing; the four kinds are
the ones `infix_to_postfix` distinguishes (`OPERAND`, `OPEN_PARENTHESES`,
`CLOSE_PARENTHESES`, and the remaining kind, the operators). -/
inductive token_t where
  | OPERAND
  | OPERATOR
  | OPEN_PARENTHESES
  | CLOSE_PARENTHESES
  deriving DecidableEq, Repr

end Token

/-- Modelled from the spec: the header `token.h` is missing; the fields are the
two that `bares_manager.cpp` reads, `value` (the text) and `type` (the kind). -/
structure Token where
  value : String
  type : Token.token_t
  deriving DecidableEq, Repr

namespace Parser

/-- Modelled from the spec: the header `parser.h` is missing; the members are
the cases of the switch in `print_error_msg` together with `OK`. -/
inductive code_t where
  | OK
  | UNEXPECTED_END_OF_EXPRESSION
  | ILL_FORMED_INTEGER
  | MISSING_TERM
  | EXTRANEOUS_SYMBOL
  | INTEGER_OUT_OF_RANGE
  | MISSING_CLOSING
  | DIVISION_BY_ZERO
  | OVERFLOW_ERROR
  deriving DecidableEq, Repr

/-- Modelled from the spec: the header `parser.h` is missing; a result carries
the two fields `print_error_msg` reads, the kind and the 0-based column. -/
structure ResultType where
  type : code_t
  at_col : Nat
  deriving DecidableEq, Repr

/-- Modelled from the spec: the header `parser.h` is missing; a result built
from a kind alone, as in `Parser::ResultType{ code }`, has column 0. -/
def ResultType.of (c : code_t) : ResultType := ⟨c, 0⟩

end Parser

/-! ## The working integer type -/

/-- Reduction of an exact integer to 64-bit two's complement. -/
def wrap64 (x : Int) : Int := (x + 2 ^ 63) % 2 ^ 64 - 2 ^ 63

/-- Smallest value of the working type. -/
def LLONG_MIN : Int := -(2 ^ 63)

/-- Largest value of the working type. -/
def LLONG_MAX : Int := 2 ^ 63 - 1

/-- The white space characters that `atoll` skips. -/
def isspace (c : Char) : Bool :=
  c == ' ' || (9 ≤ c.toNat && c.toNat ≤ 13)

/-- Value of the leading run of decimal digits, continuing from `acc`. -/
def atoll_digits : List Char → Nat → Nat
  | [], acc => acc
  | c :: cs, acc =>
    if c.isDigit then atoll_digits cs (acc * 10 + (c.toNat - 48)) else acc

/-- Saturation at the limits of the working type. -/
def clamp64 (x : Int) : Int :=
  if x < LLONG_MIN then LLONG_MIN else if x > LLONG_MAX then LLONG_MAX else x

/-- The library routine `atoll`: skip white space, read an optional sign and
the digits that follow, stop at the first other character. A value that does
not fit saturates, as in the C library this program is linked with. -/
def atoll (s : String) : Int :=
  match s.data.dropWhile isspace with
  | '-' :: ds => clamp64 (-(atoll_digits ds 0 : Int))
  | '+' :: ds => clamp64 (atoll_digits ds 0 : Int)
  | ds => clamp64 (atoll_digits ds 0 : Int)

/-! ## `sta::stack` -/

namespace sta

/-- The container of `stack.h`: size, capacity and storage area. -/
structure stack (T : Type) where
  m_end : Nat
  m_capacity : Nat
  m_storage : List T
  deriving Repr

namespace stack

variable {T : Type}

/-- The constructor: no element, no capacity, an empty storage area. -/
def new : stack T := ⟨0, 0, []⟩

/-- `push`: when full, move to a storage area of capacity one (from zero) or
twice the old one, copying the live elements; then write at `m_end`. -/
def push [Inhabited T] (s : stack T) (element : T) : stack T × Bool :=
  let s1 : stack T :=
    if s.m_end ≥ s.m_capacity then
      let cap := if s.m_capacity = 0 then s.m_capacity + 1 else s.m_capacity * 2
      ⟨s.m_end, cap, s.m_storage.take s.m_end ++ List.replicate (cap - s.m_end) default⟩
    else s
  (⟨s1.m_end + 1, s1.m_capacity, s1.m_storage.set s1.m_end element⟩, true)

/-- `pop`: throws on an empty stack, otherwise returns the last element and
shrinks the stack by one. -/
def pop [Inhabited T] (s : stack T) : Except Fault (T × stack T) :=
  if s.m_end = 0 then .error Fault.pop_on_empty
  else .ok (s.m_storage.getD (s.m_end - 1) default, ⟨s.m_end - 1, s.m_capacity, s.m_storage⟩)

/-- `top`: throws on an empty stack, otherwise returns the last element. -/
def top [Inhabited T] (s : stack T) : Except Fault T :=
  if s.m_end = 0 then .error Fault.top_on_empty
  else .ok (s.m_storage.getD (s.m_end - 1) default)

/-- `empty`: whether the stack holds no element. -/
def empty (s : stack T) : Bool := s.m_end == 0

/-- `size`: the number of stored elements. -/
def size (s : stack T) : Nat := s.m_end

end stack

end sta

instance : Inhabited Token := ⟨⟨"", Token.token_t.OPERAND⟩⟩

/-! ## `BaresManager` -/

/-- The private members of `BaresManager`. -/
structure BaresManager where
  status : Parser.ResultType
  tokens : List Token
  final_value : Int
  deriving DecidableEq, Repr

namespace BaresManager

open Token.token_t

/-- `prec`: the precedence of an operator text. -/
def prec (c : String) : Int :=
  if c = "^" then 3
  else if c = "/" ∨ c = "*" ∨ c = "%" then 2
  else if c = "+" ∨ c = "-" then 1
  else -1

/-- The loop run on a closing parenthesis: move the top of the stack to the
output until the top is an opening parenthesis. -/
def close_loop : Nat → sta.stack Token → List Token →
    Except Fault (sta.stack Token × List Token)
  | fuel, st, pf =>
    match st.top with
    | .error e => .error e
    | .ok t =>
      if t.type ≠ OPEN_PARENTHESES then
        match fuel with
        | 0 => .error Fault.out_of_fuel
        | f + 1 =>
          match st.pop with
          | .error e => .error e
          | .ok (_, st1) => close_loop f st1 (pf ++ [t])
      else .ok (st, pf)

/-- The loop run on an operator whose text is `v`: move the top of the stack to
the output while the stack is not empty and the precedence of `v` is at most
that of the top. -/
def operator_loop (v : String) : Nat → sta.stack Token → List Token →
    Except Fault (sta.stack Token × List Token)
  | fuel, st, pf =>
    if st.empty then .ok (st, pf)
    else
      match st.top with
      | .error e => .error e
      | .ok t =>
        if prec v ≤ prec t.value then
          match fuel with
          | 0 => .error Fault.out_of_fuel
          | f + 1 =>
            match st.pop with
            | .error e => .error e
            | .ok (_, st1) => operator_loop v f st1 (pf ++ [t])
        else .ok (st, pf)

/-- The loop run after the last token: move every remaining element of the
stack to the output. -/
def drain_loop : Nat → sta.stack Token → List Token →
    Except Fault (sta.stack Token × List Token)
  | fuel, st, pf =>
    if st.empty then .ok (st, pf)
    else
      match st.top with
      | .error e => .error e
      | .ok t =>
        match fuel with
        | 0 => .error Fault.out_of_fuel
        | f + 1 =>
          match st.pop with
          | .error e => .error e
          | .ok (_, st1) => drain_loop f st1 (pf ++ [t])

/-- One round of the `for` loop of `infix_to_postfix`, on the token `c`. -/
def infix_step (c : Token) (st : sta.stack Token) (pf : List Token) :
    Except Fault (sta.stack Token × List Token) :=
  if c.type = OPERAND then .ok (st, pf ++ [c])
  else if c.type = OPEN_PARENTHESES then .ok ((st.push c).1, pf)
  else if c.type = CLOSE_PARENTHESES then
    match close_loop st.m_end st pf with
    | .error e => .error e
    | .ok (st1, pf1) =>
      match st1.pop with
      | .error e => .error e
      | .ok (_, st2) => .ok (st2, pf1)
  else
    match operator_loop c.value st.m_end st pf with
    | .error e => .error e
    | .ok (st1, pf1) => .ok ((st1.push c).1, pf1)

/-- The `for` loop of `infix_to_postfix` over the tokens still to be read. -/
def infix_loop : List Token → sta.stack Token → List Token →
    Except Fault (sta.stack Token × List Token)
  | [], st, pf => .ok (st, pf)
  | c :: rest, st, pf =>
    match infix_step c st pf with
    | .error e => .error e
    | .ok (st1, pf1) => infix_loop rest st1 pf1

/-- `infix_to_postfix`: replace the tokens of the manager by their postfix
order. -/
def infix_to_postfix (bm : BaresManager) : Except Fault BaresManager :=
  match infix_loop bm.tokens sta.stack.new [] with
  | .error e => .error e
  | .ok (st, pf) =>
    match drain_loop st.m_end st pf with
    | .error e => .error e
    | .ok (_, pf1) => .ok ⟨bm.status, pf1, bm.final_value⟩

/-- First character of the text of a token, as read through `c_value[0]`; the
terminating zero when the text is empty. -/
def c_value0 (c : Token) : Char := c.value.data.headD (Char.ofNat 0)

/-- The `while (second_operand != 1)` loop of the power case. -/
def pow_loop (first_operand : Int) : Nat → Int → Int → Except Fault Int
  | fuel, expo, second_operand =>
    if second_operand ≠ 1 then
      match fuel with
      | 0 => .error Fault.out_of_fuel
      | f + 1 => pow_loop first_operand f (wrap64 (expo * first_operand)) (wrap64 (second_operand - 1))
    else .ok expo

/-- The `switch` of `calculate`: the new value of `result`. The operators `/`
and `%` of the working type are undefined for a zero divisor and for the
smallest value divided by `-1`. -/
def apply_operator (op : Char) (first_operand second_operand result : Int) :
    Except Fault Int :=
  if op = '+' then .ok (wrap64 (first_operand + second_operand))
  else if op = '-' then .ok (wrap64 (first_operand - second_operand))
  else if op = '*' then .ok (wrap64 (first_operand * second_operand))
  else if op = '/' then
    if second_operand = 0 ∨ (first_operand = LLONG_MIN ∧ second_operand = -1) then
      .error Fault.division_trap
    else .ok (wrap64 (Int.tdiv first_operand second_operand))
  else if op = '%' then
    if second_operand = 0 ∨ (first_operand = LLONG_MIN ∧ second_operand = -1) then
      .error Fault.division_trap
    else .ok (wrap64 (Int.tmod first_operand second_operand))
  else if op = '^' then
    if second_operand = 0 then .ok 1
    else if second_operand < 0 then .ok 0
    else pow_loop first_operand second_operand.toNat first_operand second_operand
  else .ok result

/-- State of the `for` loop of `calculate`: the operand stack, the local
`result`, the member `status`. -/
structure CalcState where
  st : sta.stack Int
  result : Int
  status : Parser.ResultType
  deriving Repr

/-- The `for` loop of `calculate` over the tokens still to be read; the range
test that follows a computation leaves the loop at once. -/
def calculate_loop (MIN MAX : Int) : List Token → CalcState → Except Fault CalcState
  | [], s => .ok s
  | c :: rest, s =>
    if c.type = OPERAND then
      calculate_loop MIN MAX rest ⟨(s.st.push (atoll c.value)).1, s.result, s.status⟩
    else
      match s.st.top with
      | .error e => .error e
      | .ok second_operand =>
        match s.st.pop with
        | .error e => .error e
        | .ok (_, st1) =>
          match st1.top with
          | .error e => .error e
          | .ok first_operand =>
            match st1.pop with
            | .error e => .error e
            | .ok (_, st2) =>
              if second_operand = 0 ∧ (c_value0 c = '/' ∨ c_value0 c = '%') then
                calculate_loop MIN MAX rest
                  ⟨(st2.push s.result).1, s.result,
                    Parser.ResultType.of Parser.code_t.DIVISION_BY_ZERO⟩
              else
                match apply_operator (c_value0 c) first_operand second_operand s.result with
                | .error e => .error e
                | .ok result =>
                  if result < MIN ∨ result > MAX then .ok ⟨st2, result, s.status⟩
                  else calculate_loop MIN MAX rest ⟨(st2.push result).1, result, s.status⟩

/-- `calculate`: evaluate the postfix tokens of the manager. -/
def calculate (MIN MAX : Int) (bm : BaresManager) : Except Fault BaresManager :=
  match calculate_loop MIN MAX bm.tokens ⟨sta.stack.new, 0, bm.status⟩ with
  | .error e => .error e
  | .ok s =>
    match (if s.st.size = 1 then
            match s.st.top with
            | .error e => .error e
            | .ok r =>
              match s.st.pop with
              | .error e => .error e
              | .ok (_, st1) => .ok (st1, r)
           else .ok (s.st, s.result) : Except Fault (sta.stack Int × Int)) with
    | .error e => .error e
    | .ok (_, result) =>
      if result < MIN ∨ result > MAX then
        .ok ⟨Parser.ResultType.of Parser.code_t.OVERFLOW_ERROR, bm.tokens, bm.final_value⟩
      else .ok ⟨s.status, bm.tokens, result⟩

end BaresManager

/-! ## The stack as a list

`Rep s l` says that the stack `s` is well formed (`m_end ≤ m_capacity`, the
storage area has `m_capacity` cells) and that its live elements, read from the
top down, are the list `l`. -/

namespace sta.stack

variable {T : Type}

/-- The elements of the stack, the most recently pushed one first. -/
def toList (s : stack T) : List T := (s.m_storage.take s.m_end).reverse

/-- Well-formedness together with the contents. -/
def Rep (s : stack T) (l : List T) : Prop :=
  s.m_end ≤ s.m_capacity ∧ s.m_storage.length = s.m_capacity ∧ s.toList = l

end sta.stack

deriving instance DecidableEq for Except

/-! ## The two algorithms over lists

The same loops with the stack read as a list (top first). They are proved equal
to the loops over `sta.stack` below and carry the inductions. -/

namespace BaresManager

open Token.token_t

/-- List view of `close_loop`. -/
def close_list : List Token → List Token → Except Fault (List Token × List Token)
  | [], _ => .error Fault.top_on_empty
  | t :: l, pf =>
    if t.type ≠ OPEN_PARENTHESES then close_list l (pf ++ [t]) else .ok (t :: l, pf)

/-- Move the top of the stack to the output while its precedence is at least
`p`. -/
def flush (p : Int) : List Token → List Token → List Token × List Token
  | [], pf => ([], pf)
  | t :: l, pf => if p ≤ prec t.value then flush p l (pf ++ [t]) else (t :: l, pf)

/-- List view of `infix_step`. -/
def infix_step_list (c : Token) (l pf : List Token) :
    Except Fault (List Token × List Token) :=
  if c.type = OPERAND then .ok (l, pf ++ [c])
  else if c.type = OPEN_PARENTHESES then .ok (c :: l, pf)
  else if c.type = CLOSE_PARENTHESES then
    match close_list l pf with
    | .error e => .error e
    | .ok ([], _) => .error Fault.pop_on_empty
    | .ok (_ :: l2, pf1) => .ok (l2, pf1)
  else .ok (c :: (flush (prec c.value) l pf).1, (flush (prec c.value) l pf).2)

/-- List view of `infix_loop`. -/
def infix_loop_list : List Token → List Token → List Token →
    Except Fault (List Token × List Token)
  | [], l, pf => .ok (l, pf)
  | c :: rest, l, pf =>
    match infix_step_list c l pf with
    | .error e => .error e
    | .ok (l1, pf1) => infix_loop_list rest l1 pf1

/-- List view of the conversion: the postfix order of a token list. -/
def postfix_of (ts : List Token) : Except Fault (List Token) :=
  match infix_loop_list ts [] [] with
  | .error e => .error e
  | .ok (l, pf) => .ok (pf ++ l)

/-- List view of `calculate_loop`: operand stack, `result`, `status`. -/
def calculate_list (MIN MAX : Int) : List Token → List Int → Int → Parser.ResultType →
    Except Fault (List Int × Int × Parser.ResultType)
  | [], l, r, s => .ok (l, r, s)
  | c :: rest, l, r, s =>
    if c.type = OPERAND then calculate_list MIN MAX rest (atoll c.value :: l) r s
    else
      match l with
      | [] => .error Fault.top_on_empty
      | [_] => .error Fault.top_on_empty
      | second_operand :: first_operand :: l2 =>
        if second_operand = 0 ∧ (c_value0 c = '/' ∨ c_value0 c = '%') then
          calculate_list MIN MAX rest (r :: l2) r
            (Parser.ResultType.of Parser.code_t.DIVISION_BY_ZERO)
        else
          match apply_operator (c_value0 c) first_operand second_operand r with
          | .error e => .error e
          | .ok result =>
            if result < MIN ∨ result > MAX then .ok (l2, result, s)
            else calculate_list MIN MAX rest (result :: l2) result s

/-- List view of the end of `calculate`: the status and the final value left
by a finished loop. -/
def calculate_finish (MIN MAX : Int) (bm : BaresManager)
    (out : List Int × Int × Parser.ResultType) : BaresManager :=
  let result := if out.1.length = 1 then out.1.headD 0 else out.2.1
  if result < MIN ∨ result > MAX then
    ⟨Parser.ResultType.of Parser.code_t.OVERFLOW_ERROR, bm.tokens, bm.final_value⟩
  else ⟨out.2.2, bm.tokens, result⟩

end BaresManager

/-! ## Reference semantics of infix expressions

A parse tree of the grammar `expr := term { op term }`,
`term := OPERAND | "(" expr ")"`. `Valid` keeps the trees in which the operators
group by precedence (`^` over `* / %` over `+ -`) and, at equal precedence, to
the left; `value_ref` is the exact integer value of such a tree. -/

/-- Parse trees of infix expressions. -/
inductive ExprTree where
  | leaf (t : Token)
  | group (lp : Token) (e : ExprTree) (rp : Token)
  | node (l : ExprTree) (op : Token) (r : ExprTree)
  deriving DecidableEq, Repr

namespace ExprTree

open Token.token_t

/-- The infix token sequence a tree stands for. -/
def tokens_of : ExprTree → List Token
  | leaf t => [t]
  | group lp e rp => lp :: (tokens_of e ++ [rp])
  | node l op r => tokens_of l ++ op :: tokens_of r

/-- The postfix token sequence of a tree: operands in order, every operator
after its two operands, no parenthesis. -/
def postfix_tokens : ExprTree → List Token
  | leaf t => [t]
  | group _ e _ => postfix_tokens e
  | node l op r => postfix_tokens l ++ (postfix_tokens r ++ [op])

/-- An operator token: kind `OPERATOR`, text one of `+ - * / % ^`. -/
def is_operator (t : Token) : Prop :=
  t.type = OPERATOR ∧
    (t.value = "+" ∨ t.value = "-" ∨ t.value = "*" ∨ t.value = "/" ∨ t.value = "%" ∨
      t.value = "^")

/-- Precedence of the operator at the root; a term (operand or parenthesised
expression) binds tighter than every operator. -/
def root_prec : ExprTree → Int
  | node _ op _ => BaresManager.prec op.value
  | _ => 4

/-- The tree is a parse by the reference rules: the left operand of an operator
holds no looser top operator (left associativity at equal precedence), the right
operand only strictly tighter ones. -/
def Valid : ExprTree → Prop
  | leaf t => t.type = OPERAND
  | group lp e rp =>
    (lp.type = OPEN_PARENTHESES ∧ lp.value = "(") ∧
      (rp.type = CLOSE_PARENTHESES ∧ rp.value = ")") ∧ Valid e
  | node l op r =>
    is_operator op ∧ Valid l ∧ Valid r ∧
      BaresManager.prec op.value ≤ root_prec l ∧ BaresManager.prec op.value < root_prec r

/-- Reference power: `x ^ 0 = 1`, `x ^ negative = 0`, otherwise the exact
power. -/
def pow_ref (a b : Int) : Int :=
  if b = 0 then 1 else if b < 0 then 0 else a ^ b.toNat

/-- Reference meaning of the operators on exact integers: `/` truncates toward
zero, `%` takes the sign of the dividend. -/
def apply_ref (op : String) (a b : Int) : Int :=
  if op = "+" then a + b
  else if op = "-" then a - b
  else if op = "*" then a * b
  else if op = "/" then Int.tdiv a b
  else if op = "%" then Int.tmod a b
  else pow_ref a b

/-- Exact value of a tree. -/
def value_ref : ExprTree → Int
  | leaf t => atoll t.value
  | group _ e _ => value_ref e
  | node l op r => apply_ref op.value (value_ref l) (value_ref r)

/-- No division or remainder has a zero right operand, and the value of every
operation lies within `[MIN, MAX]`. -/
def Safe (MIN MAX : Int) : ExprTree → Prop
  | leaf _ => True
  | group _ e _ => Safe MIN MAX e
  | node l op r =>
    Safe MIN MAX l ∧ Safe MIN MAX r ∧
      ((op.value = "/" ∨ op.value = "%") → value_ref r ≠ 0) ∧
      (MIN ≤ value_ref (node l op r) ∧ value_ref (node l op r) ≤ MAX)

/-- Append `op t` to an expression by the reference rules: the new operator
takes as its left operand the longest right part of the expression whose
operators all bind at least as tightly as `op`. -/
def attach (e : ExprTree) (op : Token) (t : ExprTree) : ExprTree :=
  match e with
  | node l o r =>
    if BaresManager.prec o.value < BaresManager.prec op.value then node l o (attach r op t)
    else node (node l o r) op t
  | leaf x => node (leaf x) op t
  | group lp x rp => node (group lp x rp) op t

/-- Regroup a derivation of `expr := term { op term }` by precedence. -/
def regroup : ExprTree → ExprTree
  | leaf t => leaf t
  | group lp e rp => group lp (regroup e) rp
  | node l op r => attach (regroup l) op (regroup r)

/-- A term of the grammar: an operand or a parenthesised expression. -/
def is_term : ExprTree → Prop
  | node _ _ _ => False
  | _ => True

/-- The tree is a derivation of the grammar `expr := term { op term }`,
`term := OPERAND | "(" expr ")"`, the repetition read as a left comb. -/
def Grammar : ExprTree → Prop
  | leaf t => t.type = OPERAND
  | group lp e rp =>
    (lp.type = OPEN_PARENTHESES ∧ lp.value = "(") ∧
      (rp.type = CLOSE_PARENTHESES ∧ rp.value = ")") ∧ Grammar e
  | node l op r => is_operator op ∧ Grammar l ∧ Grammar r ∧ is_term r

instance instDecidableIsOperator (t : Token) : Decidable (is_operator t) :=
  inferInstanceAs (Decidable (_ ∧ _))

instance instDecidableValid : (e : ExprTree) → Decidable (Valid e)
  | leaf t => inferInstanceAs (Decidable (t.type = OPERAND))
  | group lp e rp =>
    let _ := instDecidableValid e
    inferInstanceAs (Decidable ((lp.type = OPEN_PARENTHESES ∧ lp.value = "(") ∧
      (rp.type = CLOSE_PARENTHESES ∧ rp.value = ")") ∧ Valid e))
  | node l op r =>
    let _ := instDecidableValid l
    let _ := instDecidableValid r
    inferInstanceAs (Decidable (is_operator op ∧ Valid l ∧ Valid r ∧
      BaresManager.prec op.value ≤ root_prec l ∧ BaresManager.prec op.value < root_prec r))

instance instDecidableIsTerm : (e : ExprTree) → Decidable (is_term e)
  | leaf _ => inferInstanceAs (Decidable True)
  | group _ _ _ => inferInstanceAs (Decidable True)
  | node _ _ _ => inferInstanceAs (Decidable False)

instance instDecidableGrammar : (e : ExprTree) → Decidable (Grammar e)
  | leaf t => inferInstanceAs (Decidable (t.type = OPERAND))
  | group lp e rp =>
    let _ := instDecidableGrammar e
    inferInstanceAs (Decidable ((lp.type = OPEN_PARENTHESES ∧ lp.value = "(") ∧
      (rp.type = CLOSE_PARENTHESES ∧ rp.value = ")") ∧ Grammar e))
  | node l op r =>
    let _ := instDecidableGrammar l
    let _ := instDecidableGrammar r
    inferInstanceAs (Decidable (is_operator op ∧ Grammar l ∧ Grammar r ∧ is_term r))

instance instDecidableSafe (MIN MAX : Int) : (e : ExprTree) → Decidable (Safe MIN MAX e)
  | leaf _ => inferInstanceAs (Decidable True)
  | group _ e _ => instDecidableSafe MIN MAX e
  | node l op r =>
    let _ := instDecidableSafe MIN MAX l
    let _ := instDecidableSafe MIN MAX r
    inferInstanceAs (Decidable (Safe MIN MAX l ∧ Safe MIN MAX r ∧
      ((op.value = "/" ∨ op.value = "%") → value_ref r ≠ 0) ∧
      (MIN ≤ value_ref (node l op r) ∧ value_ref (node l op r) ≤ MAX)))

end ExprTree

namespace BaresManager

open Token.token_t

/-- Every token on the operator stack is an operator or an opening
parenthesis. -/
def StackOK (l : List Token) : Prop :=
  ∀ t ∈ l, ExprTree.is_operator t ∨ (t.type = OPEN_PARENTHESES ∧ t.value = "(")

/-- The top of the operator stack, if any, has precedence below `q`. -/
def TopBelow (l : List Token) (q : Int) : Prop :=
  ∀ t ∈ l.head?, prec t.value < q

end BaresManager

/-! ## Tokens of concrete expressions -/

namespace Token

/-- An operand token with the given text. -/
def operand (s : String) : Token := ⟨s, token_t.OPERAND⟩

/-- An operator token with the given text. -/
def operator (s : String) : Token := ⟨s, token_t.OPERATOR⟩

/-- The opening parenthesis token. -/
def open_paren : Token := ⟨"(", token_t.OPEN_PARENTHESES⟩

/-- The closing parenthesis token. -/
def close_paren : Token := ⟨")", token_t.CLOSE_PARENTHESES⟩

end Token

namespace BaresManager

/-- The status `OK`, as the parser hands it over. -/
def status_ok : Parser.ResultType := Parser.ResultType.of Parser.code_t.OK

/-- The bounds of a 16-bit result domain. -/
def SHRT_MIN : Int := -32768

/-- The bounds of a 16-bit result domain. -/
def SHRT_MAX : Int := 32767

/-- A value lies within the result domain. -/
def in_bounds (MIN MAX x : Int) : Prop := MIN ≤ x ∧ x ≤ MAX

instance (MIN MAX x : Int) : Decidable (in_bounds MIN MAX x) :=
  inferInstanceAs (Decidable (_ ∧ _))

/-- Derivation of `2 * (3 + 4) - 5 % 3` by the grammar: the terms `2`,
`(3 + 4)`, `5`, `3` joined in reading order by `*`, `-`, `%`. -/
def sample_derivation : ExprTree :=
  .node
    (.node
      (.node (.leaf (Token.operand "2")) (Token.operator "*")
        (.group Token.open_paren
          (.node (.leaf (Token.operand "3")) (Token.operator "+") (.leaf (Token.operand "4")))
          Token.close_paren))
      (Token.operator "-") (.leaf (Token.operand "5")))
    (Token.operator "%") (.leaf (Token.operand "3"))

/-- Parse tree of `2 * (3 + 4) - 5 % 3` by the reference rules. -/
def sample_tree : ExprTree :=
  .node
    (.node (.leaf (Token.operand "2")) (Token.operator "*")
      (.group Token.open_paren
        (.node (.leaf (Token.operand "3")) (Token.operator "+") (.leaf (Token.operand "4")))
        Token.close_paren))
    (Token.operator "-")
    (.node (.leaf (Token.operand "5")) (Token.operator "%") (.leaf (Token.operand "3")))

end BaresManager

/-! ## Messages and the pipeline of one line -/

/-- The decimal text `operator<<` renders an integer with: the digits, after a
`-` when the integer is negative. -/
def decimal (n : Int) : String :=
  if n < 0 then "-" ++ Nat.repr n.natAbs else Nat.repr n.toNat

/-- Modelled from the spec: the header `parser.h` and the parser are missing; a
lexer is a function from a line to what `parse_and_tokenize` returns and what
`get_tokens` returns afterwards. -/
abbrev Lexer := String → Parser.ResultType × List Token

namespace BaresManager

open Parser.code_t

/-- `print_error_msg`: the text sent to the standard output. The function first
writes `'^'` at index `at_col` of a string of `str.size() + 1` blanks, which is
outside that string when `at_col` exceeds the size of `str`. -/
def print_error_msg (result : Parser.ResultType) (str : String) : Except Fault String :=
  if result.at_col > str.utf8ByteSize then .error Fault.index_out_of_range
  else
    .ok (match result.type with
      | UNEXPECTED_END_OF_EXPRESSION =>
        "Unexpected end of input at column (" ++ Nat.repr (result.at_col + 1) ++ ")!\n"
      | ILL_FORMED_INTEGER =>
        "Ill formed integer at column (" ++ Nat.repr (result.at_col + 1) ++ ")!\n"
      | MISSING_TERM =>
        "Missing <term> at column (" ++ Nat.repr (result.at_col + 1) ++ ")!\n"
      | EXTRANEOUS_SYMBOL =>
        "Extraneous symbol after valid expression found at column (" ++
          Nat.repr (result.at_col + 1) ++ ")!\n"
      | INTEGER_OUT_OF_RANGE =>
        "Integer constant out of range beginning at column (" ++
          Nat.repr (result.at_col + 1) ++ ")!\n"
      | MISSING_CLOSING =>
        "Missing closing \")\" at column (" ++ Nat.repr (result.at_col + 1) ++ ")!\n"
      | DIVISION_BY_ZERO => "Division by zero!\n"
      | OVERFLOW_ERROR => "Numeric overflow error!\n"
      | OK => "Unhandled error found!\n")

/-- `parse_and_compute`: reset the final value, run the lexer, and on success
convert, evaluate and print the value; print the diagnostic otherwise. `out` is
the list of lines emitted so far. -/
def parse_and_compute (lexer : Lexer) (MIN MAX : Int) (bm : BaresManager) (expr : String)
    (out : List String) : Except Fault (BaresManager × List String) :=
  let bm0 : BaresManager := ⟨(lexer expr).1, bm.tokens, 0⟩
  if bm0.status.type ≠ OK then
    match print_error_msg bm0.status expr with
    | .error e => .error e
    | .ok msg => .ok (bm0, out ++ [msg])
  else
    match infix_to_postfix ⟨bm0.status, (lexer expr).2, bm0.final_value⟩ with
    | .error e => .error e
    | .ok bm1 =>
      match calculate MIN MAX bm1 with
      | .error e => .error e
      | .ok bm2 =>
        if bm2.status.type ≠ OK then
          match print_error_msg bm2.status expr with
          | .error e => .error e
          | .ok msg => .ok (bm2, out ++ [msg])
        else .ok (bm2, out ++ [decimal bm2.final_value ++ "\n"])

/-- What an observer of one run sees besides the token list: the emitted lines,
the status and the final value (or the fault). -/
def observe (r : Except Fault (BaresManager × List String)) :
    Except Fault (Parser.ResultType × Int × List String) :=
  match r with
  | .error e => .error e
  | .ok (bm, out) => .ok (bm.status, bm.final_value, out)

/-- A stand-in for the missing lexer on the lines `4 + 3` and `5 * 4 / 0`; every
other line is reported as a missing term at column 0. -/
def sample_lexer : Lexer := fun expr =>
  if expr = "4 + 3" then
    (status_ok, [Token.operand "4", Token.operator "+", Token.operand "3"])
  else if expr = "5 * 4 / 0" then
    (status_ok,
      [Token.operand "5", Token.operator "*", Token.operand "4", Token.operator "/",
        Token.operand "0"])
  else (⟨MISSING_TERM, 0⟩, [])

/-- A stand-in for the missing lexer that rejects every line with a missing
closing parenthesis at column 0 and hands over a token list on which the
conversion would throw. -/
def rejecting_lexer : Lexer := fun _ => (⟨MISSING_CLOSING, 0⟩, [Token.close_paren])

end BaresManager

namespace sta.stack

variable {T : Type}

/-- The invariant of the container: the size is at most the capacity and the
storage area has exactly `m_capacity` cells. -/
def WellFormed (s : stack T) : Prop :=
  s.m_end ≤ s.m_capacity ∧ s.m_storage.length = s.m_capacity

instance (s : stack T) : Decidable (WellFormed s) :=
  inferInstanceAs (Decidable (_ ∧ _))

/-- Push the elements of a list, the first one first. -/
def push_all [Inhabited T] (s : stack T) : List T → stack T
  | [] => s
  | x :: xs => push_all (s.push x).1 xs

/-- Pop `n` times, collecting the returned elements in the order of the calls. -/
def pop_n [Inhabited T] : Nat → stack T → Except Fault (List T × stack T)
  | 0, s => .ok ([], s)
  | n + 1, s =>
    match s.pop with
    | .error e => .error e
    | .ok (x, s1) =>
      match pop_n n s1 with
      | .error e => .error e
      | .ok (xs, s2) => .ok (x :: xs, s2)

end sta.stack

/-- A value of the working type. -/
def In64 (x : Int) : Prop := LLONG_MIN ≤ x ∧ x ≤ LLONG_MAX

namespace BaresManager

open Parser.code_t

/-- The first nine characters of the message `print_error_msg` emits for a
kind. -/
def message_key : Parser.code_t → List Char
  | UNEXPECTED_END_OF_EXPRESSION => "Unexpecte".data
  | ILL_FORMED_INTEGER => "Ill forme".data
  | MISSING_TERM => "Missing <".data
  | EXTRANEOUS_SYMBOL => "Extraneou".data
  | INTEGER_OUT_OF_RANGE => "Integer c".data
  | MISSING_CLOSING => "Missing c".data
  | DIVISION_BY_ZERO => "Division ".data
  | OVERFLOW_ERROR => "Numeric o".data
  | OK => "Unhandled".data

/-- The kinds whose message reports a column. -/
def reports_column (c : Parser.code_t) : Prop :=
  c = UNEXPECTED_END_OF_EXPRESSION ∨ c = ILL_FORMED_INTEGER ∨ c = MISSING_TERM ∨
    c = EXTRANEOUS_SYMBOL ∨ c = INTEGER_OUT_OF_RANGE ∨ c = MISSING_CLOSING

instance (c : Parser.code_t) : Decidable (reports_column c) :=
  inferInstanceAs (Decidable (_ ∨ _))

end BaresManager

/-! ## `sc::vector`

The container of `vector.h` with its three fields. A storage area is a list of
cells; `load` and `store` are the accesses `m_storage[i]`, which fault outside
the area. `size_type` is a 64-bit unsigned integer and a counter declared
`auto i{0u}` a 32-bit one; their wraparound is kept where a loop counter can
reach it. -/

/-- The number of values of `size_type`. -/
def SIZE_MODULUS : Nat := 2 ^ 64

/-- The number of values of `unsigned`, the type of a counter declared
`auto i{0u}`. -/
def UINT_MODULUS : Nat := 2 ^ 32

/-- The read `m_storage[i]`. -/
def load {T : Type} (s : List T) (i : Nat) : Except Fault T :=
  match s[i]? with
  | some x => .ok x
  | none => .error Fault.index_out_of_range

/-- The write `m_storage[i] = x`. -/
def store {T : Type} (s : List T) (i : Nat) (x : T) : Except Fault (List T) :=
  if i < s.length then .ok (s.set i x) else .error Fault.index_out_of_range

/-- `std::copy(src + first, src + last, dst + d_first)` between two distinct
storage areas. -/
def copy_range {T : Type} (src : List T) (first last : Nat) (dst : List T) (d_first : Nat) :
    Except Fault (List T) :=
  if first > last ∨ last > src.length ∨ d_first + (last - first) > dst.length then
    .error Fault.index_out_of_range
  else
    .ok (dst.take d_first ++ ((src.drop first).take (last - first) ++
      dst.drop (d_first + (last - first))))

namespace sc

/-- The container of `vector.h`: size, capacity and storage area. -/
structure vector (T : Type) where
  m_end : Nat
  m_capacity : Nat
  m_storage : List T
  deriving DecidableEq, Repr

namespace vector

variable {T : Type}

/-- The constructor `vector(value)`: `value` default elements. -/
def new [Inhabited T] (value : Nat) : vector T :=
  ⟨value, value, List.replicate value default⟩

/-- The copy constructor: a storage area of `vec.m_end` cells, filled with the
elements of `vec`, under the capacity of `vec`. -/
def copy [Inhabited T] (vec : vector T) : Except Fault (vector T) :=
  match copy_range vec.m_storage 0 vec.m_end (List.replicate vec.m_end default) 0 with
  | .error e => .error e
  | .ok st => .ok ⟨vec.m_end, vec.m_capacity, st⟩

/-- `size`. -/
def size (v : vector T) : Nat := v.m_end

/-- `capacity`. -/
def capacity (v : vector T) : Nat := v.m_capacity

/-- The elements of the vector, from index 0 to `size - 1`. -/
def elements (v : vector T) : List T := v.m_storage.take v.m_end

/-- The invariant of the container: the size is at most the capacity and the
storage area has exactly `m_capacity` cells. -/
def WellFormed (v : vector T) : Prop :=
  v.m_end ≤ v.m_capacity ∧ v.m_storage.length = v.m_capacity

instance (v : vector T) : Decidable (WellFormed v) :=
  inferInstanceAs (Decidable (_ ∧ _))

/-- The capacity after the growth step shared by `push_back` and
`push_front`. -/
def grown_capacity (m_capacity : Nat) : Nat :=
  if m_capacity = 0 then m_capacity + 1 else m_capacity * 2

/-- `push_back`: when full, move to a storage area of the grown capacity; then
write at `m_end`. -/
def push_back [Inhabited T] (v : vector T) (value : T) : Except Fault (vector T) :=
  let grown : Except Fault (vector T) :=
    if v.m_end ≥ v.m_capacity then
      match copy_range v.m_storage 0 v.m_end
          (List.replicate (grown_capacity v.m_capacity) default) 0 with
      | .error e => .error e
      | .ok st => .ok ⟨v.m_end, grown_capacity v.m_capacity, st⟩
    else .ok v
  match grown with
  | .error e => .error e
  | .ok v1 =>
    match store v1.m_storage v1.m_end value with
    | .error e => .error e
    | .ok st => .ok ⟨v1.m_end + 1, v1.m_capacity, st⟩

/-- The loop `for (auto i{0u}; i < m_end; i++) m_storage[i + 1] = m_storage[i]`
of `push_front`, on the 32-bit counter `i`. -/
def push_front_loop (m_end : Nat) : Nat → Nat → List T → Except Fault (List T)
  | fuel, i, s =>
    if i < m_end then
      match fuel with
      | 0 => .error Fault.out_of_fuel
      | f + 1 =>
        match load s i with
        | .error e => .error e
        | .ok x =>
          match store s ((i + 1) % UINT_MODULUS) x with
          | .error e => .error e
          | .ok s1 => push_front_loop m_end f ((i + 1) % UINT_MODULUS) s1
    else .ok s

/-- `push_front`: when full, move to a storage area of the grown capacity with
the elements one cell further; otherwise run the loop; then write at 0. -/
def push_front [Inhabited T] (v : vector T) (value : T) : Except Fault (vector T) :=
  let shifted : Except Fault (vector T) :=
    if v.m_end ≥ v.m_capacity then
      match copy_range v.m_storage 0 v.m_end
          (List.replicate (grown_capacity v.m_capacity) default) 1 with
      | .error e => .error e
      | .ok st => .ok ⟨v.m_end, grown_capacity v.m_capacity, st⟩
    else
      match push_front_loop v.m_end v.m_end 0 v.m_storage with
      | .error e => .error e
      | .ok st => .ok ⟨v.m_end, v.m_capacity, st⟩
  match shifted with
  | .error e => .error e
  | .ok v1 =>
    match store v1.m_storage 0 value with
    | .error e => .error e
    | .ok st => .ok ⟨v1.m_end + 1, v1.m_capacity, st⟩

/-- The loop `do m_capacity *= 2; while (new_end > m_capacity)` of
`create_space`, entered with the capacity already doubled once. -/
def double_loop (new_end : Nat) : Nat → Nat → Except Fault Nat
  | fuel, m_capacity =>
    if new_end > m_capacity then
      match fuel with
      | 0 => .error Fault.out_of_fuel
      | f + 1 => double_loop new_end f (m_capacity * 2)
    else .ok m_capacity

/-- The loop `for (i = m_end - 1; i >= pos; i--) m_storage[i + size] =
m_storage[i]` of `create_space`, on the unsigned counter `i`. -/
def space_loop (pos size : Nat) : Nat → Nat → List T → Except Fault (List T)
  | fuel, i, s =>
    if i ≥ pos then
      match fuel with
      | 0 => .error Fault.out_of_fuel
      | f + 1 =>
        match load s i with
        | .error e => .error e
        | .ok x =>
          match store s ((i + size) % SIZE_MODULUS) x with
          | .error e => .error e
          | .ok s1 => space_loop pos size f ((i + SIZE_MODULUS - 1) % SIZE_MODULUS) s1
    else .ok s

/-- `create_space`: open `size` cells at `pos`, in a larger storage area when
the capacity does not suffice and by the loop otherwise. -/
def create_space [Inhabited T] (v : vector T) (pos size : Nat) : Except Fault (vector T) :=
  let new_end := v.m_end + size
  if new_end > v.m_capacity then
    match double_loop new_end new_end
        ((if v.m_capacity = 0 then v.m_capacity + 1 else v.m_capacity) * 2) with
    | .error e => .error e
    | .ok cap =>
      match copy_range v.m_storage 0 pos (List.replicate cap default) 0 with
      | .error e => .error e
      | .ok st1 =>
        match copy_range v.m_storage pos v.m_end st1 (pos + size) with
        | .error e => .error e
        | .ok st2 => .ok ⟨new_end, cap, st2⟩
  else
    match space_loop pos size (v.m_storage.length + 1)
        ((v.m_end + SIZE_MODULUS - 1) % SIZE_MODULUS) v.m_storage with
    | .error e => .error e
    | .ok st => .ok ⟨new_end, v.m_capacity, st⟩

/-- `insert(begin() + pos_, value)`: the vector afterwards and the returned
position. -/
def insert [Inhabited T] (v : vector T) (pos_ : Nat) (value : T) :
    Except Fault (vector T × Nat) :=
  match create_space v pos_ 1 with
  | .error e => .error e
  | .ok v1 =>
    match store v1.m_storage pos_ value with
    | .error e => .error e
    | .ok st => .ok (⟨v1.m_end, v1.m_capacity, st⟩, pos_)

/-- The loop `for (auto i{0u}; last + i != end(); i++) *(first + i) =
*(last + i)` of `erase`, on the 32-bit counter `i`. -/
def erase_loop (first last m_end : Nat) : Nat → Nat → List T → Except Fault (List T)
  | fuel, i, s =>
    if last + i ≠ m_end then
      match fuel with
      | 0 => .error Fault.out_of_fuel
      | f + 1 =>
        match load s (last + i) with
        | .error e => .error e
        | .ok x =>
          match store s (first + i) x with
          | .error e => .error e
          | .ok s1 => erase_loop first last m_end f ((i + 1) % UINT_MODULUS) s1
    else .ok s

/-- `erase(begin() + first, begin() + last)`: the vector afterwards and the
returned position. -/
def erase (v : vector T) (first last : Nat) : Except Fault (vector T × Nat) :=
  match erase_loop first last v.m_end (v.m_storage.length + 1) 0 v.m_storage with
  | .error e => .error e
  | .ok st => .ok (⟨v.m_end + first - last, v.m_capacity, st⟩, first)

/-- The loop `for (auto i{0u}; i < vec1.size(); i++)` of `operator==`, on the
32-bit counter `i`: false at the first index where the elements differ. -/
def eq_loop [DecidableEq T] (vec1 vec2 : vector T) : Nat → Nat → Except Fault Bool
  | fuel, i =>
    if i < vec1.size then
      match fuel with
      | 0 => .error Fault.out_of_fuel
      | f + 1 =>
        match load vec1.m_storage i with
        | .error e => .error e
        | .ok a =>
          match load vec2.m_storage i with
          | .error e => .error e
          | .ok b =>
            if a ≠ b then .ok false else eq_loop vec1 vec2 f ((i + 1) % UINT_MODULUS)
    else .ok true

/-- `operator==`. -/
def eq [DecidableEq T] (vec1 vec2 : vector T) : Except Fault Bool :=
  if vec1.size ≠ vec2.size then .ok false else eq_loop vec1 vec2 vec1.size 0

/-- The loop `for (auto i{0u}; i < vec1.size(); i++)` of `operator!=`, on the
32-bit counter `i`: it reads every index and remembers whether two elements
differed. -/
def ne_loop [DecidableEq T] (vec1 vec2 : vector T) : Nat → Nat → Bool → Except Fault Bool
  | fuel, i, oneElement =>
    if i < vec1.size then
      match fuel with
      | 0 => .error Fault.out_of_fuel
      | f + 1 =>
        match load vec1.m_storage i with
        | .error e => .error e
        | .ok a =>
          match load vec2.m_storage i with
          | .error e => .error e
          | .ok b =>
            ne_loop vec1 vec2 f ((i + 1) % UINT_MODULUS) (if a ≠ b then true else oneElement)
    else .ok oneElement

/-- `operator!=`. -/
def ne [DecidableEq T] (vec1 vec2 : vector T) : Except Fault Bool :=
  if vec1.size ≠ vec2.size then .ok true else ne_loop vec1 vec2 vec1.size 0 false

/-- The copy assignment `operator=`; `same_object` is the outcome of the test
`this == &vec`. -/
def assign [Inhabited T] (this vec : vector T) (same_object : Bool) :
    Except Fault (vector T) :=
  if same_object then .ok this
  else
    match copy_range vec.m_storage 0 vec.m_end
        (if this.m_capacity ≠ vec.m_capacity then List.replicate vec.m_capacity default
         else this.m_storage) 0 with
    | .error e => .error e
    | .ok st => .ok ⟨vec.m_end, vec.m_capacity, st⟩

/-- The vector of `2^32` zeros. -/
def zeros : vector Int := ⟨UINT_MODULUS, UINT_MODULUS, List.replicate UINT_MODULUS 0⟩

/-- Push the elements of a list at the back, the first one first. -/
def push_back_all [Inhabited T] (v : vector T) : List T → Except Fault (vector T)
  | [] => .ok v
  | x :: xs =>
    match v.push_back x with
    | .error e => .error e
    | .ok v1 => push_back_all v1 xs

end vector

end sc

/-! ## Blank lines, operands and parentheses of a token list -/

/-- A line that is empty or holds only white space. -/
def is_blank (line : String) : Bool := line.data.all isspace

namespace BaresManager

open Token.token_t Parser.code_t

/-- Modelled from the spec: the lexer (`parser.h`, `parser.cpp`) is missing. Of
its contract this is the clause on lines without any token: a line that is
empty or holds only white space yields the diagnostic `MISSING_TERM` at
column 0. -/
def BlankLineContract (lexer : Lexer) : Prop :=
  ∀ line : String, is_blank line = true → (lexer line).1 = ⟨MISSING_TERM, 0⟩

/-- Whether a token is an operand. -/
def is_operand (t : Token) : Bool := decide (t.type = OPERAND)

/-- Whether a token is a parenthesis. -/
def is_paren (t : Token) : Bool :=
  decide (t.type = OPEN_PARENTHESES) || decide (t.type = CLOSE_PARENTHESES)

/-- The operand tokens of a sequence, in their order. -/
def operands (ts : List Token) : List Token := ts.filter is_operand

/-- The operand and operator tokens of a sequence, in their order. -/
def without_parens (ts : List Token) : List Token := ts.filter (fun t => !is_paren t)

end BaresManager

/-! ## Undefined division, the scan of `calculate` with its way out, and
sequences of stack calls -/

namespace ExprTree

/-- No division or remainder of the tree divides the smallest value of the
working type by `-1`, the one pair with a nonzero divisor on which `/` and `%`
of the working type are undefined. -/
def Defined : ExprTree → Prop
  | leaf _ => True
  | group _ e _ => Defined e
  | node l op r =>
    Defined l ∧ Defined r ∧
      ((op.value = "/" ∨ op.value = "%") → ¬ (value_ref l = LLONG_MIN ∧ value_ref r = -1))

instance instDecidableDefined : (e : ExprTree) → Decidable (Defined e)
  | leaf _ => inferInstanceAs (Decidable True)
  | group _ e _ => instDecidableDefined e
  | node l op r =>
    let _ := instDecidableDefined l
    let _ := instDecidableDefined r
    inferInstanceAs (Decidable (Defined l ∧ Defined r ∧
      ((op.value = "/" ∨ op.value = "%") → ¬ (value_ref l = LLONG_MIN ∧ value_ref r = -1))))

end ExprTree

namespace BaresManager

open Token.token_t

/-- Modelled from the spec: the lexer is missing; it admits an integer only
when its magnitude is representable in the input range, so that no operand
token stands for `-2^63`, whose magnitude is not. -/
def OperandsRepresentable (ts : List Token) : Prop :=
  ∀ t ∈ ts, t.type = OPERAND → LLONG_MIN < atoll t.value

instance (ts : List Token) : Decidable (OperandsRepresentable ts) :=
  inferInstanceAs (Decidable (∀ t ∈ ts, t.type = OPERAND → LLONG_MIN < atoll t.value))

/-- The `for` loop of `calculate` once more, with the index `i` of the token
being read, returning next to the state how the loop was left (`true` through
the `break` of the range test, `false` by reaching the end of the tokens) and
how many tokens it has read. -/
def calculate_scan (MIN MAX : Int) :
    List Token → Nat → CalcState → Except Fault (CalcState × Bool × Nat)
  | [], i, s => .ok (s, false, i)
  | c :: rest, i, s =>
    if c.type = OPERAND then
      calculate_scan MIN MAX rest (i + 1) ⟨(s.st.push (atoll c.value)).1, s.result, s.status⟩
    else
      match s.st.top with
      | .error e => .error e
      | .ok second_operand =>
        match s.st.pop with
        | .error e => .error e
        | .ok (_, st1) =>
          match st1.top with
          | .error e => .error e
          | .ok first_operand =>
            match st1.pop with
            | .error e => .error e
            | .ok (_, st2) =>
              if second_operand = 0 ∧ (c_value0 c = '/' ∨ c_value0 c = '%') then
                calculate_scan MIN MAX rest (i + 1)
                  ⟨(st2.push s.result).1, s.result,
                    Parser.ResultType.of Parser.code_t.DIVISION_BY_ZERO⟩
              else
                match apply_operator (c_value0 c) first_operand second_operand s.result with
                | .error e => .error e
                | .ok result =>
                  if result < MIN ∨ result > MAX then
                    .ok (⟨st2, result, s.status⟩, true, i + 1)
                  else
                    calculate_scan MIN MAX rest (i + 1)
                      ⟨(st2.push result).1, result, s.status⟩

end BaresManager

namespace sta.stack

variable {T : Type}

/-- A call of one of the three members that reach the elements. -/
inductive Call (T : Type) where
  | push (element : T)
  | pop
  | top
  deriving Repr

/-- The stack left by one call; a call that throws leaves the stack as it
was. -/
def after [Inhabited T] (s : stack T) : Call T → stack T
  | .push element => (s.push element).1
  | .pop =>
    match s.pop with
    | .error _ => s
    | .ok (_, s1) => s1
  | .top => s

/-- The stack left by a sequence of calls, the first one first. -/
def run [Inhabited T] (s : stack T) : List (Call T) → stack T
  | [] => s
  | c :: cs => run (s.after c) cs

/-- The stacks a program can hold: those left by some sequence of calls on the
stack of the constructor. -/
def Reachable [Inhabited T] (s : stack T) : Prop :=
  ∃ calls : List (Call T), run new calls = s

end sta.stack

/-! ## Theorems: the stack as a list -/

namespace sta.stack

variable {T : Type}

theorem take_succ_set (l : List T) (n : Nat) (x : T) (h : n < l.length) :
    (l.set n x).take (n + 1) = l.take n ++ [x] := by
  induction l generalizing n with
  | nil => simp at h
  | cons a t ih =>
    cases n with
    | zero => simp
    | succ m =>
      have hm : m < t.length := by simpa using h
      simp [List.set, ih m hm]

theorem take_succ_getD [Inhabited T] (l : List T) (n : Nat) (h : n < l.length) :
    l.take (n + 1) = l.take n ++ [l.getD n default] := by
  induction l generalizing n with
  | nil => simp at h
  | cons a t ih =>
    cases n with
    | zero => simp
    | succ m =>
      have hm : m < t.length := by simpa using h
      simp [ih m hm]

theorem Rep_new : Rep (new : stack T) [] := by
  simp [Rep, new, toList]

theorem Rep_length {s : stack T} {l : List T} (h : Rep s l) : s.m_end = l.length := by
  obtain ⟨h1, h2, h3⟩ := h
  rw [← h3]
  simp [toList]
  omega

theorem Rep_push [Inhabited T] {s : stack T} {l : List T} (h : Rep s l) (x : T) :
    Rep (s.push x).1 (x :: l) := by
  obtain ⟨h1, h2, h3⟩ := h
  unfold push
  by_cases hfull : s.m_end ≥ s.m_capacity
  · have he : s.m_end = s.m_capacity := by omega
    have hcap : s.m_end < (if s.m_capacity = 0 then s.m_capacity + 1 else s.m_capacity * 2) := by
      split <;> omega
    simp only [hfull, if_true]
    refine ⟨by simpa using hcap, ?_, ?_⟩
    · simp only [List.length_set, List.length_append, List.length_take, List.length_replicate]
      omega
    · simp only [toList]
      rw [take_succ_set]
      · rw [List.take_append_of_le_length (by simp; omega)]
        simp only [List.take_take, min_self, List.reverse_append, List.reverse_cons,
          List.reverse_nil, List.nil_append, List.singleton_append]
        rw [← h3]; rfl
      · simp only [List.length_append, List.length_take, List.length_replicate]
        omega
  · have hlt : s.m_end < s.m_capacity := by omega
    simp only [hfull, if_false]
    refine ⟨(by show s.m_end + 1 ≤ s.m_capacity; omega), by simpa using h2, ?_⟩
    simp only [toList]
    rw [take_succ_set _ _ _ (by omega)]
    simp only [List.reverse_append, List.reverse_cons, List.reverse_nil, List.nil_append,
      List.singleton_append]
    rw [← h3]; rfl

theorem Rep_nil_end {s : stack T} (h : Rep s []) : s.m_end = 0 := by
  simpa using Rep_length h

theorem Rep_empty {s : stack T} {l : List T} (h : Rep s l) : s.empty = l.isEmpty := by
  have := Rep_length h
  cases l <;> simp_all [empty]

theorem Rep_size {s : stack T} {l : List T} (h : Rep s l) : s.size = l.length :=
  Rep_length h

theorem Rep_top_nil [Inhabited T] {s : stack T} (h : Rep s []) :
    s.top = .error Fault.top_on_empty := by
  simp [top, Rep_nil_end h]

theorem Rep_pop_nil [Inhabited T] {s : stack T} (h : Rep s []) :
    s.pop = .error Fault.pop_on_empty := by
  simp [pop, Rep_nil_end h]

theorem Rep_cons_getD [Inhabited T] {s : stack T} {x : T} {l : List T} (h : Rep s (x :: l)) :
    s.m_storage.getD (s.m_end - 1) default = x ∧
      (s.m_storage.take (s.m_end - 1)).reverse = l := by
  have hlen := Rep_length h
  obtain ⟨h1, h2, h3⟩ := h
  simp only [List.length_cons] at hlen
  have hk : s.m_end = (s.m_end - 1) + 1 := by omega
  simp only [toList] at h3
  rw [hk, take_succ_getD _ _ (by omega)] at h3
  simp only [List.reverse_append, List.reverse_cons, List.reverse_nil, List.nil_append,
    List.singleton_append, List.cons.injEq] at h3
  exact h3

theorem Rep_top_cons [Inhabited T] {s : stack T} {x : T} {l : List T} (h : Rep s (x :: l)) :
    s.top = .ok x := by
  have hlen := Rep_length h
  simp only [List.length_cons] at hlen
  have hne : s.m_end ≠ 0 := by omega
  unfold top
  rw [if_neg hne, (Rep_cons_getD h).1]

theorem Rep_pop_cons [Inhabited T] {s : stack T} {x : T} {l : List T} (h : Rep s (x :: l)) :
    ∃ s1, s.pop = .ok (x, s1) ∧ Rep s1 l := by
  have hlen := Rep_length h
  simp only [List.length_cons] at hlen
  have hne : s.m_end ≠ 0 := by omega
  refine ⟨⟨s.m_end - 1, s.m_capacity, s.m_storage⟩, ?_, ?_⟩
  · unfold pop
    rw [if_neg hne, (Rep_cons_getD h).1]
  · obtain ⟨h1, h2, h3⟩ := h
    exact ⟨by simp only; omega, h2, (Rep_cons_getD ⟨h1, h2, h3⟩).2⟩

end sta.stack

/-! ## Theorems: the loops over `sta.stack` are the loops over lists -/

namespace BaresManager

open Token.token_t sta.stack

theorem close_loop_sim (fuel : Nat) (st : sta.stack Token) (l pf : List Token)
    (h : Rep st l) (hf : l.length ≤ fuel) :
    match close_list l pf with
    | .error e => close_loop fuel st pf = .error e
    | .ok (l1, pf1) => ∃ st1, close_loop fuel st pf = .ok (st1, pf1) ∧ Rep st1 l1 := by
  induction l generalizing fuel st pf with
  | nil =>
    unfold close_loop
    simp [close_list, Rep_top_nil h]
  | cons t l ih =>
    unfold close_loop
    rw [Rep_top_cons h]
    by_cases ht : t.type ≠ OPEN_PARENTHESES
    · obtain ⟨st1, hp, hr⟩ := Rep_pop_cons h
      cases fuel with
      | zero => simp at hf
      | succ f =>
        have hf1 : l.length ≤ f := by simpa using hf
        have := ih f st1 (pf ++ [t]) hr hf1
        simp only [close_list, if_pos ht, hp]
        exact this
    · simp only [close_list, if_neg ht]
      exact ⟨st, rfl, h⟩

theorem operator_loop_sim (v : String) (fuel : Nat) (st : sta.stack Token) (l pf : List Token)
    (h : Rep st l) (hf : l.length ≤ fuel) :
    ∃ st1, operator_loop v fuel st pf = .ok (st1, (flush (prec v) l pf).2) ∧
      Rep st1 (flush (prec v) l pf).1 := by
  induction l generalizing fuel st pf with
  | nil =>
    unfold operator_loop
    simp only [Rep_empty h, List.isEmpty_nil, if_true, flush]
    exact ⟨st, rfl, h⟩
  | cons t l ih =>
    unfold operator_loop
    simp only [Rep_empty h, List.isEmpty_cons, Bool.false_eq_true, if_false, Rep_top_cons h]
    by_cases ht : prec v ≤ prec t.value
    · obtain ⟨st1, hp, hr⟩ := Rep_pop_cons h
      cases fuel with
      | zero => simp at hf
      | succ f =>
        have hf1 : l.length ≤ f := by simpa using hf
        simp only [flush, ht, if_true, hp]
        exact ih f st1 (pf ++ [t]) hr hf1
    · simp only [flush, ht, if_false]
      exact ⟨st, rfl, h⟩

theorem drain_loop_sim (fuel : Nat) (st : sta.stack Token) (l pf : List Token)
    (h : Rep st l) (hf : l.length ≤ fuel) :
    ∃ st1, drain_loop fuel st pf = .ok (st1, pf ++ l) := by
  induction l generalizing fuel st pf with
  | nil =>
    unfold drain_loop
    simp only [Rep_empty h, List.isEmpty_nil, if_true, List.append_nil]
    exact ⟨st, rfl⟩
  | cons t l ih =>
    unfold drain_loop
    simp only [Rep_empty h, List.isEmpty_cons, Bool.false_eq_true, if_false, Rep_top_cons h]
    obtain ⟨st1, hp, hr⟩ := Rep_pop_cons h
    cases fuel with
    | zero => simp at hf
    | succ f =>
      have hf1 : l.length ≤ f := by simpa using hf
      obtain ⟨st2, h2⟩ := ih f st1 (pf ++ [t]) hr hf1
      simp only [hp]
      exact ⟨st2, by simpa using h2⟩

theorem infix_step_sim (c : Token) (st : sta.stack Token) (l pf : List Token) (h : Rep st l) :
    match infix_step_list c l pf with
    | .error e => infix_step c st pf = .error e
    | .ok (l1, pf1) => ∃ st1, infix_step c st pf = .ok (st1, pf1) ∧ Rep st1 l1 := by
  unfold infix_step infix_step_list
  by_cases h1 : c.type = OPERAND
  · simp only [h1, if_true]
    exact ⟨st, rfl, h⟩
  · by_cases h2 : c.type = OPEN_PARENTHESES
    · simp only [h2, if_true]
      exact ⟨_, by simp, Rep_push h c⟩
    · by_cases h3 : c.type = CLOSE_PARENTHESES
      · simp only [h3, if_true]
        have hs := close_loop_sim st.m_end st l pf h (le_of_eq (Rep_length h).symm)
        cases hc : close_list l pf with
        | error e =>
          rw [hc] at hs
          simp [hs]
        | ok r =>
          obtain ⟨l1, pf1⟩ := r
          rw [hc] at hs
          obtain ⟨st1, hcl, hr⟩ := hs
          cases l1 with
          | nil => simp [hcl, Rep_pop_nil hr]
          | cons t l2 =>
            obtain ⟨st2, hp, hr2⟩ := Rep_pop_cons hr
            simp only [hcl, hp]
            exact ⟨st2, by simp, hr2⟩
      · simp only [h1, h2, h3, if_false]
        obtain ⟨st1, ho, hr⟩ :=
          operator_loop_sim c.value st.m_end st l pf h (le_of_eq (Rep_length h).symm)
        simp only [ho]
        exact ⟨_, rfl, Rep_push hr c⟩

theorem infix_loop_sim (ts : List Token) (st : sta.stack Token) (l pf : List Token)
    (h : Rep st l) :
    match infix_loop_list ts l pf with
    | .error e => infix_loop ts st pf = .error e
    | .ok (l1, pf1) => ∃ st1, infix_loop ts st pf = .ok (st1, pf1) ∧ Rep st1 l1 := by
  induction ts generalizing st l pf with
  | nil => exact ⟨st, rfl, h⟩
  | cons c rest ih =>
    unfold infix_loop infix_loop_list
    have hs := infix_step_sim c st l pf h
    cases hc : infix_step_list c l pf with
    | error e =>
      rw [hc] at hs
      simp [hs]
    | ok r =>
      obtain ⟨l1, pf1⟩ := r
      rw [hc] at hs
      obtain ⟨st1, hst, hr⟩ := hs
      simp only [hst]
      exact ih st1 l1 pf1 hr

/-- The conversion over `sta.stack` computes `postfix_of`. -/
theorem infix_to_postfix_eq (bm : BaresManager) :
    infix_to_postfix bm =
      match postfix_of bm.tokens with
      | .error e => .error e
      | .ok pf => .ok ⟨bm.status, pf, bm.final_value⟩ := by
  unfold infix_to_postfix postfix_of
  have hs := infix_loop_sim bm.tokens sta.stack.new [] [] Rep_new
  cases hc : infix_loop_list bm.tokens [] [] with
  | error e =>
    rw [hc] at hs
    simp [hs]
  | ok r =>
    obtain ⟨l1, pf1⟩ := r
    rw [hc] at hs
    obtain ⟨st1, hst, hr⟩ := hs
    obtain ⟨st2, hd⟩ := drain_loop_sim st1.m_end st1 l1 pf1 hr (le_of_eq (Rep_length hr).symm)
    simp [hst, hd]

theorem calculate_loop_sim (MIN MAX : Int) (ts : List Token) (st : sta.stack Int)
    (l : List Int) (r : Int) (s : Parser.ResultType) (h : Rep st l) :
    match calculate_list MIN MAX ts l r s with
    | .error e => calculate_loop MIN MAX ts ⟨st, r, s⟩ = .error e
    | .ok (l1, r1, s1) =>
      ∃ st1, calculate_loop MIN MAX ts ⟨st, r, s⟩ = .ok ⟨st1, r1, s1⟩ ∧ Rep st1 l1 := by
  induction ts generalizing st l r s with
  | nil => exact ⟨st, rfl, h⟩
  | cons c rest ih =>
    unfold calculate_loop calculate_list
    by_cases h1 : c.type = OPERAND
    · simp only [h1, if_true]
      exact ih _ _ r s (Rep_push h _)
    · simp only [h1, if_false]
      match l, h with
      | [], h => simp [Rep_top_nil h]
      | [a], h =>
        obtain ⟨st1, hp, hr⟩ := Rep_pop_cons h
        simp [Rep_top_cons h, hp, Rep_top_nil hr]
      | a :: b :: l2, h =>
        obtain ⟨st1, hp, hr⟩ := Rep_pop_cons h
        obtain ⟨st2, hp2, hr2⟩ := Rep_pop_cons hr
        simp only [Rep_top_cons h, hp, Rep_top_cons hr, hp2]
        by_cases hz : a = 0 ∧ (c_value0 c = '/' ∨ c_value0 c = '%')
        · simp only [hz, and_self, if_true]
          exact ih _ _ _ _ (Rep_push hr2 _)
        · simp only [hz, if_false]
          cases ha : apply_operator (c_value0 c) b a r with
          | error e => simp
          | ok res =>
            simp only
            by_cases ho : res < MIN ∨ res > MAX
            · simp only [ho, if_true]
              exact ⟨st2, rfl, hr2⟩
            · simp only [ho, if_false]
              exact ih _ _ _ _ (Rep_push hr2 _)

/-- The evaluation over `sta.stack` computes `calculate_list` followed by
`calculate_finish`. -/
theorem calculate_eq (MIN MAX : Int) (bm : BaresManager) :
    calculate MIN MAX bm =
      match calculate_list MIN MAX bm.tokens [] 0 bm.status with
      | .error e => .error e
      | .ok out => .ok (calculate_finish MIN MAX bm out) := by
  unfold calculate
  have hs := calculate_loop_sim MIN MAX bm.tokens sta.stack.new [] 0 bm.status Rep_new
  cases hc : calculate_list MIN MAX bm.tokens [] 0 bm.status with
  | error e =>
    rw [hc] at hs
    simp [hs]
  | ok out =>
    obtain ⟨l1, r1, s1⟩ := out
    rw [hc] at hs
    obtain ⟨st1, hst, hr⟩ := hs
    simp only [hst, calculate_finish, Rep_size hr]
    match l1, hr with
    | [], hr =>
      simp only [List.length_nil, Nat.zero_ne_one, if_false]
      split <;> rfl
    | [a], hr =>
      obtain ⟨st2, hp, _⟩ := Rep_pop_cons hr
      simp only [List.length_singleton, if_true, Rep_top_cons hr, hp, List.headD_cons]
      split <;> rfl
    | a :: b :: l2, hr =>
      have hne : ¬ ((a :: b :: l2).length = 1) := by simp
      simp only [if_neg hne]
      split <;> rfl

end BaresManager

/-! ## Theorems: conversion of a parse tree -/

namespace BaresManager

open Token.token_t ExprTree

theorem prec_of_operator {t : Token} (h : is_operator t) :
    1 ≤ prec t.value ∧ prec t.value ≤ 3 := by
  obtain ⟨_, h | h | h | h | h | h⟩ := h <;> rw [h] <;> decide

theorem prec_open : prec "(" = -1 := by decide

theorem root_prec_le (e : ExprTree) (h : Valid e) : 1 ≤ root_prec e ∧ root_prec e ≤ 4 := by
  cases e with
  | leaf t => simp [root_prec]
  | group lp e rp => simp [root_prec]
  | node l op r =>
    have := prec_of_operator h.1
    simp only [root_prec]
    omega

theorem flush_append_eq (p : Int) (l pf : List Token) :
    (flush p l pf).2 ++ (flush p l pf).1 = pf ++ l := by
  induction l generalizing pf with
  | nil => simp [flush]
  | cons t l ih =>
    unfold flush
    split
    · rw [ih]; simp
    · rfl

theorem flush_TopBelow (p : Int) (l pf : List Token) (h : TopBelow l p) :
    flush p l pf = (l, pf) := by
  cases l with
  | nil => rfl
  | cons t l =>
    have ht : prec t.value < p := h t (by simp)
    unfold flush
    rw [if_neg (by omega)]

theorem flush_StackOK (p : Int) (l pf : List Token) (h : StackOK l) :
    StackOK (flush p l pf).1 := by
  induction l generalizing pf with
  | nil => simpa [flush] using h
  | cons t l ih =>
    unfold flush
    split
    · exact ih _ (fun x hx => h x (List.mem_cons_of_mem _ hx))
    · exact h

theorem infix_loop_list_append (xs ys l pf : List Token) :
    infix_loop_list (xs ++ ys) l pf =
      match infix_loop_list xs l pf with
      | .error e => .error e
      | .ok (l1, pf1) => infix_loop_list ys l1 pf1 := by
  induction xs generalizing l pf with
  | nil => rfl
  | cons c xs ih =>
    simp only [List.cons_append, infix_loop_list]
    cases infix_step_list c l pf with
    | error e => rfl
    | ok r => exact ih r.1 r.2

/-- On a stack of operators and opening parentheses, the loop of a closing
parenthesis stops where `flush 1` stops, provided that is at a parenthesis. -/
theorem close_list_eq_flush (l pf lp_rest : List Token) (lp : Token) (pf1 : List Token)
    (hok : StackOK l) (hlp : lp.type = OPEN_PARENTHESES)
    (h : flush 1 l pf = (lp :: lp_rest, pf1)) :
    close_list l pf = .ok (lp :: lp_rest, pf1) := by
  induction l generalizing pf with
  | nil => simp [flush] at h
  | cons t l ih =>
    unfold flush at h
    unfold close_list
    by_cases hp : (1 : Int) ≤ prec t.value
    · rw [if_pos hp] at h
      have hty : t.type ≠ OPEN_PARENTHESES := by
        rcases hok t (by simp) with ho | ⟨_, hv⟩
        · rw [ho.1]; decide
        · rw [hv] at hp; exact absurd hp (by decide)
      rw [if_pos hty]
      exact ih _ (fun x hx => hok x (List.mem_cons_of_mem _ hx)) h
    · rw [if_neg hp] at h
      have h1 : t = lp := by
        have := congrArg Prod.fst h
        simp only [List.cons.injEq] at this
        exact this.1
      have hty : ¬ (t.type ≠ OPEN_PARENTHESES) := by rw [h1]; simp [hlp]
      rw [if_neg hty, h]

/-- Reading the tokens of a valid tree from a stack whose top binds looser than
the tree: the loop succeeds, and once the operators of precedence at least `p`
are flushed the output has grown by exactly the postfix tokens of the tree. -/
theorem infix_loop_list_tree (e : ExprTree) (hv : Valid e) (l pf : List Token) (p : Int)
    (hok : StackOK l) (htop : TopBelow l (root_prec e)) (hp1 : 1 ≤ p)
    (hp : p ≤ root_prec e) :
    ∃ l1 pf1, infix_loop_list (tokens_of e) l pf = .ok (l1, pf1) ∧ StackOK l1 ∧
      flush p l1 pf1 = flush p l (pf ++ postfix_tokens e) := by
  induction e generalizing l pf p with
  | leaf t =>
    refine ⟨l, pf ++ [t], ?_, hok, rfl⟩
    have ht : t.type = OPERAND := hv
    simp [tokens_of, infix_loop_list, infix_step_list, ht]
  | group lp e rp ih =>
    obtain ⟨⟨hlt, hlv⟩, ⟨hrt, hrv⟩, hve⟩ := hv
    have hok1 : StackOK (lp :: l) := by
      intro x hx
      rcases List.mem_cons.1 hx with hx | hx
      · exact Or.inr (hx ▸ ⟨hlt, hlv⟩)
      · exact hok x hx
    have htop1 : TopBelow (lp :: l) (root_prec e) := by
      intro x hx
      simp only [List.head?_cons, Option.mem_def, Option.some.injEq] at hx
      have := (root_prec_le e hve).1
      rw [← hx, hlv, prec_open]
      omega
    obtain ⟨l1, pf1, hrun, hok2, hfl⟩ :=
      ih hve (lp :: l) pf 1 hok1 htop1 le_rfl (root_prec_le e hve).1
    have hfl2 : flush 1 (lp :: l) (pf ++ postfix_tokens e) = (lp :: l, pf ++ postfix_tokens e) := by
      apply flush_TopBelow
      intro x hx
      simp only [List.head?_cons, Option.mem_def, Option.some.injEq] at hx
      rw [← hx, hlv, prec_open]
      decide
    rw [hfl2] at hfl
    have hclose := close_list_eq_flush l1 pf1 l lp _ hok2 hlt hfl
    refine ⟨l, pf ++ postfix_tokens e, ?_, hok, rfl⟩
    have hl : infix_step_list lp l pf = .ok (lp :: l, pf) := by
      simp [infix_step_list, hlt]
    have hr : infix_step_list rp l1 pf1 = .ok (l, pf ++ postfix_tokens e) := by
      simp [infix_step_list, hrt, hclose]
    simp only [tokens_of, infix_loop_list, hl]
    rw [infix_loop_list_append, hrun]
    simp only [infix_loop_list, hr]
  | node a op b iha ihb =>
    obtain ⟨hop, hva, hvb, hpa, hpb⟩ := hv
    simp only [root_prec] at htop hp
    have htopa : TopBelow l (root_prec a) := fun x hx => lt_of_lt_of_le (htop x hx) hpa
    have hprec := prec_of_operator hop
    obtain ⟨l1, pf1, hrun1, hok1, hfl1⟩ :=
      iha hva l pf (prec op.value) hok htopa hprec.1 hpa
    rw [flush_TopBelow _ _ _ htop] at hfl1
    have hstep : infix_step_list op l1 pf1 = .ok (op :: l, pf ++ postfix_tokens a) := by
      have h1 : op.type ≠ OPERAND := by rw [hop.1]; decide
      have h2 : op.type ≠ OPEN_PARENTHESES := by rw [hop.1]; decide
      have h3 : op.type ≠ CLOSE_PARENTHESES := by rw [hop.1]; decide
      simp only [infix_step_list, if_neg h1, if_neg h2, if_neg h3, hfl1]
    have hok2 : StackOK (op :: l) := by
      intro x hx
      rcases List.mem_cons.1 hx with hx | hx
      · exact Or.inl (hx ▸ hop)
      · exact hok x hx
    have htopb : TopBelow (op :: l) (root_prec b) := by
      intro x hx
      simp only [List.head?_cons, Option.mem_def, Option.some.injEq] at hx
      rw [← hx]; exact hpb
    obtain ⟨l2, pf2, hrun2, hok3, hfl2⟩ :=
      ihb hvb (op :: l) (pf ++ postfix_tokens a) p hok2 htopb hp1 (by omega)
    refine ⟨l2, pf2, ?_, hok3, ?_⟩
    · simp only [tokens_of]
      rw [infix_loop_list_append, hrun1]
      simp only [infix_loop_list, hstep]
      exact hrun2
    · rw [hfl2]
      conv_lhs => unfold flush
      rw [if_pos hp]
      simp [postfix_tokens]

/-- The conversion of the tokens of a valid tree is the postfix sequence of the
tree. -/
theorem postfix_of_tree (e : ExprTree) (hv : Valid e) :
    postfix_of (tokens_of e) = .ok (postfix_tokens e) := by
  obtain ⟨l1, pf1, hrun, _, hfl⟩ :=
    infix_loop_list_tree e hv [] [] 1 (fun _ h => by simp at h) (fun _ h => by simp at h)
      le_rfl (root_prec_le e hv).1
  have := flush_append_eq 1 l1 pf1
  rw [hfl] at this
  simp only [flush, List.nil_append, List.append_nil] at this
  simp [postfix_of, hrun, this]

end BaresManager

/-! ## Theorems: every sentence of the grammar has a valid parse tree -/

namespace ExprTree

open Token.token_t BaresManager

theorem tokens_of_attach (e : ExprTree) (op : Token) (t : ExprTree) :
    tokens_of (attach e op t) = tokens_of e ++ op :: tokens_of t := by
  induction e with
  | leaf x => rfl
  | group lp x rp _ => rfl
  | node l o r _ ihr =>
    unfold attach
    split
    · simp [tokens_of, ihr]
    · rfl

theorem root_prec_attach (e : ExprTree) (op : Token) (t : ExprTree) :
    root_prec (attach e op t) = root_prec e ∨ root_prec (attach e op t) = prec op.value := by
  cases e with
  | leaf x => exact Or.inr rfl
  | group lp x rp => exact Or.inr rfl
  | node l o r =>
    unfold attach
    split
    · exact Or.inl rfl
    · exact Or.inr rfl

theorem root_prec_of_term (t : ExprTree) (h : is_term t) : root_prec t = 4 := by
  cases t with
  | leaf x => rfl
  | group lp x rp => rfl
  | node l o r => exact absurd h id

theorem Valid_attach (e : ExprTree) (op : Token) (t : ExprTree) (he : Valid e)
    (hop : is_operator op) (ht : Valid t) (hterm : is_term t) : Valid (attach e op t) := by
  have hp := prec_of_operator hop
  have h4 := root_prec_of_term t hterm
  induction e with
  | leaf x => exact ⟨hop, he, ht, by simp only [root_prec]; omega, by omega⟩
  | group lp x rp _ => exact ⟨hop, he, ht, by simp only [root_prec]; omega, by omega⟩
  | node l o r _ ihr =>
    unfold attach
    obtain ⟨ho, hl, hr, hpl, hpr⟩ := he
    split
    · rename_i hlt
      refine ⟨ho, hl, ihr hr, hpl, ?_⟩
      rcases root_prec_attach r op t with h | h
      · rw [h]; exact hpr
      · rw [h]; exact hlt
    · rename_i hge
      exact ⟨hop, ⟨ho, hl, hr, hpl, hpr⟩, ht, by simp only [root_prec]; omega, by omega⟩

/-- Every derivation of the grammar regroups into a valid parse tree with the
same token sequence. -/
theorem regroup_spec (g : ExprTree) (hg : Grammar g) :
    Valid (regroup g) ∧ tokens_of (regroup g) = tokens_of g ∧
      (is_term g → is_term (regroup g)) := by
  induction g with
  | leaf t => exact ⟨hg, rfl, id⟩
  | group lp e rp ih =>
    obtain ⟨hl, hr, he⟩ := hg
    obtain ⟨hv, ht, _⟩ := ih he
    exact ⟨⟨hl, hr, hv⟩, by simp [regroup, tokens_of, ht], fun _ => trivial⟩
  | node l op r ihl ihr =>
    obtain ⟨hop, hl, hr, hterm⟩ := hg
    obtain ⟨hvl, htl, _⟩ := ihl hl
    obtain ⟨hvr, htr, hkr⟩ := ihr hr
    refine ⟨Valid_attach _ op _ hvl hop hvr (hkr hterm), ?_, fun h => absurd h id⟩
    simp only [regroup, tokens_of_attach, htl, htr, tokens_of]

end ExprTree

/-! ## Theorems: the working integer type -/

theorem wrap64_id (x : Int) (h1 : LLONG_MIN ≤ x) (h2 : x ≤ LLONG_MAX) : wrap64 x = x := by
  unfold LLONG_MIN at h1
  unfold LLONG_MAX at h2
  unfold wrap64
  rw [Int.emod_eq_of_lt (by omega) (by omega)]
  omega

theorem clamp64_range (x : Int) : LLONG_MIN ≤ clamp64 x ∧ clamp64 x ≤ LLONG_MAX := by
  unfold clamp64
  have h : LLONG_MIN ≤ LLONG_MAX := by decide
  split
  · exact ⟨le_rfl, h⟩
  · split
    · exact ⟨h, le_rfl⟩
    · constructor <;> omega

theorem atoll_range (s : String) : LLONG_MIN ≤ atoll s ∧ atoll s ≤ LLONG_MAX := by
  unfold atoll
  split <;> exact clamp64_range _

/-- When a power fits the working type, so does every shorter power of the same
base. -/
theorem pow_mid_range (a : Int) (b m : Nat) (hmb : m ≤ b)
    (h1 : LLONG_MIN ≤ a ^ b) (h2 : a ^ b ≤ LLONG_MAX) :
    LLONG_MIN ≤ a ^ m ∧ a ^ m ≤ LLONG_MAX := by
  rcases Nat.eq_or_lt_of_le hmb with heq | hlt
  · subst heq; exact ⟨h1, h2⟩
  · have habs : |a ^ b| ≤ 2 ^ 63 := by
      unfold LLONG_MIN at h1
      unfold LLONG_MAX at h2
      rw [abs_le]
      constructor <;> omega
    have hsplit : |a| ^ m * |a| ^ (b - m) = |a ^ b| := by
      rw [← pow_add, abs_pow]
      congr 1
      omega
    have hgoal : |a ^ m| ≤ 2 ^ 62 := by
      rw [abs_pow]
      by_cases ha : |a| ≤ 1
      · calc |a| ^ m ≤ 1 ^ m := pow_le_pow_left₀ (abs_nonneg a) ha m
          _ = 1 := one_pow m
          _ ≤ 2 ^ 62 := by norm_num
      · have ha2 : 2 ≤ |a| := by omega
        have hbig : (2 : Int) ≤ |a| ^ (b - m) := by
          calc (2 : Int) = 2 ^ 1 := by norm_num
            _ ≤ |a| ^ 1 := pow_le_pow_left₀ (by norm_num) ha2 1
            _ ≤ |a| ^ (b - m) := pow_le_pow_right₀ (by omega) (by omega)
        have hnn : 0 ≤ |a| ^ m := pow_nonneg (abs_nonneg a) m
        have hle : |a| ^ m * 2 ≤ 2 ^ 63 := by
          calc |a| ^ m * 2 ≤ |a| ^ m * |a| ^ (b - m) := by
                exact mul_le_mul_of_nonneg_left hbig hnn
            _ = |a ^ b| := hsplit
            _ ≤ 2 ^ 63 := habs
        omega
    rw [abs_le] at hgoal
    unfold LLONG_MIN LLONG_MAX
    constructor <;> omega

namespace BaresManager

open Token.token_t ExprTree

/-! ## Theorems: evaluation of a parse tree -/

theorem pow_loop_eq (a : Int) (k : Nat) :
    ∀ (fuel : Nat) (expo : Int), k ≤ fuel → (k : Int) < 2 ^ 63 →
      (∀ i : Nat, 1 ≤ i → i ≤ k →
        LLONG_MIN ≤ expo * a ^ i ∧ expo * a ^ i ≤ LLONG_MAX) →
      pow_loop a fuel expo ((k : Int) + 1) = .ok (expo * a ^ k) := by
  induction k with
  | zero =>
    intro fuel expo _ _ _
    unfold pow_loop
    simp
  | succ k ih =>
    intro fuel expo hf hk hr
    unfold pow_loop
    have hne : ((k + 1 : Nat) : Int) + 1 ≠ 1 := by omega
    rw [if_pos hne]
    cases fuel with
    | zero => omega
    | succ f =>
      simp only
      have h1 := hr 1 (le_refl 1) (by omega)
      rw [pow_one] at h1
      rw [wrap64_id _ h1.1 h1.2]
      have hw : wrap64 (((k + 1 : Nat) : Int) + 1 - 1) = (k : Int) + 1 := by
        rw [wrap64_id]
        · push_cast; ring
        · unfold LLONG_MIN; omega
        · unfold LLONG_MAX; omega
      rw [hw, ih f (expo * a) (by omega) (by omega)]
      · rw [pow_succ]; congr 1; ring
      · intro i hi1 hik
        have := hr (i + 1) (by omega) (by omega)
        rw [pow_succ] at this
        have e : expo * a * a ^ i = expo * (a ^ i * a) := by ring
        rw [e]; exact this

/-- The power case of the `switch` computes the reference power when that power
fits the working type. -/
theorem apply_operator_pow (a b r : Int) (hb2 : b ≤ LLONG_MAX)
    (h1 : LLONG_MIN ≤ pow_ref a b) (h2 : pow_ref a b ≤ LLONG_MAX) :
    apply_operator '^' a b r = .ok (pow_ref a b) := by
  have hc : apply_operator '^' a b r =
      if b = 0 then .ok 1 else if b < 0 then .ok 0 else pow_loop a b.toNat a b := by
    simp [apply_operator]
  rw [hc]
  unfold pow_ref at h1 h2 ⊢
  by_cases hb0 : b = 0
  · simp [hb0]
  · by_cases hbn : b < 0
    · simp [hb0, hbn]
    · rw [if_neg hb0, if_neg hbn] at h1 h2 ⊢
      rw [if_neg hb0, if_neg hbn]
      obtain ⟨k, hk⟩ : ∃ k : Nat, b.toNat = k + 1 := ⟨b.toNat - 1, by omega⟩
      have hbk : b = (k : Int) + 1 := by omega
      rw [hk] at h1 h2 ⊢
      rw [hbk, pow_loop_eq a k (k + 1) a (by omega)]
      · rw [pow_succ]; congr 1; ring
      · unfold LLONG_MAX at hb2; omega
      · intro i hi1 hik
        have := pow_mid_range a (k + 1) (i + 1) (by omega) h1 h2
        rw [pow_succ] at this
        rw [mul_comm]; exact this

theorem c_value0_of_value (t : Token) (s : String) (h : t.value = s) :
    c_value0 t = s.data.headD (Char.ofNat 0) := by
  unfold c_value0; rw [h]

/-- On an operator token the `switch` computes the reference operation when no
undefined division occurs and the exact result fits the working type. -/
theorem apply_operator_exact (op : Token) (hop : is_operator op) (a b r : Int)
    (hb2 : b ≤ LLONG_MAX)
    (hz : (op.value = "/" ∨ op.value = "%") → b ≠ 0)
    (hnt : op.value = "%" → ¬ (a = LLONG_MIN ∧ b = -1))
    (h1 : LLONG_MIN ≤ apply_ref op.value a b) (h2 : apply_ref op.value a b ≤ LLONG_MAX) :
    apply_operator (c_value0 op) a b r = .ok (apply_ref op.value a b) := by
  obtain ⟨_, h | h | h | h | h | h⟩ := hop
  · rw [c_value0_of_value op _ h]
    rw [h] at h1 h2 ⊢
    have e : apply_ref "+" a b = a + b := by simp [apply_ref]
    rw [e] at h1 h2 ⊢
    have : apply_operator '+' a b r = .ok (wrap64 (a + b)) := by simp [apply_operator]
    exact this.trans (by rw [wrap64_id _ h1 h2])
  · rw [c_value0_of_value op _ h]
    rw [h] at h1 h2 ⊢
    have e : apply_ref "-" a b = a - b := by simp [apply_ref]
    rw [e] at h1 h2 ⊢
    have : apply_operator '-' a b r = .ok (wrap64 (a - b)) := by simp [apply_operator]
    exact this.trans (by rw [wrap64_id _ h1 h2])
  · rw [c_value0_of_value op _ h]
    rw [h] at h1 h2 ⊢
    have e : apply_ref "*" a b = a * b := by simp [apply_ref]
    rw [e] at h1 h2 ⊢
    have : apply_operator '*' a b r = .ok (wrap64 (a * b)) := by simp [apply_operator]
    exact this.trans (by rw [wrap64_id _ h1 h2])
  · have hb0 : b ≠ 0 := hz (Or.inl h)
    rw [c_value0_of_value op _ h]
    rw [h] at h1 h2 ⊢
    have e : apply_ref "/" a b = Int.tdiv a b := by simp [apply_ref]
    rw [e] at h1 h2 ⊢
    have hq : ¬ (a = LLONG_MIN ∧ b = -1) := by
      rintro ⟨ha, hb⟩
      rw [ha, hb] at h2
      revert h2
      decide
    have : apply_operator '/' a b r = .ok (wrap64 (Int.tdiv a b)) := by
      simp [apply_operator, hb0, hq]
    exact this.trans (by rw [wrap64_id _ h1 h2])
  · have hb0 : b ≠ 0 := hz (Or.inr h)
    rw [c_value0_of_value op _ h]
    rw [h] at h1 h2 ⊢
    have e : apply_ref "%" a b = Int.tmod a b := by simp [apply_ref]
    rw [e] at h1 h2 ⊢
    have hq : ¬ (a = LLONG_MIN ∧ b = -1) := hnt h
    have : apply_operator '%' a b r = .ok (wrap64 (Int.tmod a b)) := by
      simp [apply_operator, hb0, hq]
    exact this.trans (by rw [wrap64_id _ h1 h2])
  · rw [c_value0_of_value op _ h]
    rw [h] at h1 h2 ⊢
    have e : apply_ref "^" a b = pow_ref a b := by simp [apply_ref]
    rw [e] at h1 h2 ⊢
    exact apply_operator_pow a b r hb2 h1 h2

/-- The guard of `calculate` fires on an operator token exactly for a division
or remainder. -/
theorem guard_char_iff (op : Token) (hop : is_operator op) :
    (c_value0 op = '/' ∨ c_value0 op = '%') ↔ (op.value = "/" ∨ op.value = "%") := by
  obtain ⟨_, h | h | h | h | h | h⟩ := hop <;>
    rw [c_value0_of_value op _ h, h] <;> decide

theorem value_ref_range (MIN MAX : Int) (hmin : LLONG_MIN ≤ MIN) (hmax : MAX ≤ LLONG_MAX)
    (e : ExprTree) (hs : Safe MIN MAX e) :
    LLONG_MIN ≤ value_ref e ∧ value_ref e ≤ LLONG_MAX := by
  induction e with
  | leaf t => exact atoll_range _
  | group lp e rp ih => exact ih hs
  | node a op b _ _ =>
    obtain ⟨_, _, _, h1, h2⟩ := hs
    exact ⟨le_trans hmin h1, le_trans h2 hmax⟩

theorem calculate_list_append_operand (MIN MAX : Int) (t : Token) (ht : t.type = OPERAND)
    (rest : List Token) (l : List Int) (r : Int) (s : Parser.ResultType) :
    calculate_list MIN MAX (t :: rest) l r s =
      calculate_list MIN MAX rest (atoll t.value :: l) r s := by
  simp [calculate_list, ht]

/-- Reading the postfix tokens of a valid, safe tree without undefined division
pushes the value of the tree and changes nothing else but the local
`result`. -/
theorem calculate_list_tree (MIN MAX : Int) (hmin : LLONG_MIN ≤ MIN)
    (hmax : MAX ≤ LLONG_MAX) (e : ExprTree) (hv : Valid e) (hs : Safe MIN MAX e)
    (hd : Defined e)
    (rest : List Token) (l : List Int) (r : Int) (s : Parser.ResultType) :
    ∃ r1, calculate_list MIN MAX (postfix_tokens e ++ rest) l r s =
      calculate_list MIN MAX rest (value_ref e :: l) r1 s := by
  induction e generalizing rest l r with
  | leaf t =>
    exact ⟨r, calculate_list_append_operand MIN MAX t hv rest l r s⟩
  | group lp e rp ih =>
    exact ih hv.2.2 hs hd rest l r
  | node a op b iha ihb =>
    obtain ⟨hop, hva, hvb, _, _⟩ := hv
    obtain ⟨hsa, hsb, hz, hr1, hr2⟩ := hs
    obtain ⟨hda, hdb, hdo⟩ := hd
    obtain ⟨r1, e1⟩ := iha hva hsa hda (postfix_tokens b ++ (op :: rest)) l r
    obtain ⟨r2, e2⟩ := ihb hvb hsb hdb (op :: rest) (value_ref a :: l) r1
    have hbr := value_ref_range MIN MAX hmin hmax b hsb
    have hty : op.type ≠ OPERAND := by rw [hop.1]; decide
    have hguard : ¬ (value_ref b = 0 ∧ (c_value0 op = '/' ∨ c_value0 op = '%')) := by
      rintro ⟨h0, hc⟩
      exact hz ((guard_char_iff op hop).1 hc) h0
    have hval : value_ref (node a op b) = apply_ref op.value (value_ref a) (value_ref b) := rfl
    rw [hval] at hr1 hr2
    have happ := apply_operator_exact op hop (value_ref a) (value_ref b) r2 hbr.2 hz
      (fun h => hdo (Or.inr h)) (le_trans hmin hr1) (le_trans hr2 hmax)
    have hin : ¬ (apply_ref op.value (value_ref a) (value_ref b) < MIN ∨
        apply_ref op.value (value_ref a) (value_ref b) > MAX) := by
      rintro (h | h) <;> omega
    refine ⟨apply_ref op.value (value_ref a) (value_ref b), ?_⟩
    have hassoc : postfix_tokens (node a op b) ++ rest =
        postfix_tokens a ++ (postfix_tokens b ++ (op :: rest)) := by
      simp [postfix_tokens]
    rw [hassoc, e1, e2]
    simp only [calculate_list, if_neg hty, if_neg hguard, happ,
      if_neg hin, hval]

end BaresManager

/-! ## Theorems: the pipeline on a parse tree -/

namespace BaresManager

open Token.token_t ExprTree

/-- When the bounds lie above `-2^63` and no operand is `-2^63`, every value
of a valid, safe tree lies above `-2^63`. -/
theorem value_ref_above (MIN MAX : Int) (hmin : LLONG_MIN < MIN) (e : ExprTree)
    (hv : Valid e) (hs : Safe MIN MAX e) (hrep : OperandsRepresentable (tokens_of e)) :
    LLONG_MIN < value_ref e := by
  induction e with
  | leaf t => exact hrep t (by simp [tokens_of]) hv
  | group lp e rp ih =>
    exact ih hv.2.2 hs (fun t ht => hrep t (by simp [tokens_of, ht]))
  | node a op b _ _ =>
    obtain ⟨_, _, _, h1, _⟩ := hs
    exact lt_of_lt_of_le hmin h1

/-- When the bounds lie above `-2^63` and no operand is `-2^63`, as for the
operands the lexer of the spec admits and for operands within the bounds, a
valid, safe tree holds no undefined division. -/
theorem Defined_of_operands (MIN MAX : Int) (hmin : LLONG_MIN < MIN) (e : ExprTree)
    (hv : Valid e) (hs : Safe MIN MAX e) (hrep : OperandsRepresentable (tokens_of e)) :
    Defined e := by
  induction e with
  | leaf t => trivial
  | group lp e rp ih =>
    exact ih hv.2.2 hs (fun t ht => hrep t (by simp [tokens_of, ht]))
  | node a op b iha ihb =>
    obtain ⟨_, hva, hvb, _, _⟩ := hv
    obtain ⟨hsa, hsb, _, _, _⟩ := hs
    have hra : OperandsRepresentable (tokens_of a) :=
      fun t ht => hrep t (by simp [tokens_of, ht])
    have hrb : OperandsRepresentable (tokens_of b) :=
      fun t ht => hrep t (by simp [tokens_of, ht])
    refine ⟨iha hva hsa hra, ihb hvb hsb hrb, ?_⟩
    rintro _ ⟨h, _⟩
    have := value_ref_above MIN MAX hmin a hva hsa hra
    omega

/-- Conversion followed by evaluation, on the tokens of a valid and safe tree
without undefined division whose value lies within the bounds: both succeed, the status is untouched and
the final value is the reference value. -/
theorem pipeline_tree (MIN MAX : Int) (hmin : LLONG_MIN ≤ MIN) (hmax : MAX ≤ LLONG_MAX)
    (e : ExprTree) (hv : Valid e) (hs : Safe MIN MAX e) (hd : Defined e)
    (hfin : MIN ≤ value_ref e ∧ value_ref e ≤ MAX)
    (bm : BaresManager) (htok : bm.tokens = tokens_of e) :
    infix_to_postfix bm = .ok ⟨bm.status, postfix_tokens e, bm.final_value⟩ ∧
      calculate MIN MAX ⟨bm.status, postfix_tokens e, bm.final_value⟩ =
        .ok ⟨bm.status, postfix_tokens e, value_ref e⟩ := by
  constructor
  · rw [infix_to_postfix_eq, htok, postfix_of_tree e hv]
  · rw [calculate_eq]
    obtain ⟨r1, h1⟩ := calculate_list_tree MIN MAX hmin hmax e hv hs hd [] [] 0 bm.status
    rw [List.append_nil] at h1
    simp only [h1, calculate_list, calculate_finish, List.length_singleton, if_true,
      List.headD_cons]
    have hin : ¬ (value_ref e < MIN ∨ value_ref e > MAX) := by
      rintro (h | h) <;> omega
    rw [if_neg hin]

end BaresManager

namespace BaresManager

open Token.token_t ExprTree Token

/-- The evaluation of two operands followed by one operator token. -/
theorem calculate_binary (MIN MAX : Int) (bm : BaresManager) (ta tb op : Token)
    (hta : ta.type = OPERAND) (htb : tb.type = OPERAND) (hop : op.type ≠ OPERAND)
    (htok : bm.tokens = [ta, tb, op]) :
    calculate MIN MAX bm =
      if atoll tb.value = 0 ∧ (c_value0 op = '/' ∨ c_value0 op = '%') then
        .ok (if (0 : Int) < MIN ∨ (0 : Int) > MAX then
              ⟨Parser.ResultType.of Parser.code_t.OVERFLOW_ERROR, bm.tokens, bm.final_value⟩
            else ⟨Parser.ResultType.of Parser.code_t.DIVISION_BY_ZERO, bm.tokens, 0⟩)
      else
        match apply_operator (c_value0 op) (atoll ta.value) (atoll tb.value) 0 with
        | .error e => .error e
        | .ok res =>
          .ok (if res < MIN ∨ res > MAX then
                ⟨Parser.ResultType.of Parser.code_t.OVERFLOW_ERROR, bm.tokens, bm.final_value⟩
              else ⟨bm.status, bm.tokens, res⟩) := by
  rw [calculate_eq, htok]
  simp only [calculate_list, hta, htb, if_true, if_neg hop]
  by_cases hg : atoll tb.value = 0 ∧ (c_value0 op = '/' ∨ c_value0 op = '%')
  · rw [if_pos hg, if_pos hg]
    simp only [calculate_finish, List.length_singleton, if_true, List.headD_cons]
    rw [htok]
  · rw [if_neg hg, if_neg hg]
    cases apply_operator (c_value0 op) (atoll ta.value) (atoll tb.value) 0 with
    | error e => rfl
    | ok res =>
      simp only
      by_cases ho : res < MIN ∨ res > MAX
      · simp only [if_pos ho, calculate_finish, List.length_nil, Nat.zero_ne_one, if_false]
        rw [htok]
      · simp only [if_neg ho, calculate_list, calculate_finish, List.length_singleton, if_true,
          List.headD_cons]
        rw [htok]

/-- C1: for every derivation `g` of the grammar `expr := term { op term }`,
`term := OPERAND | "(" expr ")"`, let `e` be `g` regrouped by the reference rules
(precedence `^` over `* / %` over `+ -`, equal precedence to the left, `^`
included). If in `e` no division or remainder has a zero right operand or
divides `-2^63` by `-1` (the operands on which `/` and `%` of the working type
are undefined), and every operation value and the final value lie within
`[MIN, MAX]`, then `e` is a valid
parse of the same token sequence, `infix_to_postfix` on that sequence returns the
postfix tokens of `e`, and `calculate` on them from status `OK` returns with
status `OK` and `final_value` equal to the reference value of `e`. -/
theorem infix_to_postfix_calculate_reference (MIN MAX : Int) (g : ExprTree)
    (bm : BaresManager) (hmin : LLONG_MIN ≤ MIN) (hmax : MAX ≤ LLONG_MAX)
    (hg : Grammar g) (hs : Safe MIN MAX (regroup g)) (hd : Defined (regroup g))
    (hfin : in_bounds MIN MAX (value_ref (regroup g)))
    (htok : bm.tokens = tokens_of g) (hst : bm.status = status_ok) :
    Valid (regroup g) ∧ tokens_of (regroup g) = tokens_of g ∧
      infix_to_postfix bm = .ok ⟨status_ok, postfix_tokens (regroup g), bm.final_value⟩ ∧
      calculate MIN MAX ⟨status_ok, postfix_tokens (regroup g), bm.final_value⟩ =
        .ok ⟨status_ok, postfix_tokens (regroup g), value_ref (regroup g)⟩ := by
  obtain ⟨hv, ht, _⟩ := regroup_spec g hg
  have h := pipeline_tree MIN MAX hmin hmax (regroup g) hv hs hd hfin bm (by rw [htok, ht])
  rw [hst] at h
  exact ⟨hv, ht, h.1, h.2⟩

/-- C1, at `2 * (3 + 4) - 5 % 3` with 16-bit bounds: the derivation regroups to
`(2 * (3 + 4)) - (5 % 3)`, the postfix tokens are `2 3 4 + * 5 3 % -`, and the
final value is 12. By contrast `-9223372036854775808 % -1` is not `Defined`,
and `calculate` stops on the undefined remainder. -/
theorem infix_to_postfix_calculate_reference_witness :
    (LLONG_MIN ≤ SHRT_MIN ∧ SHRT_MAX ≤ LLONG_MAX ∧ Grammar sample_derivation ∧
      Safe SHRT_MIN SHRT_MAX (regroup sample_derivation) ∧
      Defined (regroup sample_derivation) ∧
      in_bounds SHRT_MIN SHRT_MAX (value_ref (regroup sample_derivation))) ∧
    (¬ Defined (.node (.leaf (operand "-9223372036854775808")) (operator "%")
        (.leaf (operand "-1"))) ∧
      calculate SHRT_MIN SHRT_MAX
          ⟨status_ok, [operand "-9223372036854775808", operand "-1", operator "%"], 0⟩ =
        .error Fault.division_trap) ∧
    (tokens_of sample_derivation =
      [operand "2", operator "*", open_paren, operand "3", operator "+", operand "4",
        close_paren, operator "-", operand "5", operator "%", operand "3"] ∧
     regroup sample_derivation = sample_tree ∧
     postfix_tokens (regroup sample_derivation) =
      [operand "2", operand "3", operand "4", operator "+", operator "*", operand "5",
        operand "3", operator "%", operator "-"] ∧
     value_ref (regroup sample_derivation) = 12) ∧
    (Valid (regroup sample_derivation) ∧
      tokens_of (regroup sample_derivation) = tokens_of sample_derivation ∧
      infix_to_postfix ⟨status_ok, tokens_of sample_derivation, 0⟩ =
        .ok ⟨status_ok, postfix_tokens (regroup sample_derivation), 0⟩ ∧
      calculate SHRT_MIN SHRT_MAX ⟨status_ok, postfix_tokens (regroup sample_derivation), 0⟩ =
        .ok ⟨status_ok, postfix_tokens (regroup sample_derivation),
          value_ref (regroup sample_derivation)⟩) :=
  ⟨⟨by decide, by decide, by decide, by decide, by decide, by decide⟩,
    ⟨by decide, by decide⟩,
    ⟨by decide, by decide, by decide, by decide⟩,
    infix_to_postfix_calculate_reference SHRT_MIN SHRT_MAX sample_derivation
      ⟨status_ok, tokens_of sample_derivation, 0⟩ (by decide) (by decide) (by decide)
      (by decide) (by decide) (by decide) rfl rfl⟩

end BaresManager

namespace BaresManager

open Token.token_t ExprTree Token

/-- C2 (the code at the failing input): on the tokens of `1 + 32767 * 2` with
16-bit bounds the product 65534 leaves the bounds, yet `calculate` returns with
status `OK` and final value 1, the operand that was still on the stack. -/
theorem calculate_overflow_lost_at_one_plus_product :
    infix_to_postfix
        ⟨status_ok, [operand "1", operator "+", operand "32767", operator "*", operand "2"], 0⟩ =
      .ok ⟨status_ok,
        [operand "1", operand "32767", operand "2", operator "*", operator "+"], 0⟩ ∧
    calculate SHRT_MIN SHRT_MAX
        ⟨status_ok,
          [operand "1", operand "32767", operand "2", operator "*", operator "+"], 0⟩ =
      .ok ⟨status_ok,
        [operand "1", operand "32767", operand "2", operator "*", operator "+"], 1⟩ := by
  constructor <;> decide

/-- C3 (the code at the failing input): on the tokens of `1 / 0 + 32767 + 1`
with 16-bit bounds the scan goes on after the division by zero, and `calculate`
returns with status `OVERFLOW_ERROR`. -/
theorem calculate_division_by_zero_overwritten :
    infix_to_postfix
        ⟨status_ok,
          [operand "1", operator "/", operand "0", operator "+", operand "32767", operator "+",
            operand "1"], 0⟩ =
      .ok ⟨status_ok,
        [operand "1", operand "0", operator "/", operand "32767", operator "+", operand "1",
          operator "+"], 0⟩ ∧
    calculate SHRT_MIN SHRT_MAX
        ⟨status_ok,
          [operand "1", operand "0", operator "/", operand "32767", operator "+", operand "1",
            operator "+"], 0⟩ =
      .ok ⟨Parser.ResultType.of Parser.code_t.OVERFLOW_ERROR,
        [operand "1", operand "0", operator "/", operand "32767", operator "+", operand "1",
          operator "+"], 0⟩ := by
  constructor <;> decide

theorem not_guard_of_value (op : Token) (s : String) (h : op.value = s)
    (hs : s.data.headD (Char.ofNat 0) ≠ '/' ∧ s.data.headD (Char.ofNat 0) ≠ '%') (b : Int) :
    ¬ (b = 0 ∧ (c_value0 op = '/' ∨ c_value0 op = '%')) := by
  rw [c_value0_of_value op s h]
  rintro ⟨_, h1 | h1⟩
  · exact hs.1 h1
  · exact hs.2 h1

theorem operator_type_ne_operand {op : Token} (h : is_operator op) : op.type ≠ OPERAND := by
  rw [h.1]; decide

/-- C4: for operands `a` and `b` within `[MIN, MAX]` (a result domain of at most
32 bits) and an operator among `+ - *`, `calculate` on `[a, b, op]` from status
`OK` returns status `OK` with the exact `a op b` when that lies within
`[MIN, MAX]`, and status `OVERFLOW_ERROR` otherwise. -/
theorem calculate_add_sub_mul (MIN MAX : Int) (bm : BaresManager) (ta tb op : Token)
    (hmin : -(2 ^ 31) ≤ MIN) (hmax : MAX < 2 ^ 31)
    (hta : ta.type = OPERAND) (htb : tb.type = OPERAND) (hop : is_operator op)
    (hval : op.value = "+" ∨ op.value = "-" ∨ op.value = "*")
    (ha : in_bounds MIN MAX (atoll ta.value)) (hb : in_bounds MIN MAX (atoll tb.value))
    (htok : bm.tokens = [ta, tb, op]) (hst : bm.status = status_ok) :
    (in_bounds MIN MAX (apply_ref op.value (atoll ta.value) (atoll tb.value)) →
      calculate MIN MAX bm =
        .ok ⟨status_ok, bm.tokens, apply_ref op.value (atoll ta.value) (atoll tb.value)⟩) ∧
    (¬ in_bounds MIN MAX (apply_ref op.value (atoll ta.value) (atoll tb.value)) →
      calculate MIN MAX bm =
        .ok ⟨Parser.ResultType.of Parser.code_t.OVERFLOW_ERROR, bm.tokens, bm.final_value⟩) := by
  obtain ⟨ha1, ha2⟩ := ha
  obtain ⟨hb1, hb2⟩ := hb
  have hrange : LLONG_MIN ≤ apply_ref op.value (atoll ta.value) (atoll tb.value) ∧
      apply_ref op.value (atoll ta.value) (atoll tb.value) ≤ LLONG_MAX := by
    unfold LLONG_MIN LLONG_MAX
    rcases hval with h | h | h <;> rw [h]
    · have e : apply_ref "+" (atoll ta.value) (atoll tb.value) =
          atoll ta.value + atoll tb.value := by simp [apply_ref]
      rw [e]; constructor <;> omega
    · have e : apply_ref "-" (atoll ta.value) (atoll tb.value) =
          atoll ta.value - atoll tb.value := by simp [apply_ref]
      rw [e]; constructor <;> omega
    · have e : apply_ref "*" (atoll ta.value) (atoll tb.value) =
          atoll ta.value * atoll tb.value := by simp [apply_ref]
      rw [e]
      have h1 : -(2 ^ 31 : Int) ≤ atoll ta.value := le_trans hmin ha1
      have h2 : atoll ta.value ≤ 2 ^ 31 := by omega
      have h3 : -(2 ^ 31 : Int) ≤ atoll tb.value := le_trans hmin hb1
      have h4 : atoll tb.value ≤ 2 ^ 31 := by omega
      constructor <;> nlinarith
  have hguard : ¬ (atoll tb.value = 0 ∧ (c_value0 op = '/' ∨ c_value0 op = '%')) := by
    rcases hval with h | h | h
    · exact not_guard_of_value op _ h (by decide) _
    · exact not_guard_of_value op _ h (by decide) _
    · exact not_guard_of_value op _ h (by decide) _
  have hz : (op.value = "/" ∨ op.value = "%") → atoll tb.value ≠ 0 := by
    intro hc
    rcases hval with h | h | h <;> rw [h] at hc <;> exact absurd hc (by decide)
  have hnt : op.value = "%" →
      ¬ (atoll ta.value = LLONG_MIN ∧ atoll tb.value = -1) := by
    intro hc
    rcases hval with h | h | h <;> rw [h] at hc <;> exact absurd hc (by decide)
  have happ := apply_operator_exact op hop (atoll ta.value) (atoll tb.value) 0
    (atoll_range _).2 hz hnt hrange.1 hrange.2
  have hcalc := calculate_binary MIN MAX bm ta tb op hta htb (operator_type_ne_operand hop) htok
  rw [if_neg hguard, happ] at hcalc
  simp only at hcalc
  constructor
  · intro hin
    have : ¬ (apply_ref op.value (atoll ta.value) (atoll tb.value) < MIN ∨
        apply_ref op.value (atoll ta.value) (atoll tb.value) > MAX) := by
      obtain ⟨h1, h2⟩ := hin
      rintro (h | h) <;> omega
    rw [hcalc, if_neg this, hst]
  · intro hout
    have : apply_ref op.value (atoll ta.value) (atoll tb.value) < MIN ∨
        apply_ref op.value (atoll ta.value) (atoll tb.value) > MAX := by
      by_contra hcon
      apply hout
      constructor <;> omega
    rw [hcalc, if_pos this]

/-- C4, at the tokens of `4 + 3` (value 7) and of `5 + -3` (value 2, the signed
term being the single operand `-3`), with 16-bit bounds. -/
theorem calculate_add_sub_mul_witness :
    calculate SHRT_MIN SHRT_MAX ⟨status_ok, [operand "4", operand "3", operator "+"], 0⟩ =
      .ok ⟨status_ok, [operand "4", operand "3", operator "+"], 7⟩ ∧
    calculate SHRT_MIN SHRT_MAX ⟨status_ok, [operand "5", operand "-3", operator "+"], 0⟩ =
      .ok ⟨status_ok, [operand "5", operand "-3", operator "+"], 2⟩ :=
  ⟨(calculate_add_sub_mul SHRT_MIN SHRT_MAX
      ⟨status_ok, [operand "4", operand "3", operator "+"], 0⟩
      (operand "4") (operand "3") (operator "+") (by decide) (by decide) rfl rfl (by decide)
      (by decide) (by decide) (by decide) rfl rfl).1 (by decide),
   (calculate_add_sub_mul SHRT_MIN SHRT_MAX
      ⟨status_ok, [operand "5", operand "-3", operator "+"], 0⟩
      (operand "5") (operand "-3") (operator "+") (by decide) (by decide) rfl rfl (by decide)
      (by decide) (by decide) (by decide) rfl rfl).1 (by decide)⟩

/-- C5: on the infix tokens `[a, ^, b, ^, c]`, `infix_to_postfix` yields
`[a, b, ^, c, ^]` and `calculate` on these from status `OK` yields status `OK`
with the final value `(a ^ b) ^ c`, whenever `a ^ b` and `(a ^ b) ^ c` lie
within `[MIN, MAX]`. -/
theorem power_chain_groups_left (MIN MAX : Int) (bm : BaresManager) (ta tb tc o1 o2 : Token)
    (hmin : LLONG_MIN ≤ MIN) (hmax : MAX ≤ LLONG_MAX)
    (hta : ta.type = OPERAND) (htb : tb.type = OPERAND) (htc : tc.type = OPERAND)
    (ho1 : o1.type = OPERATOR ∧ o1.value = "^") (ho2 : o2.type = OPERATOR ∧ o2.value = "^")
    (h1 : in_bounds MIN MAX (pow_ref (atoll ta.value) (atoll tb.value)))
    (h2 : in_bounds MIN MAX
      (pow_ref (pow_ref (atoll ta.value) (atoll tb.value)) (atoll tc.value)))
    (htok : bm.tokens = [ta, o1, tb, o2, tc]) (hst : bm.status = status_ok) :
    infix_to_postfix bm = .ok ⟨status_ok, [ta, tb, o1, tc, o2], bm.final_value⟩ ∧
      calculate MIN MAX ⟨status_ok, [ta, tb, o1, tc, o2], bm.final_value⟩ =
        .ok ⟨status_ok, [ta, tb, o1, tc, o2],
          pow_ref (pow_ref (atoll ta.value) (atoll tb.value)) (atoll tc.value)⟩ := by
  have hop1 : is_operator o1 := ⟨ho1.1, by simp [ho1.2]⟩
  have hop2 : is_operator o2 := ⟨ho2.1, by simp [ho2.2]⟩
  have hp1 : prec o1.value = 3 := by rw [ho1.2]; decide
  have hp2 : prec o2.value = 3 := by rw [ho2.2]; decide
  have e1 : apply_ref o1.value (atoll ta.value) (atoll tb.value) =
      pow_ref (atoll ta.value) (atoll tb.value) := by rw [ho1.2]; simp [apply_ref]
  have e2 : ∀ x y, apply_ref o2.value x y = pow_ref x y := by
    intro x y; rw [ho2.2]; simp [apply_ref]
  have hne1 : ¬ (o1.value = "/" ∨ o1.value = "%") := by rw [ho1.2]; decide
  have hne2 : ¬ (o2.value = "/" ∨ o2.value = "%") := by rw [ho2.2]; decide
  have hv : Valid (node (node (leaf ta) o1 (leaf tb)) o2 (leaf tc)) :=
    ⟨hop2, ⟨hop1, hta, htb, by simp only [root_prec]; omega, by simp only [root_prec]; omega⟩,
      htc, by simp only [root_prec]; omega, by simp only [root_prec]; omega⟩
  have hs : Safe MIN MAX (node (node (leaf ta) o1 (leaf tb)) o2 (leaf tc)) := by
    refine ⟨⟨trivial, trivial, fun h => absurd h hne1, ?_⟩, trivial,
      fun h => absurd h hne2, ?_⟩
    · simp only [value_ref, e1]; exact h1
    · simp only [value_ref, e1, e2]; exact h2
  have hfin : MIN ≤ value_ref (node (node (leaf ta) o1 (leaf tb)) o2 (leaf tc)) ∧
      value_ref (node (node (leaf ta) o1 (leaf tb)) o2 (leaf tc)) ≤ MAX := by
    simp only [value_ref, e1, e2]; exact h2
  have hd : Defined (node (node (leaf ta) o1 (leaf tb)) o2 (leaf tc)) :=
    ⟨⟨trivial, trivial, fun h => absurd h hne1⟩, trivial, fun h => absurd h hne2⟩
  have hpipe := pipeline_tree MIN MAX hmin hmax _ hv hs hd hfin bm
    (by simpa [tokens_of] using htok)
  simp only [postfix_tokens, value_ref, e1, e2, List.singleton_append, List.cons_append,
    List.nil_append, hst] at hpipe
  exact hpipe

/-- C5, at the tokens of `2 ^ 3 ^ 2` with 16-bit bounds: the final value is
`(2 ^ 3) ^ 2 = 64`, which differs from `2 ^ (3 ^ 2) = 512`. -/
theorem power_chain_groups_left_witness :
    pow_ref (pow_ref (atoll "2") (atoll "3")) (atoll "2") = 64 ∧
    pow_ref (atoll "2") (pow_ref (atoll "3") (atoll "2")) = 512 ∧
    infix_to_postfix
        ⟨status_ok, [operand "2", operator "^", operand "3", operator "^", operand "2"], 0⟩ =
      .ok ⟨status_ok,
        [operand "2", operand "3", operator "^", operand "2", operator "^"], 0⟩ ∧
    calculate SHRT_MIN SHRT_MAX
        ⟨status_ok, [operand "2", operand "3", operator "^", operand "2", operator "^"], 0⟩ =
      .ok ⟨status_ok, [operand "2", operand "3", operator "^", operand "2", operator "^"],
        pow_ref (pow_ref (atoll "2") (atoll "3")) (atoll "2")⟩ :=
  ⟨by decide, by decide,
    power_chain_groups_left SHRT_MIN SHRT_MAX
      ⟨status_ok, [operand "2", operator "^", operand "3", operator "^", operand "2"], 0⟩
      (operand "2") (operand "3") (operand "2") (operator "^") (operator "^")
      (by decide) (by decide) rfl rfl rfl ⟨rfl, rfl⟩ ⟨rfl, rfl⟩ (by decide) (by decide)
      rfl rfl⟩

/-- C6: for operand tokens `a`, `b`, `c` and operator tokens `o1`, `o2`,
`infix_to_postfix` on `[a, o1, b, o2, c]` yields `[a, b, o1, c, o2]` when
`prec o1 ≥ prec o2` and `[a, b, c, o2, o1]` when `prec o1 < prec o2`. -/
theorem infix_to_postfix_two_operators (bm : BaresManager) (ta tb tc o1 o2 : Token)
    (hta : ta.type = OPERAND) (htb : tb.type = OPERAND) (htc : tc.type = OPERAND)
    (ho1 : is_operator o1) (ho2 : is_operator o2)
    (htok : bm.tokens = [ta, o1, tb, o2, tc]) :
    (prec o2.value ≤ prec o1.value →
      infix_to_postfix bm = .ok ⟨bm.status, [ta, tb, o1, tc, o2], bm.final_value⟩) ∧
    (prec o1.value < prec o2.value →
      infix_to_postfix bm = .ok ⟨bm.status, [ta, tb, tc, o2, o1], bm.final_value⟩) := by
  have hp1 := prec_of_operator ho1
  have hp2 := prec_of_operator ho2
  constructor
  · intro hle
    have hv : Valid (node (node (leaf ta) o1 (leaf tb)) o2 (leaf tc)) :=
      ⟨ho2, ⟨ho1, hta, htb, by simp only [root_prec]; omega, by simp only [root_prec]; omega⟩,
        htc, by simp only [root_prec]; omega, by simp only [root_prec]; omega⟩
    have hpf := postfix_of_tree _ hv
    simp only [tokens_of, List.singleton_append, List.cons_append, List.nil_append] at hpf
    rw [infix_to_postfix_eq, htok, hpf]
    simp [postfix_tokens]
  · intro hlt
    have hv : Valid (node (leaf ta) o1 (node (leaf tb) o2 (leaf tc))) :=
      ⟨ho1, hta, ⟨ho2, htb, htc, by simp only [root_prec]; omega,
        by simp only [root_prec]; omega⟩, by simp only [root_prec]; omega,
        by simp only [root_prec]; omega⟩
    have hpf := postfix_of_tree _ hv
    simp only [tokens_of, List.singleton_append, List.cons_append, List.nil_append] at hpf
    rw [infix_to_postfix_eq, htok, hpf]
    simp [postfix_tokens]

/-- C6, at `8 - 3 - 2` (equal precedence), `2 ^ 3 ^ 2` (equal precedence, `^`)
and `1 + 2 * 3` (the second operator binds tighter). -/
theorem infix_to_postfix_two_operators_witness :
    infix_to_postfix
        ⟨status_ok, [operand "8", operator "-", operand "3", operator "-", operand "2"], 0⟩ =
      .ok ⟨status_ok,
        [operand "8", operand "3", operator "-", operand "2", operator "-"], 0⟩ ∧
    infix_to_postfix
        ⟨status_ok, [operand "2", operator "^", operand "3", operator "^", operand "2"], 0⟩ =
      .ok ⟨status_ok,
        [operand "2", operand "3", operator "^", operand "2", operator "^"], 0⟩ ∧
    infix_to_postfix
        ⟨status_ok, [operand "1", operator "+", operand "2", operator "*", operand "3"], 0⟩ =
      .ok ⟨status_ok,
        [operand "1", operand "2", operand "3", operator "*", operator "+"], 0⟩ :=
  ⟨(infix_to_postfix_two_operators
      ⟨status_ok, [operand "8", operator "-", operand "3", operator "-", operand "2"], 0⟩
      (operand "8") (operand "3") (operand "2") (operator "-") (operator "-")
      rfl rfl rfl (by decide) (by decide) rfl).1 (by decide),
   (infix_to_postfix_two_operators
      ⟨status_ok, [operand "2", operator "^", operand "3", operator "^", operand "2"], 0⟩
      (operand "2") (operand "3") (operand "2") (operator "^") (operator "^")
      rfl rfl rfl (by decide) (by decide) rfl).1 (by decide),
   (infix_to_postfix_two_operators
      ⟨status_ok, [operand "1", operator "+", operand "2", operator "*", operand "3"], 0⟩
      (operand "1") (operand "2") (operand "3") (operator "+") (operator "*")
      rfl rfl rfl (by decide) (by decide) rfl).2 (by decide)⟩

end BaresManager

namespace BaresManager

open Token.token_t ExprTree Token

/-- C7: for every base `b`, `calculate` on `[b, e, ^]` from status `OK` yields
status `OK` with final value 1 when `e = 0`, and status `OK` with final value 0
when `e < 0` (the bounds holding 0 and 1). -/
theorem calculate_power_zero_negative (MIN MAX : Int) (bm : BaresManager) (tb te op : Token)
    (hmin : MIN ≤ 0) (hmax : 1 ≤ MAX)
    (htb : tb.type = OPERAND) (hte : te.type = OPERAND)
    (hop : op.type = OPERATOR ∧ op.value = "^")
    (htok : bm.tokens = [tb, te, op]) (hst : bm.status = status_ok) :
    (atoll te.value = 0 → calculate MIN MAX bm = .ok ⟨status_ok, bm.tokens, 1⟩) ∧
    (atoll te.value < 0 → calculate MIN MAX bm = .ok ⟨status_ok, bm.tokens, 0⟩) := by
  have hty : op.type ≠ OPERAND := by rw [hop.1]; decide
  have hc0 : c_value0 op = '^' := by rw [c_value0_of_value op _ hop.2]; decide
  have hguard : ¬ (atoll te.value = 0 ∧ (c_value0 op = '/' ∨ c_value0 op = '%')) :=
    not_guard_of_value op _ hop.2 (by decide) _
  have hcalc := calculate_binary MIN MAX bm tb te op htb hte hty htok
  rw [if_neg hguard, hc0] at hcalc
  constructor
  · intro he
    have happ : apply_operator '^' (atoll tb.value) (atoll te.value) 0 = .ok 1 := by
      simp [apply_operator, he]
    rw [happ] at hcalc
    have hin : ¬ ((1 : Int) < MIN ∨ (1 : Int) > MAX) := by
      rintro (h | h) <;> omega
    simp only [if_neg hin] at hcalc
    rw [hcalc, hst]
  · intro he
    have hne : atoll te.value ≠ 0 := by omega
    have happ : apply_operator '^' (atoll tb.value) (atoll te.value) 0 = .ok 0 := by
      simp [apply_operator, he, hne]
    rw [happ] at hcalc
    have hin : ¬ ((0 : Int) < MIN ∨ (0 : Int) > MAX) := by
      rintro (h | h) <;> omega
    simp only [if_neg hin] at hcalc
    rw [hcalc, hst]

/-- C7, at `0 ^ 0` (value 1) and `7 ^ -2` (value 0) with 16-bit bounds. -/
theorem calculate_power_zero_negative_witness :
    calculate SHRT_MIN SHRT_MAX ⟨status_ok, [operand "0", operand "0", operator "^"], 0⟩ =
      .ok ⟨status_ok, [operand "0", operand "0", operator "^"], 1⟩ ∧
    calculate SHRT_MIN SHRT_MAX ⟨status_ok, [operand "7", operand "-2", operator "^"], 0⟩ =
      .ok ⟨status_ok, [operand "7", operand "-2", operator "^"], 0⟩ :=
  ⟨(calculate_power_zero_negative SHRT_MIN SHRT_MAX
      ⟨status_ok, [operand "0", operand "0", operator "^"], 0⟩
      (operand "0") (operand "0") (operator "^") (by decide) (by decide) rfl rfl
      ⟨rfl, rfl⟩ rfl rfl).1 (by decide),
   (calculate_power_zero_negative SHRT_MIN SHRT_MAX
      ⟨status_ok, [operand "7", operand "-2", operator "^"], 0⟩
      (operand "7") (operand "-2") (operator "^") (by decide) (by decide) rfl rfl
      ⟨rfl, rfl⟩ rfl rfl).2 (by decide)⟩

/-- C8 (the code at the failing input): on `[2, 64, ^]` with 16-bit bounds the
exact power `2 ^ 64` lies outside the bounds, yet the 64-bit product wraps to 0
and `calculate` returns with status `OK` and final value 0. -/
theorem calculate_power_wraps_into_range :
    ¬ in_bounds SHRT_MIN SHRT_MAX ((2 : Int) ^ 64) ∧
    calculate SHRT_MIN SHRT_MAX ⟨status_ok, [operand "2", operand "64", operator "^"], 0⟩ =
      .ok ⟨status_ok, [operand "2", operand "64", operator "^"], 0⟩ := by
  constructor <;> decide

/-- C9: `calculate` takes the most recently pushed value as the right-hand
operand: for `b ≠ 0` and results within `[MIN, MAX]`, `[a, b, -]` yields
`a - b`, `[a, b, /]` the quotient of `a` by `b` truncated toward zero, and
`[a, b, %]` yields `a - b * trunc(a / b)`, the last one for every pair other
than `a = -2^63`, `b = -1`, on which `%` of the working type is undefined (for
`/` the bound on the result excludes that pair). -/
theorem calculate_operand_order (MIN MAX : Int) (bm : BaresManager) (ta tb op : Token)
    (hmin : LLONG_MIN ≤ MIN) (hmax : MAX ≤ LLONG_MAX)
    (hta : ta.type = OPERAND) (htb : tb.type = OPERAND) (hop : op.type = OPERATOR)
    (hb : atoll tb.value ≠ 0)
    (htok : bm.tokens = [ta, tb, op]) (hst : bm.status = status_ok) :
    (op.value = "-" → in_bounds MIN MAX (atoll ta.value - atoll tb.value) →
      calculate MIN MAX bm =
        .ok ⟨status_ok, bm.tokens, atoll ta.value - atoll tb.value⟩) ∧
    (op.value = "/" → in_bounds MIN MAX (Int.tdiv (atoll ta.value) (atoll tb.value)) →
      calculate MIN MAX bm =
        .ok ⟨status_ok, bm.tokens, Int.tdiv (atoll ta.value) (atoll tb.value)⟩) ∧
    (op.value = "%" → ¬ (atoll ta.value = LLONG_MIN ∧ atoll tb.value = -1) →
      in_bounds MIN MAX
        (atoll ta.value - atoll tb.value * Int.tdiv (atoll ta.value) (atoll tb.value)) →
      calculate MIN MAX bm =
        .ok ⟨status_ok, bm.tokens,
          atoll ta.value - atoll tb.value * Int.tdiv (atoll ta.value) (atoll tb.value)⟩) := by
  have hty : op.type ≠ OPERAND := by rw [hop]; decide
  have hguard : ¬ (atoll tb.value = 0 ∧ (c_value0 op = '/' ∨ c_value0 op = '%')) :=
    fun h => hb h.1
  have hcalc := calculate_binary MIN MAX bm ta tb op hta htb hty htok
  rw [if_neg hguard] at hcalc
  have hz : (op.value = "/" ∨ op.value = "%") → atoll tb.value ≠ 0 := fun _ => hb
  have key : ∀ v : Int, apply_ref op.value (atoll ta.value) (atoll tb.value) = v →
      is_operator op →
      (op.value = "%" → ¬ (atoll ta.value = LLONG_MIN ∧ atoll tb.value = -1)) →
      in_bounds MIN MAX v →
      calculate MIN MAX bm = .ok ⟨status_ok, bm.tokens, v⟩ := by
    intro v hv hio hnt hin
    obtain ⟨h1, h2⟩ := hin
    have happ := apply_operator_exact op hio (atoll ta.value) (atoll tb.value) 0
      (atoll_range _).2 hz hnt (by rw [hv]; exact le_trans hmin h1)
      (by rw [hv]; exact le_trans h2 hmax)
    rw [happ, hv] at hcalc
    have hno : ¬ (v < MIN ∨ v > MAX) := by
      rintro (h | h) <;> omega
    simp only [if_neg hno] at hcalc
    rw [hcalc, hst]
  refine ⟨fun h hin => key _ ?_ ⟨hop, by simp [h]⟩
      (fun hc => by rw [h] at hc; exact absurd hc (by decide)) hin,
    fun h hin => key _ ?_ ⟨hop, by simp [h]⟩
      (fun hc => by rw [h] at hc; exact absurd hc (by decide)) hin,
    fun h hnt hin => key _ ?_ ⟨hop, by simp [h]⟩ (fun _ => hnt) hin⟩
  · rw [h]; simp [apply_ref]
  · rw [h]; simp [apply_ref]
  · rw [h]
    have e : apply_ref "%" (atoll ta.value) (atoll tb.value) =
        Int.tmod (atoll ta.value) (atoll tb.value) := by simp [apply_ref]
    rw [e]
    have := Int.tdiv_add_tmod (atoll ta.value) (atoll tb.value)
    omega

/-- C9, at `[7, 2, -]`, `[-7, 2, /]` and `[-7, 2, %]` with 16-bit bounds: the
values are `7 - 2 = 5`, `-3` and `-1`, not `2 - 7`, `2 / -7 = 0` or
`2 % -7 = 2`. On the excluded pair the run stops on the undefined
remainder. -/
theorem calculate_operand_order_witness :
    calculate SHRT_MIN SHRT_MAX ⟨status_ok, [operand "7", operand "2", operator "-"], 0⟩ =
      .ok ⟨status_ok, [operand "7", operand "2", operator "-"], 5⟩ ∧
    calculate SHRT_MIN SHRT_MAX ⟨status_ok, [operand "-7", operand "2", operator "/"], 0⟩ =
      .ok ⟨status_ok, [operand "-7", operand "2", operator "/"], -3⟩ ∧
    calculate SHRT_MIN SHRT_MAX ⟨status_ok, [operand "-7", operand "2", operator "%"], 0⟩ =
      .ok ⟨status_ok, [operand "-7", operand "2", operator "%"], -1⟩ ∧
    calculate SHRT_MIN SHRT_MAX
        ⟨status_ok, [operand "-9223372036854775808", operand "-1", operator "%"], 0⟩ =
      .error Fault.division_trap :=
  ⟨(calculate_operand_order SHRT_MIN SHRT_MAX
      ⟨status_ok, [operand "7", operand "2", operator "-"], 0⟩
      (operand "7") (operand "2") (operator "-") (by decide) (by decide) rfl rfl rfl
      (by decide) rfl rfl).1 rfl (by decide),
   (calculate_operand_order SHRT_MIN SHRT_MAX
      ⟨status_ok, [operand "-7", operand "2", operator "/"], 0⟩
      (operand "-7") (operand "2") (operator "/") (by decide) (by decide) rfl rfl rfl
      (by decide) rfl rfl).2.1 rfl (by decide),
   (calculate_operand_order SHRT_MIN SHRT_MAX
      ⟨status_ok, [operand "-7", operand "2", operator "%"], 0⟩
      (operand "-7") (operand "2") (operator "%") (by decide) (by decide) rfl rfl rfl
      (by decide) rfl rfl).2.2 rfl (by decide) (by decide),
   by decide⟩

/-- C10: for every operand `a`, `calculate` on `[a, 0, /]` and on `[a, 0, %]`
from status `OK` returns normally, so that no division was executed, with status
`DIVISION_BY_ZERO` (the bounds holding 0). -/
theorem calculate_division_by_zero (MIN MAX : Int) (bm : BaresManager) (ta tz op : Token)
    (hmin : MIN ≤ 0) (hmax : 0 ≤ MAX)
    (hta : ta.type = OPERAND) (htz : tz.type = OPERAND) (hz : atoll tz.value = 0)
    (hop : op.type = OPERATOR ∧ (op.value = "/" ∨ op.value = "%"))
    (htok : bm.tokens = [ta, tz, op]) :
    calculate MIN MAX bm =
      .ok ⟨Parser.ResultType.of Parser.code_t.DIVISION_BY_ZERO, bm.tokens, 0⟩ := by
  have hty : op.type ≠ OPERAND := by rw [hop.1]; decide
  have hguard : atoll tz.value = 0 ∧ (c_value0 op = '/' ∨ c_value0 op = '%') := by
    refine ⟨hz, ?_⟩
    rcases hop.2 with h | h
    · exact Or.inl (by rw [c_value0_of_value op _ h]; decide)
    · exact Or.inr (by rw [c_value0_of_value op _ h]; decide)
  have hcalc := calculate_binary MIN MAX bm ta tz op hta htz hty htok
  rw [if_pos hguard] at hcalc
  have hin : ¬ ((0 : Int) < MIN ∨ (0 : Int) > MAX) := by
    rintro (h | h) <;> omega
  rw [if_neg hin] at hcalc
  exact hcalc

/-- C10, at the tokens of `3 / 0` and of `3 % 0` with 16-bit bounds. -/
theorem calculate_division_by_zero_witness :
    calculate SHRT_MIN SHRT_MAX ⟨status_ok, [operand "3", operand "0", operator "/"], 0⟩ =
      .ok ⟨Parser.ResultType.of Parser.code_t.DIVISION_BY_ZERO,
        [operand "3", operand "0", operator "/"], 0⟩ ∧
    calculate SHRT_MIN SHRT_MAX ⟨status_ok, [operand "3", operand "0", operator "%"], 0⟩ =
      .ok ⟨Parser.ResultType.of Parser.code_t.DIVISION_BY_ZERO,
        [operand "3", operand "0", operator "%"], 0⟩ :=
  ⟨calculate_division_by_zero SHRT_MIN SHRT_MAX
      ⟨status_ok, [operand "3", operand "0", operator "/"], 0⟩
      (operand "3") (operand "0") (operator "/") (by decide) (by decide) rfl rfl (by decide)
      ⟨rfl, Or.inl rfl⟩ rfl,
   calculate_division_by_zero SHRT_MIN SHRT_MAX
      ⟨status_ok, [operand "3", operand "0", operator "%"], 0⟩
      (operand "3") (operand "0") (operator "%") (by decide) (by decide) rfl rfl (by decide)
      ⟨rfl, Or.inr rfl⟩ rfl⟩

end BaresManager

namespace BaresManager

open Token.token_t ExprTree Token

/-- C11: whenever the loop of `calculate` ends with exactly one value on the
stack and that value lies outside `[MIN, MAX]`, `calculate` returns with status
`OVERFLOW_ERROR` and `final_value` as it was on entry; in particular on a
sequence made of one operand token whose value lies outside `[MIN, MAX]`. -/
theorem calculate_last_value_out_of_bounds (MIN MAX : Int) (bm : BaresManager) :
    (∀ (s : CalcState) (v : Int),
      calculate_loop MIN MAX bm.tokens ⟨sta.stack.new, 0, bm.status⟩ = .ok s →
      s.st.size = 1 → s.st.top = .ok v → (v < MIN ∨ v > MAX) →
      calculate MIN MAX bm =
        .ok ⟨Parser.ResultType.of Parser.code_t.OVERFLOW_ERROR, bm.tokens, bm.final_value⟩) ∧
    (∀ t : Token, bm.tokens = [t] → t.type = OPERAND →
      (atoll t.value < MIN ∨ atoll t.value > MAX) →
      calculate MIN MAX bm =
        .ok ⟨Parser.ResultType.of Parser.code_t.OVERFLOW_ERROR, bm.tokens, bm.final_value⟩) := by
  constructor
  · intro s v hloop hsize htop hout
    have hne : s.st.m_end ≠ 0 := by
      have : s.st.m_end = 1 := hsize
      omega
    have hpop : s.st.pop =
        .ok (s.st.m_storage.getD (s.st.m_end - 1) default,
          ⟨s.st.m_end - 1, s.st.m_capacity, s.st.m_storage⟩) := by
      unfold sta.stack.pop
      rw [if_neg hne]
    unfold calculate
    rw [hloop]
    simp only [hsize, if_true, htop, hpop, if_pos hout]
  · intro t htok hty hout
    rw [calculate_eq, htok]
    simp only [calculate_list, hty, if_true, calculate_finish, List.length_singleton,
      List.headD_cons, if_pos hout]
    rw [htok]

/-- C11, at the single operand `40000` with 16-bit bounds, entered with final
value 7: both parts give status `OVERFLOW_ERROR` and leave the 7. -/
theorem calculate_last_value_out_of_bounds_witness :
    calculate SHRT_MIN SHRT_MAX ⟨status_ok, [operand "40000"], 7⟩ =
      .ok ⟨Parser.ResultType.of Parser.code_t.OVERFLOW_ERROR, [operand "40000"], 7⟩ ∧
    calculate SHRT_MIN SHRT_MAX ⟨status_ok, [operand "40000"], 7⟩ =
      .ok ⟨Parser.ResultType.of Parser.code_t.OVERFLOW_ERROR, [operand "40000"], 7⟩ :=
  ⟨(calculate_last_value_out_of_bounds SHRT_MIN SHRT_MAX
      ⟨status_ok, [operand "40000"], 7⟩).1
      ⟨(sta.stack.new.push 40000).1, 0, status_ok⟩ 40000 rfl rfl rfl (by decide),
   (calculate_last_value_out_of_bounds SHRT_MIN SHRT_MAX
      ⟨status_ok, [operand "40000"], 7⟩).2
      (operand "40000") rfl rfl (by decide)⟩

/-- C13: on the tokens of every derivation of the grammar (balanced
parentheses, operators only between terms) `infix_to_postfix` returns normally,
so that neither `top` nor `pop` was called on an empty stack, and what it returns
is the postfix sequence of the regrouped derivation. -/
theorem infix_to_postfix_never_fails (g : ExprTree) (bm : BaresManager)
    (hg : Grammar g) (htok : bm.tokens = tokens_of g) :
    infix_to_postfix bm = .ok ⟨bm.status, postfix_tokens (regroup g), bm.final_value⟩ := by
  obtain ⟨hv, ht, _⟩ := regroup_spec g hg
  rw [infix_to_postfix_eq, htok, ← ht, postfix_of_tree _ hv]

/-- C13, at `2 * (3 + 4) - 5 % 3`; by contrast the unbalanced `1 )` makes `top`
throw on the empty stack. -/
theorem infix_to_postfix_never_fails_witness :
    Grammar sample_derivation ∧
    infix_to_postfix ⟨status_ok, tokens_of sample_derivation, 0⟩ =
      .ok ⟨status_ok, postfix_tokens (regroup sample_derivation), 0⟩ ∧
    infix_to_postfix ⟨status_ok, [operand "1", close_paren], 0⟩ =
      .error Fault.top_on_empty :=
  ⟨by decide,
    infix_to_postfix_never_fails sample_derivation
      ⟨status_ok, tokens_of sample_derivation, 0⟩ (by decide) rfl,
    by decide⟩

/-- C14 (the code at the failing input): on the tokens of `5 * 4 / 0` with
16-bit bounds, entered with final value 0, `calculate` returns with status
`DIVISION_BY_ZERO` and with the final value 20, the stale product it pushed in
place of the quotient. -/
theorem calculate_division_by_zero_stores_value :
    infix_to_postfix
        ⟨status_ok,
          [operand "5", operator "*", operand "4", operator "/", operand "0"], 0⟩ =
      .ok ⟨status_ok,
        [operand "5", operand "4", operator "*", operand "0", operator "/"], 0⟩ ∧
    calculate SHRT_MIN SHRT_MAX
        ⟨status_ok,
          [operand "5", operand "4", operator "*", operand "0", operator "/"], 0⟩ =
      .ok ⟨Parser.ResultType.of Parser.code_t.DIVISION_BY_ZERO,
        [operand "5", operand "4", operator "*", operand "0", operator "/"], 20⟩ := by
  constructor <;> decide

end BaresManager

namespace sta.stack

variable {T : Type}

theorem Rep_of_WellFormed (s : stack T) (h : WellFormed s) : Rep s s.toList :=
  ⟨h.1, h.2, rfl⟩

theorem WellFormed_of_Rep {s : stack T} {l : List T} (h : Rep s l) : WellFormed s :=
  ⟨h.1, h.2.1⟩

theorem toList_of_Rep {s : stack T} {l : List T} (h : Rep s l) : s.toList = l := h.2.2

theorem Rep_push_all [Inhabited T] (xs : List T) :
    ∀ (s : stack T) (l : List T), Rep s l → Rep (push_all s xs) (xs.reverse ++ l) := by
  induction xs with
  | nil => intro s l h; simpa [push_all] using h
  | cons x xs ih =>
    intro s l h
    have := ih (s.push x).1 (x :: l) (Rep_push h x)
    simpa [push_all] using this

theorem Rep_pop_n [Inhabited T] (ys : List T) :
    ∀ (s : stack T) (l : List T), Rep s (ys ++ l) →
      ∃ s1, pop_n ys.length s = .ok (ys, s1) ∧ Rep s1 l := by
  induction ys with
  | nil => intro s l h; exact ⟨s, rfl, by simpa using h⟩
  | cons y ys ih =>
    intro s l h
    obtain ⟨s1, hp, hr⟩ := Rep_pop_cons (x := y) (l := ys ++ l) (by simpa using h)
    obtain ⟨s2, hp2, hr2⟩ := ih s1 l hr
    exact ⟨s2, by simp [pop_n, hp, hp2], hr2⟩

/-- C20: on every well-formed stack `push x` returns true, the `pop` that follows
returns `x` and leaves a well-formed stack with the elements and the size the
stack had before the push; pushing `x1 .. xn` and popping `n` times returns
`xn, .., x1` and leaves the elements the stack had, whatever the capacity. -/
theorem push_pop_last_in_first_out [Inhabited T] (s : stack T) (h : WellFormed s) :
    (∀ x : T, (s.push x).2 = true ∧
      ∃ s1, (s.push x).1.pop = .ok (x, s1) ∧ WellFormed s1 ∧ s1.toList = s.toList ∧
        s1.size = s.size) ∧
    (∀ xs : List T, ∃ s1, pop_n xs.length (push_all s xs) = .ok (xs.reverse, s1) ∧
      WellFormed s1 ∧ s1.toList = s.toList ∧ s1.size = s.size) := by
  have hr := Rep_of_WellFormed s h
  constructor
  · intro x
    refine ⟨rfl, ?_⟩
    obtain ⟨s1, hp, hr1⟩ := Rep_pop_cons (Rep_push hr x)
    exact ⟨s1, hp, WellFormed_of_Rep hr1, toList_of_Rep hr1,
      by rw [Rep_size hr1, Rep_size hr]⟩
  · intro xs
    have hpush := Rep_push_all xs s s.toList hr
    obtain ⟨s1, hp, hr1⟩ := Rep_pop_n xs.reverse (push_all s xs) s.toList hpush
    rw [List.length_reverse] at hp
    exact ⟨s1, hp, WellFormed_of_Rep hr1, toList_of_Rep hr1,
      by rw [Rep_size hr1, Rep_size hr]⟩

/-- C20, at the empty stack of capacity 0: the values 1 to 5 are pushed through
the capacities 1, 2, 4 and 8 and come back as 5, 4, 3, 2, 1. -/
theorem push_pop_last_in_first_out_witness :
    WellFormed (new : stack Int) ∧
    (push_all (new : stack Int) [1, 2, 3, 4, 5]).m_capacity = 8 ∧
    ((new : stack Int).push 9).2 = true ∧
    (∃ s1, ((new : stack Int).push 9).1.pop = .ok (9, s1) ∧ WellFormed s1 ∧
      s1.toList = (new : stack Int).toList ∧ s1.size = (new : stack Int).size) ∧
    ∃ s1, pop_n 5 (push_all (new : stack Int) [1, 2, 3, 4, 5]) = .ok ([5, 4, 3, 2, 1], s1) ∧
      WellFormed s1 ∧ s1.toList = (new : stack Int).toList ∧
      s1.size = (new : stack Int).size :=
  ⟨by decide, by decide,
    ((push_pop_last_in_first_out (new : stack Int) (by decide)).1 9).1,
    ((push_pop_last_in_first_out (new : stack Int) (by decide)).1 9).2,
    (push_pop_last_in_first_out (new : stack Int) (by decide)).2 [1, 2, 3, 4, 5]⟩

end sta.stack

namespace BaresManager

open Token.token_t ExprTree Token

/-- C19: `prec` is the precedence table (`^` is 3, `* / %` are 2, `+ -` are 1)
and returns -1 on every other text, the parentheses included; so a parenthesis
ranks strictly below every operator, and the loop run on an operator token
leaves a stack whose top is an opening parenthesis as it is. -/
theorem prec_table :
    (prec "^" = 3 ∧ prec "*" = 2 ∧ prec "/" = 2 ∧ prec "%" = 2 ∧ prec "+" = 1 ∧
      prec "-" = 1 ∧ prec "(" = -1 ∧ prec ")" = -1) ∧
    (∀ c : String, c ≠ "^" → c ≠ "*" → c ≠ "/" → c ≠ "%" → c ≠ "+" → c ≠ "-" →
      prec c = -1) ∧
    (∀ op : Token, is_operator op → prec "(" < prec op.value ∧ prec ")" < prec op.value) ∧
    (∀ (op t : Token) (fuel : Nat) (st : sta.stack Token) (pf : List Token),
      is_operator op → st.top = .ok t → t.value = "(" →
      operator_loop op.value fuel st pf = .ok (st, pf)) := by
  refine ⟨by decide, ?_, ?_, ?_⟩
  · intro c h1 h2 h3 h4 h5 h6
    simp [prec, h1, h2, h3, h4, h5, h6]
  · intro op hop
    have := prec_of_operator hop
    have h1 : prec "(" = -1 := by decide
    have h2 : prec ")" = -1 := by decide
    rw [h1, h2]
    constructor <;> omega
  · intro op t fuel st pf hop htop hval
    have hp := prec_of_operator hop
    have hne : st.m_end ≠ 0 := by
      intro h0
      unfold sta.stack.top at htop
      rw [if_pos h0] at htop
      cases htop
    have hempty : st.empty = false := by
      simp [sta.stack.empty, hne]
    have hlt : ¬ (prec op.value ≤ prec t.value) := by
      rw [hval, prec_open]
      omega
    unfold operator_loop
    simp only [hempty, Bool.false_eq_true, if_false, htop, if_neg hlt]

/-- C19, at the texts `(` and `a`, at the operator `+`, and at a stack holding
one opening parenthesis. -/
theorem prec_table_witness :
    prec "a" = -1 ∧ prec "(" < prec "+" ∧
    operator_loop "+" 1 (sta.stack.new.push open_paren).1 [operand "1"] =
      .ok ((sta.stack.new.push open_paren).1, [operand "1"]) :=
  ⟨prec_table.2.1 "a" (by decide) (by decide) (by decide) (by decide) (by decide) (by decide),
   (prec_table.2.2.1 (operator "+") (by decide)).1,
   prec_table.2.2.2 (operator "+") open_paren 1 (sta.stack.new.push open_paren).1
     [operand "1"] (by decide) rfl rfl⟩

end BaresManager

/-! ## Theorems: `atoll` reads back the decimal text of an integer -/

theorem digitChar_facts :
    ∀ k, k < 10 → (Nat.digitChar k).isDigit = true ∧ (Nat.digitChar k).toNat - 48 = k ∧
      isspace (Nat.digitChar k) = false ∧ Nat.digitChar k ≠ '-' ∧ Nat.digitChar k ≠ '+' ∧
      (Nat.digitChar k).isAlpha = false := by
  decide

theorem atoll_digits_toDigitsCore (fuel : Nat) :
    ∀ (n : Nat) (ds : List Char), n < fuel →
      atoll_digits (Nat.toDigitsCore 10 fuel n ds) 0 = atoll_digits ds n := by
  induction fuel with
  | zero => intro n ds h; omega
  | succ f ih =>
    intro n ds h
    have hd := digitChar_facts (n % 10) (Nat.mod_lt _ (by decide))
    unfold Nat.toDigitsCore
    simp only
    by_cases h0 : n / 10 = 0
    · rw [if_pos h0]
      have hn : 0 * 10 + n % 10 = n := by omega
      have e : atoll_digits (Nat.digitChar (n % 10) :: ds) 0 =
          atoll_digits ds (0 * 10 + n % 10) := by
        simp only [atoll_digits, hd.1, if_true, hd.2.1]
      rw [e, hn]
    · rw [if_neg h0, ih (n / 10) _ (by omega)]
      have hn : n / 10 * 10 + n % 10 = n := by omega
      have e : atoll_digits (Nat.digitChar (n % 10) :: ds) (n / 10) =
          atoll_digits ds (n / 10 * 10 + n % 10) := by
        simp only [atoll_digits, hd.1, if_true, hd.2.1]
      rw [e, hn]

theorem toDigitsCore_head (fuel : Nat) :
    ∀ (n k : Nat) (ds : List Char), k < 10 →
      ∃ k1, k1 < 10 ∧ ∃ rest,
        Nat.toDigitsCore 10 fuel n (Nat.digitChar k :: ds) = Nat.digitChar k1 :: rest := by
  induction fuel with
  | zero => intro n k ds hk; exact ⟨k, hk, ds, rfl⟩
  | succ f ih =>
    intro n k ds hk
    unfold Nat.toDigitsCore
    simp only
    by_cases h0 : n / 10 = 0
    · rw [if_pos h0]
      exact ⟨n % 10, Nat.mod_lt _ (by decide), _, rfl⟩
    · rw [if_neg h0]
      exact ih (n / 10) (n % 10) _ (Nat.mod_lt _ (by decide))

theorem toDigits_head (n : Nat) :
    ∃ k, k < 10 ∧ ∃ rest, Nat.toDigits 10 n = Nat.digitChar k :: rest := by
  unfold Nat.toDigits Nat.toDigitsCore
  simp only
  by_cases h0 : n / 10 = 0
  · rw [if_pos h0]
    exact ⟨n % 10, Nat.mod_lt _ (by decide), _, rfl⟩
  · rw [if_neg h0]
    exact toDigitsCore_head n (n / 10) (n % 10) [] (Nat.mod_lt _ (by decide))

theorem atoll_digits_toDigits (n : Nat) : atoll_digits (Nat.toDigits 10 n) 0 = n := by
  unfold Nat.toDigits
  rw [atoll_digits_toDigitsCore (n + 1) n [] (by omega)]
  rfl

theorem clamp64_id (x : Int) (h1 : LLONG_MIN ≤ x) (h2 : x ≤ LLONG_MAX) : clamp64 x = x := by
  unfold clamp64
  rw [if_neg (by omega), if_neg (by omega)]

/-- `atoll` reads back the decimal text of every integer of the working type. -/
theorem atoll_decimal (n : Int) (h1 : LLONG_MIN ≤ n) (h2 : n ≤ LLONG_MAX) :
    atoll (decimal n) = n := by
  unfold decimal
  by_cases hneg : n < 0
  · rw [if_pos hneg]
    have hdata : ("-" ++ Nat.repr n.natAbs).data = '-' :: Nat.toDigits 10 n.natAbs := by
      rw [String.data_append]; rfl
    unfold atoll
    rw [hdata]
    have hsp : isspace '-' = false := by decide
    simp only [List.dropWhile, hsp, atoll_digits_toDigits]
    rw [clamp64_id]
    · omega
    · omega
    · unfold LLONG_MAX; omega
  · rw [if_neg hneg]
    obtain ⟨k, hk, rest, hrest⟩ := toDigits_head n.toNat
    have hd := digitChar_facts k hk
    have hdata : (Nat.repr n.toNat).data = Nat.digitChar k :: rest := by
      rw [← hrest]; rfl
    have hval : atoll_digits (Nat.digitChar k :: rest) 0 = n.toNat := by
      rw [← hrest]; exact atoll_digits_toDigits _
    unfold atoll
    rw [hdata]
    simp only [List.dropWhile, hd.2.2.1]
    split
    · rename_i ds heq
      exact absurd (List.cons.inj heq).1 hd.2.2.2.1
    · rename_i ds heq
      exact absurd (List.cons.inj heq).1 hd.2.2.2.2.1
    · rw [hval, clamp64_id]
      · omega
      · unfold LLONG_MIN; omega
      · omega

namespace BaresManager

open Token.token_t ExprTree Token

/-- C12: for every integer `n` within `[MIN, MAX]`, on the single operand token
whose text is the decimal numeral of `n` (with a leading `-` when `n` is
negative) `infix_to_postfix` returns that token and `calculate` from status `OK`
returns with status `OK` and final value `n`. -/
theorem single_operand_value (MIN MAX n : Int) (bm : BaresManager)
    (hmin : LLONG_MIN ≤ MIN) (hmax : MAX ≤ LLONG_MAX) (hn : in_bounds MIN MAX n)
    (htok : bm.tokens = [operand (decimal n)]) (hst : bm.status = status_ok) :
    infix_to_postfix bm = .ok ⟨status_ok, [operand (decimal n)], bm.final_value⟩ ∧
      calculate MIN MAX ⟨status_ok, [operand (decimal n)], bm.final_value⟩ =
        .ok ⟨status_ok, [operand (decimal n)], n⟩ := by
  have hval : atoll (decimal n) = n :=
    atoll_decimal n (le_trans hmin hn.1) (le_trans hn.2 hmax)
  have hv : Valid (leaf (operand (decimal n))) := rfl
  have hs : Safe MIN MAX (leaf (operand (decimal n))) := trivial
  have hfin : MIN ≤ value_ref (leaf (operand (decimal n))) ∧
      value_ref (leaf (operand (decimal n))) ≤ MAX := by
    show MIN ≤ atoll (decimal n) ∧ atoll (decimal n) ≤ MAX
    rw [hval]; exact hn
  have hd : Defined (leaf (operand (decimal n))) := trivial
  have h := pipeline_tree MIN MAX hmin hmax _ hv hs hd hfin bm htok
  have hvr : value_ref (leaf (operand (decimal n))) = n := hval
  rw [hst, hvr] at h
  exact h

/-- C12, at 10 and at -32768 with 16-bit bounds: the texts are `10` and `-32768`
and the final values 10 and -32768. -/
theorem single_operand_value_witness :
    (decimal 10 = "10" ∧ decimal (-32768) = "-32768") ∧
    ( infix_to_postfix ⟨status_ok, [operand (decimal 10)], 0⟩ =
        .ok ⟨status_ok, [operand (decimal 10)], 0⟩ ∧
      calculate SHRT_MIN SHRT_MAX ⟨status_ok, [operand (decimal 10)], 0⟩ =
        .ok ⟨status_ok, [operand (decimal 10)], 10⟩) ∧
    ( infix_to_postfix ⟨status_ok, [operand (decimal (-32768))], 0⟩ =
        .ok ⟨status_ok, [operand (decimal (-32768))], 0⟩ ∧
      calculate SHRT_MIN SHRT_MAX ⟨status_ok, [operand (decimal (-32768))], 0⟩ =
        .ok ⟨status_ok, [operand (decimal (-32768))], -32768⟩) :=
  ⟨⟨by decide, by decide⟩,
    single_operand_value SHRT_MIN SHRT_MAX 10 ⟨status_ok, [operand (decimal 10)], 0⟩
      (by decide) (by decide) (by decide) rfl rfl,
    single_operand_value SHRT_MIN SHRT_MAX (-32768)
      ⟨status_ok, [operand (decimal (-32768))], 0⟩
      (by decide) (by decide) (by decide) rfl rfl⟩

end BaresManager

namespace BaresManager

open Parser.code_t

theorem print_error_msg_ok (result : Parser.ResultType) (str : String)
    (h : result.at_col ≤ str.utf8ByteSize) :
    ∃ msg, print_error_msg result str = .ok msg := by
  unfold print_error_msg
  rw [if_neg (by omega)]
  exact ⟨_, rfl⟩

theorem print_error_msg_key (result : Parser.ResultType) (str msg : String)
    (h : print_error_msg result str = .ok msg) :
    msg.data.take 9 = message_key result.type := by
  unfold print_error_msg at h
  split at h
  · cases h
  · simp only [Except.ok.injEq] at h
    rw [← h]
    cases result.type <;> simp only [String.data_append, message_key] <;> rfl

theorem message_key_injective (a b : Parser.code_t) (h : message_key a = message_key b) :
    a = b := by
  revert h
  cases a <;> cases b <;> decide

theorem message_key_head (a : Parser.code_t) :
    ∃ c rest, message_key a = c :: rest ∧ c.isAlpha = true := by
  cases a <;> exact ⟨_, _, rfl, by decide⟩

end BaresManager

namespace BaresManager

open Parser.code_t

/-- C18: for a diagnostic whose column lies within the line, the message of
each of the six parsing kinds ends with `at column (`, the decimal text of
`at_col + 1` and `)!`; the message of `DIVISION_BY_ZERO` and of `OVERFLOW_ERROR`
holds no digit and does not depend on the column; and two diagnostics with the
same message have the same kind, so that the message names the kind. -/
theorem print_error_msg_reports :
    (∀ (result : Parser.ResultType) (str : String),
      result.at_col ≤ str.utf8ByteSize → reports_column result.type →
      ∃ msg, print_error_msg result str = .ok msg ∧
        ("at column (" ++ Nat.repr (result.at_col + 1) ++ ")!\n").data <:+ msg.data) ∧
    (∀ (result : Parser.ResultType) (str : String),
      result.at_col ≤ str.utf8ByteSize →
      (result.type = DIVISION_BY_ZERO ∨ result.type = OVERFLOW_ERROR) →
      ∃ msg, print_error_msg result str = .ok msg ∧
        (∀ c ∈ msg.data, c.isDigit = false) ∧
        print_error_msg ⟨result.type, 0⟩ "" = .ok msg) ∧
    (∀ (r1 r2 : Parser.ResultType) (str1 str2 msg : String),
      print_error_msg r1 str1 = .ok msg → print_error_msg r2 str2 = .ok msg →
      r1.type = r2.type) := by
  refine ⟨?_, ?_, ?_⟩
  · intro result str hcol hkind
    unfold print_error_msg
    rw [if_neg (by omega)]
    refine ⟨_, rfl, ?_⟩
    rcases hkind with h | h | h | h | h | h <;> rw [h] <;>
      simp only [String.data_append]
    · exact ⟨"Unexpected end of input ".data, rfl⟩
    · exact ⟨"Ill formed integer ".data, rfl⟩
    · exact ⟨"Missing <term> ".data, rfl⟩
    · exact ⟨"Extraneous symbol after valid expression found ".data, rfl⟩
    · exact ⟨"Integer constant out of range beginning ".data, rfl⟩
    · exact ⟨"Missing closing \")\" ".data, rfl⟩
  · intro result str hcol hkind
    unfold print_error_msg
    rw [if_neg (by omega), if_neg (by simp)]
    refine ⟨_, rfl, ?_, ?_⟩
    · rcases hkind with h | h <;> rw [h]
      · show ∀ c ∈ "Division by zero!\n".data, c.isDigit = false
        decide
      · show ∀ c ∈ "Numeric overflow error!\n".data, c.isDigit = false
        decide
    · rcases hkind with h | h <;> rw [h]
  · intro r1 r2 str1 str2 msg h1 h2
    apply message_key_injective
    rw [← print_error_msg_key r1 str1 msg h1, ← print_error_msg_key r2 str2 msg h2]

/-- C18, at a missing term in column 0 of the empty line, at an unexpected end
in column 4 of `4 + `, and at a division by zero. -/
theorem print_error_msg_reports_witness :
    print_error_msg ⟨MISSING_TERM, 0⟩ "" = .ok "Missing <term> at column (1)!\n" ∧
    print_error_msg ⟨UNEXPECTED_END_OF_EXPRESSION, 4⟩ "4 + " =
      .ok "Unexpected end of input at column (5)!\n" ∧
    print_error_msg ⟨DIVISION_BY_ZERO, 0⟩ "3 / 0" = .ok "Division by zero!\n" ∧
    ("at column (" ++ Nat.repr (4 + 1) ++ ")!\n").data <:+
      "Unexpected end of input at column (5)!\n".data ∧
    (∀ c ∈ "Division by zero!\n".data, c.isDigit = false) := by
  obtain ⟨m1, h1, hs1⟩ :=
    print_error_msg_reports.1 ⟨UNEXPECTED_END_OF_EXPRESSION, 4⟩ "4 + " (by decide) (by decide)
  obtain ⟨m2, h2, hd2, _⟩ :=
    print_error_msg_reports.2.1 ⟨DIVISION_BY_ZERO, 0⟩ "3 / 0" (by decide) (by decide)
  have e1 : print_error_msg ⟨UNEXPECTED_END_OF_EXPRESSION, 4⟩ "4 + " =
      .ok "Unexpected end of input at column (5)!\n" := by decide
  have e2 : print_error_msg ⟨DIVISION_BY_ZERO, 0⟩ "3 / 0" = .ok "Division by zero!\n" := by
    decide
  have e3 : print_error_msg ⟨MISSING_TERM, 0⟩ "" = .ok "Missing <term> at column (1)!\n" := by
    decide
  rw [e1] at h1
  rw [e2] at h2
  cases h1
  cases h2
  exact ⟨e3, e1, e2, hs1, hd2⟩

end BaresManager

/-! ## Theorems: what the scan of a valid postfix sequence can do -/

theorem wrap64_range (x : Int) : In64 (wrap64 x) := by
  unfold In64 wrap64 LLONG_MIN LLONG_MAX
  have h1 := Int.emod_nonneg (x + 2 ^ 63) (show (2 : Int) ^ 64 ≠ 0 by norm_num)
  have h2 := Int.emod_lt_of_pos (x + 2 ^ 63) (show (0 : Int) < 2 ^ 64 by norm_num)
  constructor <;> omega

namespace BaresManager

open Token.token_t ExprTree Token sta.stack

theorem pow_loop_total (a : Int) (k : Nat) :
    ∀ (fuel : Nat) (expo : Int), k ≤ fuel → (k : Int) < 2 ^ 63 → In64 expo →
      ∃ res, pow_loop a fuel expo ((k : Int) + 1) = .ok res ∧ In64 res := by
  induction k with
  | zero =>
    intro fuel expo _ _ he
    refine ⟨expo, ?_, he⟩
    unfold pow_loop
    simp
  | succ k ih =>
    intro fuel expo hf hk _
    unfold pow_loop
    have hne : ((k + 1 : Nat) : Int) + 1 ≠ 1 := by omega
    rw [if_pos hne]
    cases fuel with
    | zero => omega
    | succ f =>
      simp only
      have hw : wrap64 (((k + 1 : Nat) : Int) + 1 - 1) = (k : Int) + 1 := by
        rw [wrap64_id]
        · push_cast; ring
        · unfold LLONG_MIN; omega
        · unfold LLONG_MAX; omega
      rw [hw]
      exact ih f _ (by omega) (by omega) (wrap64_range _)

/-- Outside the guarded division by zero the `switch` on an operator token
either produces a value of the working type or stops on the one remaining
undefined division, `-2^63` divided by `-1`. -/
theorem apply_operator_cases (op : Token) (hop : is_operator op) (a b r : Int)
    (ha : In64 a) (hb : In64 b)
    (hg : ¬ (b = 0 ∧ (c_value0 op = '/' ∨ c_value0 op = '%'))) :
    (∃ res, apply_operator (c_value0 op) a b r = .ok res ∧ In64 res) ∨
      (apply_operator (c_value0 op) a b r = .error Fault.division_trap ∧
        a = LLONG_MIN ∧ b = -1) := by
  have h01 : In64 1 := by unfold In64; decide
  have h00 : In64 0 := by unfold In64; decide
  obtain ⟨_, h | h | h | h | h | h⟩ := hop
  · rw [c_value0_of_value op _ h]
    exact Or.inl ⟨wrap64 (a + b), by simp [apply_operator], wrap64_range _⟩
  · rw [c_value0_of_value op _ h]
    exact Or.inl ⟨wrap64 (a - b), by simp [apply_operator], wrap64_range _⟩
  · rw [c_value0_of_value op _ h]
    exact Or.inl ⟨wrap64 (a * b), by simp [apply_operator], wrap64_range _⟩
  · have hc : c_value0 op = '/' := by rw [c_value0_of_value op _ h]; decide
    have hb0 : b ≠ 0 := fun h0 => hg ⟨h0, Or.inl hc⟩
    rw [hc]
    by_cases hq : a = LLONG_MIN ∧ b = -1
    · exact Or.inr ⟨by simp [apply_operator, hq], hq.1, hq.2⟩
    · exact Or.inl ⟨wrap64 (Int.tdiv a b), by simp [apply_operator, hb0, hq], wrap64_range _⟩
  · have hc : c_value0 op = '%' := by rw [c_value0_of_value op _ h]; decide
    have hb0 : b ≠ 0 := fun h0 => hg ⟨h0, Or.inr hc⟩
    rw [hc]
    by_cases hq : a = LLONG_MIN ∧ b = -1
    · exact Or.inr ⟨by simp [apply_operator, hq], hq.1, hq.2⟩
    · exact Or.inl ⟨wrap64 (Int.tmod a b), by simp [apply_operator, hb0, hq], wrap64_range _⟩
  · have hc : c_value0 op = '^' := by rw [c_value0_of_value op _ h]; decide
    rw [hc]
    have he : apply_operator '^' a b r =
        if b = 0 then .ok 1 else if b < 0 then .ok 0 else pow_loop a b.toNat a b := by
      simp [apply_operator]
    rw [he]
    left
    by_cases hb0 : b = 0
    · exact ⟨1, by rw [if_pos hb0], h01⟩
    · by_cases hbn : b < 0
      · exact ⟨0, by rw [if_neg hb0, if_pos hbn], h00⟩
      · rw [if_neg hb0, if_neg hbn]
        obtain ⟨k, hk⟩ : ∃ k : Nat, b.toNat = k + 1 := ⟨b.toNat - 1, by omega⟩
        have hbk : b = (k : Int) + 1 := by omega
        rw [hk, hbk]
        have hb2 := hb.2
        unfold LLONG_MAX at hb2
        exact pow_loop_total a k (k + 1) a (by omega) (by omega) ha

/-- Dropping the way out and the count from `calculate_scan` gives
`calculate_loop`. -/
theorem calculate_scan_erase (MIN MAX : Int) (ts : List Token) :
    ∀ (i : Nat) (s0 : CalcState),
      calculate_loop MIN MAX ts s0 =
        match calculate_scan MIN MAX ts i s0 with
        | .error e => .error e
        | .ok (s, _, _) => .ok s := by
  induction ts with
  | nil => intro i s0; rfl
  | cons c rest ih =>
    intro i s0
    unfold calculate_loop calculate_scan
    by_cases h1 : c.type = OPERAND
    · simp only [h1, if_true]
      exact ih _ _
    · simp only [h1, if_false]
      cases s0.st.top with
      | error e => rfl
      | ok a =>
        simp only
        cases s0.st.pop with
        | error e => rfl
        | ok p =>
          obtain ⟨_, st1⟩ := p
          simp only
          cases st1.top with
          | error e => rfl
          | ok b =>
            simp only
            cases st1.pop with
            | error e => rfl
            | ok q =>
              obtain ⟨_, st2⟩ := q
              simp only
              by_cases hz : a = 0 ∧ (c_value0 c = '/' ∨ c_value0 c = '%')
              · simp only [if_pos hz]
                exact ih _ _
              · simp only [if_neg hz]
                cases apply_operator (c_value0 c) b a s0.result with
                | error e => rfl
                | ok res =>
                  simp only
                  by_cases ho : res < MIN ∨ res > MAX
                  · simp only [if_pos ho]
                  · simp only [if_neg ho]
                    exact ih _ _

/-- Scanning the postfix tokens of a valid tree from a well-formed stack, with
a property `Q` that the operands have and every result within the bounds has:
every operator finds its two values, and the scan leaves through the `break` on
a result out of bounds, or stops on the undefined division (only when `-2^63`
has `Q`), or goes on with exactly one more value on the stack after reading all
the tokens of the tree. Stated for any property `P` of the outcome that holds in
the three cases. -/
theorem calculate_scan_tree_cases (MIN MAX : Int) (Q : Int → Prop)
    (P : Except Fault (CalcState × Bool × Nat) → Prop)
    (hQres : ∀ x : Int, ¬ (x < MIN ∨ x > MAX) → Q x)
    (htrap : Q LLONG_MIN → P (.error Fault.division_trap))
    (s : Parser.ResultType) (e : ExprTree) (hv : Valid e)
    (hQop : ∀ t ∈ postfix_tokens e, t.type = OPERAND → Q (atoll t.value)) :
    ∀ (rest : List Token) (st : sta.stack Int) (l : List Int) (r : Int)
      (s0 : Parser.ResultType) (i : Nat), Rep st l → In64 r → Q r →
      (s0 = s ∨ s0 = Parser.ResultType.of Parser.code_t.DIVISION_BY_ZERO) →
      (∀ (st1 : sta.stack Int) (res : Int) (s1 : Parser.ResultType) (k : Nat),
        (s1 = s ∨ s1 = Parser.ResultType.of Parser.code_t.DIVISION_BY_ZERO) →
        (res < MIN ∨ res > MAX) → i < k → k ≤ i + (postfix_tokens e).length →
        P (.ok (⟨st1, res, s1⟩, true, k))) →
      (∀ (st1 : sta.stack Int) (v r1 : Int) (s1 : Parser.ResultType),
        Rep st1 (v :: l) → In64 v → Q v → In64 r1 → Q r1 →
        (s1 = s ∨ s1 = Parser.ResultType.of Parser.code_t.DIVISION_BY_ZERO) →
        P (calculate_scan MIN MAX rest (i + (postfix_tokens e).length) ⟨st1, r1, s1⟩)) →
      P (calculate_scan MIN MAX (postfix_tokens e ++ rest) i ⟨st, r, s0⟩) := by
  induction e with
  | leaf t =>
    intro rest st l r s0 i hrep hr hqr hs0 _ hcont
    have ht : t.type = OPERAND := hv
    have hq : Q (atoll t.value) := hQop t (by simp [postfix_tokens]) ht
    have := hcont _ (atoll t.value) r s0 (Rep_push hrep _) (atoll_range _) hq hr hqr hs0
    simpa [postfix_tokens, calculate_scan, ht] using this
  | group lp e rp ih =>
    intro rest st l r s0 i hrep hr hqr hs0 hbreak hcont
    exact ih hv.2.2 hQop rest st l r s0 i hrep hr hqr hs0 hbreak hcont
  | node a op b iha ihb =>
    intro rest st l r s0 i hrep hr hqr hs0 hbreak hcont
    obtain ⟨hop, hva, hvb, _, _⟩ := hv
    have hlen : (postfix_tokens (node a op b)).length =
        (postfix_tokens a).length + (postfix_tokens b).length + 1 := by
      simp [postfix_tokens]
      omega
    have hQa : ∀ t ∈ postfix_tokens a, t.type = OPERAND → Q (atoll t.value) :=
      fun t ht => hQop t (by simp [postfix_tokens, ht])
    have hQb : ∀ t ∈ postfix_tokens b, t.type = OPERAND → Q (atoll t.value) :=
      fun t ht => hQop t (by simp [postfix_tokens, ht])
    have hassoc : postfix_tokens (node a op b) ++ rest =
        postfix_tokens a ++ (postfix_tokens b ++ (op :: rest)) := by
      simp [postfix_tokens]
    rw [hassoc]
    apply iha hva hQa _ st l r s0 i hrep hr hqr hs0
      (fun st1 res s1 k hs1 hout hik hk => hbreak st1 res s1 k hs1 hout hik (by omega))
    intro st_a va ra sa hrepa hva64 hqva hra hqra hsa
    apply ihb hvb hQb _ st_a (va :: l) ra sa _ hrepa hra hqra hsa
      (fun st1 res s1 k hs1 hout hik hk => hbreak st1 res s1 k hs1 hout (by omega) (by omega))
    intro st_b vb rb sb hrepb hvb64 hqvb hrb hqrb hsb
    have hty : op.type ≠ OPERAND := by rw [hop.1]; decide
    obtain ⟨st1, hp1, hrep1⟩ := Rep_pop_cons hrepb
    obtain ⟨st2, hp2, hrep2⟩ := Rep_pop_cons hrep1
    have hidx : i + (postfix_tokens a).length + (postfix_tokens b).length + 1 =
        i + (postfix_tokens (node a op b)).length := by omega
    unfold calculate_scan
    simp only [if_neg hty, Rep_top_cons hrepb, hp1, Rep_top_cons hrep1, hp2, hidx]
    by_cases hg : vb = 0 ∧ (c_value0 op = '/' ∨ c_value0 op = '%')
    · rw [if_pos hg]
      exact hcont _ rb rb _ (Rep_push hrep2 _) hrb hqrb hrb hqrb (Or.inr rfl)
    · rw [if_neg hg]
      rcases apply_operator_cases op hop va vb rb hva64 hvb64 hg with
        ⟨res, happ, hres⟩ | ⟨happ, hmin, _⟩
      · simp only [happ]
        by_cases hout : res < MIN ∨ res > MAX
        · rw [if_pos hout]
          exact hbreak _ res _ _ hsb hout (by omega) (le_refl _)
        · rw [if_neg hout]
          exact hcont _ res res _ (Rep_push hrep2 _) hres (hQres res hout) hres
            (hQres res hout) hsb
      · simp only [happ]
        rw [hmin] at hqva
        exact htrap hqva

theorem postfix_tokens_subset (e : ExprTree) :
    ∀ t ∈ postfix_tokens e, t ∈ tokens_of e := by
  induction e with
  | leaf x => intro t ht; exact ht
  | group lp e rp ih =>
    intro t ht
    simp only [tokens_of, List.mem_cons, List.mem_append]
    exact Or.inr (Or.inl (ih t ht))
  | node a op b iha ihb =>
    intro t ht
    simp only [postfix_tokens, List.mem_append, List.mem_singleton] at ht
    simp only [tokens_of, List.mem_append, List.mem_cons]
    rcases ht with h | h | h
    · exact Or.inl (iha t h)
    · exact Or.inr (Or.inr (ihb t h))
    · exact Or.inr (Or.inl h)

/-- The scan of `calculate` over the postfix tokens of a valid tree, from the
empty stack: it returns, with exactly one value on the stack when it reached
the end (having read every token) and with a result out of bounds when it left
through the `break`; or it stops on the undefined division, which takes an
operand `-2^63` or bounds that reach down to `-2^63`. No `top` or `pop` throws
and no loop runs on. -/
theorem calculate_scan_outcome (MIN MAX : Int) (e : ExprTree) (hv : Valid e)
    (s0 : Parser.ResultType) :
    (∃ (s : CalcState) (interrupted : Bool) (n : Nat),
      calculate_scan MIN MAX (postfix_tokens e) 0 ⟨sta.stack.new, 0, s0⟩ =
        .ok (s, interrupted, n) ∧
      (s.status = s0 ∨ s.status = Parser.ResultType.of Parser.code_t.DIVISION_BY_ZERO) ∧
      (interrupted = false →
        n = (postfix_tokens e).length ∧ s.st.size = 1 ∧ WellFormed s.st) ∧
      (interrupted = true →
        0 < n ∧ n ≤ (postfix_tokens e).length ∧ (s.result < MIN ∨ s.result > MAX))) ∨
    (calculate_scan MIN MAX (postfix_tokens e) 0 ⟨sta.stack.new, 0, s0⟩ =
        .error Fault.division_trap ∧
      ¬ (LLONG_MIN < MIN ∧ OperandsRepresentable (tokens_of e))) := by
  have h0 : In64 0 := by unfold In64; decide
  have hbreak : ∀ (st1 : sta.stack Int) (res : Int) (s1 : Parser.ResultType) (k : Nat),
      (s1 = s0 ∨ s1 = Parser.ResultType.of Parser.code_t.DIVISION_BY_ZERO) →
      (res < MIN ∨ res > MAX) → 0 < k → k ≤ 0 + (postfix_tokens e).length →
      (∃ (s : CalcState) (interrupted : Bool) (n : Nat),
        (Except.ok ((⟨st1, res, s1⟩ : CalcState), true, k) :
            Except Fault (CalcState × Bool × Nat)) = .ok (s, interrupted, n) ∧
        (s.status = s0 ∨ s.status = Parser.ResultType.of Parser.code_t.DIVISION_BY_ZERO) ∧
        (interrupted = false →
          n = (postfix_tokens e).length ∧ s.st.size = 1 ∧ WellFormed s.st) ∧
        (interrupted = true →
          0 < n ∧ n ≤ (postfix_tokens e).length ∧ (s.result < MIN ∨ s.result > MAX))) := by
    intro st1 res s1 k hs1 hout hk0 hk
    exact ⟨_, _, _, rfl, hs1, fun h => by simp at h, fun _ => ⟨hk0, by omega, hout⟩⟩
  have hcont : ∀ (st1 : sta.stack Int) (v r1 : Int) (s1 : Parser.ResultType),
      Rep st1 [v] →
      (s1 = s0 ∨ s1 = Parser.ResultType.of Parser.code_t.DIVISION_BY_ZERO) →
      (∃ (s : CalcState) (interrupted : Bool) (n : Nat),
        calculate_scan MIN MAX [] (0 + (postfix_tokens e).length) ⟨st1, r1, s1⟩ =
          .ok (s, interrupted, n) ∧
        (s.status = s0 ∨ s.status = Parser.ResultType.of Parser.code_t.DIVISION_BY_ZERO) ∧
        (interrupted = false →
          n = (postfix_tokens e).length ∧ s.st.size = 1 ∧ WellFormed s.st) ∧
        (interrupted = true →
          0 < n ∧ n ≤ (postfix_tokens e).length ∧ (s.result < MIN ∨ s.result > MAX))) := by
    intro st1 v r1 s1 hrep hs1
    exact ⟨_, _, _, rfl, hs1,
      fun _ => ⟨by omega, by rw [Rep_size hrep]; rfl, WellFormed_of_Rep hrep⟩,
      fun h => by simp at h⟩
  by_cases hC : LLONG_MIN < MIN ∧ OperandsRepresentable (tokens_of e)
  · left
    have key := calculate_scan_tree_cases MIN MAX (fun v => LLONG_MIN < v)
      (fun x => ∃ (s : CalcState) (interrupted : Bool) (n : Nat),
        x = .ok (s, interrupted, n) ∧
        (s.status = s0 ∨ s.status = Parser.ResultType.of Parser.code_t.DIVISION_BY_ZERO) ∧
        (interrupted = false →
          n = (postfix_tokens e).length ∧ s.st.size = 1 ∧ WellFormed s.st) ∧
        (interrupted = true →
          0 < n ∧ n ≤ (postfix_tokens e).length ∧ (s.result < MIN ∨ s.result > MAX)))
      (fun x hx => by
        have : MIN ≤ x := by
          by_contra hlt
          exact hx (Or.inl (by omega))
        exact lt_of_lt_of_le hC.1 this)
      (fun h => absurd h (lt_irrefl _))
      s0 e hv
      (fun t ht hty => hC.2 t (postfix_tokens_subset e t ht) hty)
      [] sta.stack.new [] 0 s0 0 Rep_new h0 (by decide) (Or.inl rfl)
      hbreak
      (fun st1 v r1 s1 hrep _ _ _ _ hs1 => hcont st1 v r1 s1 hrep hs1)
    rw [List.append_nil] at key
    exact key
  · have key := calculate_scan_tree_cases MIN MAX (fun _ => True)
      (fun x => (∃ (s : CalcState) (interrupted : Bool) (n : Nat),
        x = .ok (s, interrupted, n) ∧
        (s.status = s0 ∨ s.status = Parser.ResultType.of Parser.code_t.DIVISION_BY_ZERO) ∧
        (interrupted = false →
          n = (postfix_tokens e).length ∧ s.st.size = 1 ∧ WellFormed s.st) ∧
        (interrupted = true →
          0 < n ∧ n ≤ (postfix_tokens e).length ∧ (s.result < MIN ∨ s.result > MAX))) ∨
        (x = .error Fault.division_trap ∧
          ¬ (LLONG_MIN < MIN ∧ OperandsRepresentable (tokens_of e))))
      (fun _ _ => trivial)
      (fun _ => Or.inr ⟨rfl, hC⟩)
      s0 e hv
      (fun _ _ _ => trivial)
      [] sta.stack.new [] 0 s0 0 Rep_new h0 trivial (Or.inl rfl)
      (fun st1 res s1 k hs1 hout hk0 hk => Or.inl (hbreak st1 res s1 k hs1 hout hk0 hk))
      (fun st1 v r1 s1 hrep _ _ _ _ hs1 => Or.inl (hcont st1 v r1 s1 hrep hs1))
    rw [List.append_nil] at key
    exact key

/-- What is left of `calculate` after its loop never throws: the final status
is the one the loop left or `OVERFLOW_ERROR`. -/
theorem calculate_of_loop (MIN MAX : Int) (bm : BaresManager) :
    (∀ e, calculate_loop MIN MAX bm.tokens ⟨sta.stack.new, 0, bm.status⟩ = .error e →
      calculate MIN MAX bm = .error e) ∧
    (∀ s, calculate_loop MIN MAX bm.tokens ⟨sta.stack.new, 0, bm.status⟩ = .ok s →
      ∃ bm1, calculate MIN MAX bm = .ok bm1 ∧
        (bm1.status = s.status ∨
          bm1.status = Parser.ResultType.of Parser.code_t.OVERFLOW_ERROR)) := by
  constructor
  · intro e he
    unfold calculate
    rw [he]
  · intro s hs
    unfold calculate
    rw [hs]
    simp only
    by_cases h1 : s.st.size = 1
    · have hne : s.st.m_end ≠ 0 := by
        have : s.st.m_end = 1 := h1
        omega
      simp only [if_pos h1, sta.stack.top, sta.stack.pop, if_neg hne]
      split
      · exact ⟨_, rfl, Or.inr rfl⟩
      · exact ⟨_, rfl, Or.inl rfl⟩
    · simp only [if_neg h1]
      split
      · exact ⟨_, rfl, Or.inr rfl⟩
      · exact ⟨_, rfl, Or.inl rfl⟩

/-- On the postfix tokens of a valid tree `calculate` returns, with the status
it was entered with, `DIVISION_BY_ZERO` or `OVERFLOW_ERROR` (the last two at
column 0), or it stops on the undefined division, which takes an operand
`-2^63` or bounds that reach down to `-2^63`. -/
theorem calculate_tree_outcome (MIN MAX : Int) (e : ExprTree) (hv : Valid e)
    (bm : BaresManager) (htok : bm.tokens = postfix_tokens e) :
    (∃ bm1, calculate MIN MAX bm = .ok bm1 ∧
      (bm1.status = bm.status ∨
        bm1.status = Parser.ResultType.of Parser.code_t.DIVISION_BY_ZERO ∨
        bm1.status = Parser.ResultType.of Parser.code_t.OVERFLOW_ERROR)) ∨
    (calculate MIN MAX bm = .error Fault.division_trap ∧
      ¬ (LLONG_MIN < MIN ∧ OperandsRepresentable (tokens_of e))) := by
  have herase := calculate_scan_erase MIN MAX bm.tokens 0 ⟨sta.stack.new, 0, bm.status⟩
  rcases calculate_scan_outcome MIN MAX e hv bm.status with
    ⟨s, b, n, hscan, hst, _, _⟩ | ⟨hscan, hC⟩
  · left
    rw [htok, hscan] at herase
    rw [← htok] at herase
    obtain ⟨bm1, hcalc, hs1⟩ := (calculate_of_loop MIN MAX bm).2 s herase
    refine ⟨bm1, hcalc, ?_⟩
    rcases hs1 with h | h
    · rcases hst with h2 | h2
      · exact Or.inl (h.trans h2)
      · exact Or.inr (Or.inl (h.trans h2))
    · exact Or.inr (Or.inr h)
  · right
    rw [htok, hscan] at herase
    rw [← htok] at herase
    exact ⟨(calculate_of_loop MIN MAX bm).1 _ herase, hC⟩

end BaresManager

theorem decimal_head (v : Int) :
    ∃ c rest, (decimal v).data = c :: rest ∧ c.isAlpha = false := by
  unfold decimal
  split
  · exact ⟨'-', _, by rw [String.data_append]; rfl, by decide⟩
  · obtain ⟨k, hk, rest, hrest⟩ := toDigits_head v.toNat
    refine ⟨Nat.digitChar k, rest, ?_, (digitChar_facts k hk).2.2.2.2.2⟩
    rw [← hrest]; rfl

namespace BaresManager

open Token.token_t ExprTree Token Parser.code_t

theorem print_error_msg_head (result : Parser.ResultType) (str msg : String)
    (h : print_error_msg result str = .ok msg) :
    ∃ c rest, msg.data = c :: rest ∧ c.isAlpha = true := by
  have hk := print_error_msg_key result str msg h
  obtain ⟨c, rest, hc, ha⟩ := message_key_head result.type
  rw [hc] at hk
  cases hd : msg.data with
  | nil => rw [hd] at hk; simp at hk
  | cons x xs =>
    rw [hd] at hk
    simp only [List.take_succ_cons, List.cons.injEq] at hk
    exact ⟨x, xs, rfl, by rw [hk.1]; exact ha⟩

/-- A diagnostic message is never the text of a value. -/
theorem print_error_msg_ne_decimal (result : Parser.ResultType) (str msg : String)
    (h : print_error_msg result str = .ok msg) (v : Int) : msg ≠ decimal v ++ "\n" := by
  intro heq
  obtain ⟨c, rest, hc, ha⟩ := print_error_msg_head result str msg h
  obtain ⟨d, rest2, hd, hna⟩ := decimal_head v
  rw [heq, String.data_append, hd] at hc
  simp only [List.cons_append, List.cons.injEq] at hc
  rw [hc.1] at hna
  rw [hna] at ha
  cases ha

/-- C15: when the lexer returns a status other than `OK` (its column lying
within the line), `parse_and_compute` returns without converting or evaluating:
the tokens of the manager are unchanged, the final value is 0, the status is the
diagnostic of the lexer and the only line emitted is its message. -/
theorem parse_and_compute_lexer_failure (lexer : Lexer) (MIN MAX : Int) (bm : BaresManager)
    (expr : String) (out : List String)
    (herr : (lexer expr).1.type ≠ OK)
    (hcol : (lexer expr).1.at_col ≤ expr.utf8ByteSize) :
    ∃ msg, print_error_msg (lexer expr).1 expr = .ok msg ∧
      parse_and_compute lexer MIN MAX bm expr out =
        .ok (⟨(lexer expr).1, bm.tokens, 0⟩, out ++ [msg]) := by
  obtain ⟨msg, hmsg⟩ := print_error_msg_ok (lexer expr).1 expr hcol
  refine ⟨msg, hmsg, ?_⟩
  unfold parse_and_compute
  simp only [if_pos herr, hmsg]

/-- C15, at a lexer that rejects the line `1 )` and hands over the token `)`:
the conversion of that token would throw, and `parse_and_compute` returns with
the tokens `[7]` it was entered with. -/
theorem parse_and_compute_lexer_failure_witness :
    infix_to_postfix ⟨status_ok, (rejecting_lexer "1 )").2, 0⟩ = .error Fault.top_on_empty ∧
    parse_and_compute rejecting_lexer SHRT_MIN SHRT_MAX ⟨status_ok, [operand "7"], 5⟩ "1 )"
        ["7\n"] =
      .ok (⟨⟨MISSING_CLOSING, 0⟩, [operand "7"], 0⟩,
        ["7\n", "Missing closing \")\" at column (1)!\n"]) := by
  obtain ⟨msg, h1, h2⟩ :=
    parse_and_compute_lexer_failure rejecting_lexer SHRT_MIN SHRT_MAX
      ⟨status_ok, [operand "7"], 5⟩ "1 )" ["7\n"] (by decide) (by decide)
  have e : print_error_msg (rejecting_lexer "1 )").1 "1 )" =
      .ok "Missing closing \")\" at column (1)!\n" := by decide
  rw [e] at h1
  cases h1
  exact ⟨by decide, h2⟩

/-- C17: the emitted lines, the status and the final value of
`parse_and_compute` on a line do not depend on the state the manager was left in
by earlier lines; running it again on the same line emits the same line. -/
theorem parse_and_compute_stateless (lexer : Lexer) (MIN MAX : Int) (expr : String) :
    (∀ (bm1 bm2 : BaresManager) (out : List String),
      observe (parse_and_compute lexer MIN MAX bm1 expr out) =
        observe (parse_and_compute lexer MIN MAX bm2 expr out)) ∧
    (∀ (bm bm1 : BaresManager) (out lines : List String),
      parse_and_compute lexer MIN MAX bm expr out = .ok (bm1, lines) →
      ∃ bm2, parse_and_compute lexer MIN MAX bm1 expr out = .ok (bm2, lines) ∧
        bm2.status = bm1.status ∧ bm2.final_value = bm1.final_value) := by
  have first : ∀ (bm1 bm2 : BaresManager) (out : List String),
      observe (parse_and_compute lexer MIN MAX bm1 expr out) =
        observe (parse_and_compute lexer MIN MAX bm2 expr out) := by
    intro bm1 bm2 out
    unfold parse_and_compute
    simp only
    by_cases herr : (lexer expr).1.type ≠ OK
    · rw [if_pos herr, if_pos herr]
      cases print_error_msg (lexer expr).1 expr with
      | error e => rfl
      | ok msg => rfl
    · rw [if_neg herr, if_neg herr]
  refine ⟨first, ?_⟩
  intro bm bm1 out lines hrun
  have h := first bm1 bm out
  rw [hrun] at h
  cases hr : parse_and_compute lexer MIN MAX bm1 expr out with
  | error e => rw [hr] at h; cases h
  | ok r =>
    obtain ⟨bm2, lines2⟩ := r
    rw [hr] at h
    simp only [observe, Except.ok.injEq, Prod.mk.injEq] at h
    obtain ⟨h1, h2, h3⟩ := h
    rw [h3]
    exact ⟨bm2, rfl, h1, h2⟩

/-- C17, at the line `4 + 3`: from two different earlier states the run emits
`7`, and the second run from the state the first one left emits `7` again. -/
theorem parse_and_compute_stateless_witness :
    observe (parse_and_compute sample_lexer SHRT_MIN SHRT_MAX
        ⟨status_ok, [], 0⟩ "4 + 3" []) =
      .ok (status_ok, 7, ["7\n"]) ∧
    observe (parse_and_compute sample_lexer SHRT_MIN SHRT_MAX
        ⟨⟨OVERFLOW_ERROR, 3⟩, [operand "9"], 20⟩ "4 + 3" []) =
      .ok (status_ok, 7, ["7\n"]) ∧
    ∃ bm2, parse_and_compute sample_lexer SHRT_MIN SHRT_MAX
        ⟨status_ok, [operand "4", operand "3", operator "+"], 7⟩ "4 + 3" [] =
      .ok (bm2, ["7\n"]) ∧ bm2.status = status_ok ∧ bm2.final_value = 7 := by
  have h1 := (parse_and_compute_stateless sample_lexer SHRT_MIN SHRT_MAX "4 + 3").1
    ⟨⟨OVERFLOW_ERROR, 3⟩, [operand "9"], 20⟩ ⟨status_ok, [], 0⟩ []
  have e : observe (parse_and_compute sample_lexer SHRT_MIN SHRT_MAX
      ⟨status_ok, [], 0⟩ "4 + 3" []) = .ok (status_ok, 7, ["7\n"]) := by decide
  have h2 := (parse_and_compute_stateless sample_lexer SHRT_MIN SHRT_MAX "4 + 3").2
    ⟨status_ok, [], 0⟩ ⟨status_ok, [operand "4", operand "3", operator "+"], 7⟩ [] ["7\n"]
    (by decide)
  exact ⟨e, h1.trans e, h2⟩

end BaresManager
namespace BaresManager

open Token.token_t ExprTree Token Parser.code_t

/-- C16: when the lexer keeps its contract on the line (the column of its
status lies within the line; with status `OK` its tokens derive from the
grammar), `parse_and_compute` emits exactly one line and returns: the decimal
text of `final_value` when the status at the end is `OK`, which happens only if
the lexer status is `OK` and the status after `calculate` is `OK`; and otherwise
the message of the status at the end, which is never the text of a value. The
one other outcome is that the run stops in `calculate` on a division that is
undefined for the working type, before anything is emitted; that takes an
operand `-2^63`, which the lexer of the spec does not admit, or a result domain
that reaches down to `-2^63`. -/
theorem parse_and_compute_one_line (lexer : Lexer) (MIN MAX : Int) (bm : BaresManager)
    (expr : String) (out : List String)
    (hcol : (lexer expr).1.at_col ≤ expr.utf8ByteSize)
    (hvalid : (lexer expr).1.type = OK → ∃ g, Grammar g ∧ (lexer expr).2 = tokens_of g) :
    (∃ bm1 line, parse_and_compute lexer MIN MAX bm expr out = .ok (bm1, out ++ [line]) ∧
      ((lexer expr).1.type ≠ OK → bm1.status = (lexer expr).1) ∧
      (bm1.status.type = OK → (lexer expr).1.type = OK ∧
        line = decimal bm1.final_value ++ "\n") ∧
      (bm1.status.type ≠ OK → print_error_msg bm1.status expr = .ok line ∧
        ∀ v : Int, line ≠ decimal v ++ "\n")) ∨
    (parse_and_compute lexer MIN MAX bm expr out = .error Fault.division_trap ∧
      (lexer expr).1.type = OK ∧
      ¬ (LLONG_MIN < MIN ∧ OperandsRepresentable (lexer expr).2)) := by
  by_cases herr : (lexer expr).1.type ≠ OK
  · obtain ⟨msg, hmsg⟩ := print_error_msg_ok (lexer expr).1 expr hcol
    refine Or.inl ⟨⟨(lexer expr).1, bm.tokens, 0⟩, msg, ?_, fun _ => rfl,
      fun h => absurd h herr,
      fun _ => ⟨hmsg, print_error_msg_ne_decimal _ _ _ hmsg⟩⟩
    unfold parse_and_compute
    simp only [if_pos herr, hmsg]
  · have hok : (lexer expr).1.type = OK := by
      by_contra h
      exact herr h
    obtain ⟨g, hg, htok⟩ := hvalid hok
    obtain ⟨hv, ht, _⟩ := regroup_spec g hg
    have hconv : infix_to_postfix ⟨(lexer expr).1, (lexer expr).2, 0⟩ =
        .ok ⟨(lexer expr).1, postfix_tokens (regroup g), 0⟩ := by
      rw [infix_to_postfix_eq]
      simp only [htok]
      rw [← ht, postfix_of_tree _ hv]
    rcases calculate_tree_outcome MIN MAX (regroup g) hv
        ⟨(lexer expr).1, postfix_tokens (regroup g), 0⟩ rfl with
      ⟨bm1, hcalc, hstatus⟩ | ⟨htrap, hC⟩
    · left
      simp only at hstatus
      by_cases hfin : bm1.status.type ≠ OK
      · have hcol1 : bm1.status.at_col ≤ expr.utf8ByteSize := by
          rcases hstatus with h | h | h
          · rw [h, hok] at hfin; exact absurd rfl hfin
          · rw [h]; exact Nat.zero_le _
          · rw [h]; exact Nat.zero_le _
        obtain ⟨msg, hmsg⟩ := print_error_msg_ok bm1.status expr hcol1
        refine ⟨bm1, msg, ?_, fun h => absurd hok h, fun h => absurd h hfin,
          fun _ => ⟨hmsg, print_error_msg_ne_decimal _ _ _ hmsg⟩⟩
        unfold parse_and_compute
        simp only [if_neg herr, hconv, hcalc, if_pos hfin, hmsg]
      · refine ⟨bm1, decimal bm1.final_value ++ "\n", ?_, fun h => absurd hok h,
          fun _ => ⟨hok, rfl⟩, fun h => absurd h hfin⟩
        unfold parse_and_compute
        simp only [if_neg herr, hconv, hcalc, if_neg hfin]
    · right
      refine ⟨?_, hok, ?_⟩
      · unfold parse_and_compute
        simp only [if_neg herr, hconv, htrap]
      · rw [htok, ← ht]
        exact hC

/-- C16, at the lines `4 + 3` (the value 7), `5 * 4 / 0` (a division by zero)
and the empty line (a missing term at column 1) of a lexer that knows these
lines; on `4 + 3` the operands are representable and the 16-bit bounds lie
above `-2^63`, which rules the second outcome out. -/
theorem parse_and_compute_one_line_witness :
    parse_and_compute sample_lexer SHRT_MIN SHRT_MAX ⟨status_ok, [], 0⟩ "4 + 3" [] =
      .ok (⟨status_ok, [operand "4", operand "3", operator "+"], 7⟩, ["7\n"]) ∧
    observe (parse_and_compute sample_lexer SHRT_MIN SHRT_MAX ⟨status_ok, [], 0⟩
        "5 * 4 / 0" []) =
      .ok (Parser.ResultType.of DIVISION_BY_ZERO, 20, ["Division by zero!\n"]) ∧
    observe (parse_and_compute sample_lexer SHRT_MIN SHRT_MAX ⟨status_ok, [], 0⟩ "" []) =
      .ok (⟨MISSING_TERM, 0⟩, 0, ["Missing <term> at column (1)!\n"]) ∧
    (LLONG_MIN < SHRT_MIN ∧ OperandsRepresentable (sample_lexer "4 + 3").2) ∧
    ((∃ bm1 line,
      parse_and_compute sample_lexer SHRT_MIN SHRT_MAX ⟨status_ok, [], 0⟩ "4 + 3" [] =
        .ok (bm1, [] ++ [line]) ∧
      ((sample_lexer "4 + 3").1.type ≠ OK → bm1.status = (sample_lexer "4 + 3").1) ∧
      (bm1.status.type = OK → (sample_lexer "4 + 3").1.type = OK ∧
        line = decimal bm1.final_value ++ "\n") ∧
      (bm1.status.type ≠ OK → print_error_msg bm1.status "4 + 3" = .ok line ∧
        ∀ v : Int, line ≠ decimal v ++ "\n")) ∨
    (parse_and_compute sample_lexer SHRT_MIN SHRT_MAX ⟨status_ok, [], 0⟩ "4 + 3" [] =
        .error Fault.division_trap ∧
      (sample_lexer "4 + 3").1.type = OK ∧
      ¬ (LLONG_MIN < SHRT_MIN ∧ OperandsRepresentable (sample_lexer "4 + 3").2))) :=
  ⟨by decide, by decide, by decide, by decide,
    parse_and_compute_one_line sample_lexer SHRT_MIN SHRT_MAX ⟨status_ok, [], 0⟩ "4 + 3" []
      (by decide)
      (fun _ => ⟨.node (.leaf (operand "4")) (operator "+") (.leaf (operand "3")),
        by decide, by decide⟩)⟩

end BaresManager

/-! ## Theorems: `sc::vector` -/

theorem load_of_lt {T : Type} (s : List T) (i : Nat) (h : i < s.length) :
    load s i = .ok s[i] := by
  unfold load
  rw [List.getElem?_eq_getElem h]

theorem store_of_lt {T : Type} (s : List T) (i : Nat) (x : T) (h : i < s.length) :
    store s i x = .ok (s.set i x) := by
  unfold store
  rw [if_pos h]

theorem copy_range_from_start {T : Type} (src dst : List T) (n d : Nat) (hn : n ≤ src.length)
    (hd : d + n ≤ dst.length) :
    copy_range src 0 n dst d = .ok (dst.take d ++ (src.take n ++ dst.drop (d + n))) := by
  unfold copy_range
  rw [if_neg (by omega)]
  simp

namespace sc.vector

variable {T : Type}

theorem grown_capacity_gt (c : Nat) : c < grown_capacity c := by
  unfold grown_capacity
  split <;> omega

/-- On every well-formed vector `push_back x` returns normally; the size grows
by one, the elements are the old ones followed by `x`, and the capacity is
unchanged when the size was below it and otherwise becomes 1 (from 0) or twice
the old capacity. -/
theorem push_back_appends [Inhabited T] (v : vector T) (x : T) (h : WellFormed v) :
    ∃ v1, v.push_back x = .ok v1 ∧ WellFormed v1 ∧ v1.size = v.size + 1 ∧
      v1.elements = v.elements ++ [x] ∧
      (v.size < v.capacity → v1.capacity = v.capacity) ∧
      (¬ v.size < v.capacity → v.capacity = 0 → v1.capacity = 1) ∧
      (¬ v.size < v.capacity → v.capacity ≠ 0 → v1.capacity = 2 * v.capacity) := by
  obtain ⟨h1, h2⟩ := h
  unfold push_back
  by_cases hfull : v.m_end ≥ v.m_capacity
  · have he : v.m_end = v.m_capacity := by omega
    have hg := grown_capacity_gt v.m_capacity
    rw [if_pos hfull, copy_range_from_start _ _ _ _ (by omega) (by simp; omega)]
    simp only
    rw [store_of_lt _ _ _ (by simp; omega)]
    refine ⟨_, rfl, ⟨?_, ?_⟩, rfl, ?_, ?_, ?_, ?_⟩
    · show v.m_end + 1 ≤ grown_capacity v.m_capacity
      omega
    · simp only [List.length_set, List.length_append, List.length_take, List.length_drop,
        List.length_replicate]
      omega
    · simp only [elements]
      rw [sta.stack.take_succ_set _ _ _ (by simp; omega)]
      simp only [List.take_zero, List.nil_append, Nat.zero_add]
      rw [List.take_append_of_le_length (by simp; omega), List.take_take, min_self]
    · intro hlt
      exact absurd hlt (by simp only [size, capacity]; omega)
    · intro _ h0
      simp only [capacity] at h0 ⊢
      simp [grown_capacity, h0]
    · intro _ h0
      simp only [capacity] at h0 ⊢
      simp only [grown_capacity, if_neg h0]
      omega
  · rw [if_neg hfull]
    simp only
    rw [store_of_lt _ _ _ (by omega)]
    refine ⟨_, rfl, ⟨?_, ?_⟩, rfl, ?_, ?_, ?_, ?_⟩
    · show v.m_end + 1 ≤ v.m_capacity
      omega
    · simpa using h2
    · simp only [elements]
      rw [sta.stack.take_succ_set _ _ _ (by omega)]
    · intro _; rfl
    · intro hn
      exact absurd (show v.m_end < v.m_capacity by omega) hn
    · intro hn
      exact absurd (show v.m_end < v.m_capacity by omega) hn

/-- C22 (the code at the failing input): the vector `1 2 3` of capacity 4,
built by three calls of `push_back`, is copied by the copy constructor, which
gives the copy a storage area of 3 cells under the capacity 4; `push_back(4)`
on the copy finds the size below the capacity and writes at index 3, outside
the storage area. On the original the element is appended. -/
theorem push_back_after_copy_leaves_storage :
    push_back_all (new 0 : vector Int) [1, 2, 3] = .ok ⟨3, 4, [1, 2, 3, 0]⟩ ∧
    copy (⟨3, 4, [1, 2, 3, 0]⟩ : vector Int) = .ok ⟨3, 4, [1, 2, 3]⟩ ∧
    push_back (⟨3, 4, [1, 2, 3]⟩ : vector Int) 4 = .error Fault.index_out_of_range ∧
    push_back (⟨3, 4, [1, 2, 3, 0]⟩ : vector Int) 4 = .ok ⟨4, 4, [1, 2, 3, 4]⟩ := by
  refine ⟨by decide, by decide, by decide, by decide⟩

/-- C23 (the code at the failing input): on the vector `1 2 3` of capacity 4,
built by three calls of `push_back`, `push_front(0)` leaves `0 1 1 1`: the loop
copies upwards and overwrites each element before it is moved. On a full vector
the elements are kept. -/
theorem push_front_overwrites_elements :
    push_back_all (new 0 : vector Int) [1, 2, 3] = .ok ⟨3, 4, [1, 2, 3, 0]⟩ ∧
    push_front (⟨3, 4, [1, 2, 3, 0]⟩ : vector Int) 0 = .ok ⟨4, 4, [0, 1, 1, 1]⟩ ∧
    push_front (⟨4, 4, [1, 2, 3, 4]⟩ : vector Int) 0 =
      .ok ⟨5, 8, [0, 1, 2, 3, 4, 0, 0, 0]⟩ := by
  refine ⟨by decide, by decide, by decide⟩

/-- C24 (the code at the failing input): on the vector `1 2 3` of capacity 4,
built by three calls of `push_back`, `insert(begin(), 9)` does not return: with `pos = 0` the test `i >= pos` on the
unsigned counter never fails, and after index 0 the loop reads outside the
storage area. At position 1, and at position 0 of a full vector, the insertion
is done. -/
theorem insert_front_leaves_storage :
    push_back_all (new 0 : vector Int) [1, 2, 3] = .ok ⟨3, 4, [1, 2, 3, 0]⟩ ∧
    insert (⟨3, 4, [1, 2, 3, 0]⟩ : vector Int) 0 9 = .error Fault.index_out_of_range ∧
    insert (⟨3, 4, [1, 2, 3, 0]⟩ : vector Int) 1 9 = .ok (⟨4, 4, [1, 9, 2, 3]⟩, 1) ∧
    insert (⟨4, 4, [1, 2, 3, 4]⟩ : vector Int) 0 9 =
      .ok (⟨5, 8, [9, 1, 2, 3, 4, 0, 0, 0]⟩, 0) := by
  refine ⟨by decide, by decide, by decide, by decide⟩

end sc.vector
namespace sc.vector

variable {T : Type}

/-- On two vectors of at least `2^32` elements that agree below the index
`2^32`, the loop of `operator==` never ends: the 32-bit counter goes back to 0
before it reaches the size. -/
theorem eq_loop_never_ends [DecidableEq T] (a b : vector T) (hsize : UINT_MODULUS ≤ a.m_end)
    (hload : ∀ i, i < UINT_MODULUS →
      ∃ x, load a.m_storage i = .ok x ∧ load b.m_storage i = .ok x) :
    ∀ (fuel i : Nat), i < UINT_MODULUS → eq_loop a b fuel i = .error Fault.out_of_fuel := by
  intro fuel
  induction fuel with
  | zero =>
    intro i hi
    unfold eq_loop
    rw [if_pos (show i < a.size from lt_of_lt_of_le hi hsize)]
  | succ f ih =>
    intro i hi
    obtain ⟨x, h1, h2⟩ := hload i hi
    have hpos : 0 < UINT_MODULUS := by unfold UINT_MODULUS; positivity
    unfold eq_loop
    rw [if_pos (show i < a.size from lt_of_lt_of_le hi hsize)]
    simp only [h1, h2, ne_eq, not_true_eq_false, if_false]
    exact ih _ (Nat.mod_lt _ hpos)

/-- The same for the loop of `operator!=`. -/
theorem ne_loop_never_ends [DecidableEq T] (a b : vector T) (hsize : UINT_MODULUS ≤ a.m_end)
    (hload : ∀ i, i < UINT_MODULUS →
      ∃ x, load a.m_storage i = .ok x ∧ load b.m_storage i = .ok x) :
    ∀ (fuel i : Nat) (acc : Bool), i < UINT_MODULUS →
      ne_loop a b fuel i acc = .error Fault.out_of_fuel := by
  intro fuel
  induction fuel with
  | zero =>
    intro i acc hi
    unfold ne_loop
    rw [if_pos (show i < a.size from lt_of_lt_of_le hi hsize)]
  | succ f ih =>
    intro i acc hi
    obtain ⟨x, h1, h2⟩ := hload i hi
    have hpos : 0 < UINT_MODULUS := by unfold UINT_MODULUS; positivity
    unfold ne_loop
    rw [if_pos (show i < a.size from lt_of_lt_of_le hi hsize)]
    simp only [h1, h2]
    exact ih _ _ (Nat.mod_lt _ hpos)

theorem zeros_storage : zeros.m_storage = List.replicate UINT_MODULUS 0 := rfl

theorem zeros_end : zeros.m_end = UINT_MODULUS := rfl

theorem load_replicate (n : Nat) (x : T) (i : Nat) (hi : i < n) :
    load (List.replicate n x) i = .ok x := by
  unfold load
  rw [List.getElem?_replicate, if_pos hi]

theorem load_zeros (i : Nat) (hi : i < UINT_MODULUS) :
    load zeros.m_storage i = .ok 0 := by
  rw [zeros_storage]
  exact load_replicate _ _ _ hi

/-- C25 (the code at the failing input): on the vector of `2^32` zeros compared
with itself, the loops of `operator==` and of `operator!=` never end, whatever
the number of rounds granted: the counter declared `auto i{0u}` has 32 bits and
goes back to 0 before it reaches the 64-bit size. On short vectors both
operators answer: equal sizes and elements give true and false, a different
element or size gives false and true, and the capacity is not looked at. -/
theorem eq_never_returns_on_large_vectors :
    zeros.size = 2 ^ 32 ∧
    (∀ fuel : Nat, eq_loop zeros zeros fuel 0 = .error Fault.out_of_fuel) ∧
    (∀ fuel : Nat, ne_loop zeros zeros fuel 0 false = .error Fault.out_of_fuel) ∧
    eq zeros zeros = .error Fault.out_of_fuel ∧
    ne zeros zeros = .error Fault.out_of_fuel ∧
    eq (⟨2, 8, [9, 1, 2, 3, 4, 0, 0, 0]⟩ : vector Int) ⟨2, 2, [9, 1]⟩ = .ok true ∧
    ne (⟨2, 8, [9, 1, 2, 3, 4, 0, 0, 0]⟩ : vector Int) ⟨2, 2, [9, 1]⟩ = .ok false ∧
    eq (⟨2, 2, [9, 1]⟩ : vector Int) ⟨2, 2, [9, 2]⟩ = .ok false ∧
    ne (⟨2, 2, [9, 1]⟩ : vector Int) ⟨2, 2, [9, 2]⟩ = .ok true ∧
    eq (⟨2, 2, [9, 1]⟩ : vector Int) ⟨1, 2, [9, 1]⟩ = .ok false ∧
    ne (⟨2, 2, [9, 1]⟩ : vector Int) ⟨1, 2, [9, 1]⟩ = .ok true := by
  have hpos : 0 < UINT_MODULUS := by unfold UINT_MODULUS; positivity
  have hload : ∀ i, i < UINT_MODULUS →
      ∃ x, load zeros.m_storage i = .ok x ∧ load zeros.m_storage i = .ok x :=
    fun i hi => ⟨0, load_zeros i hi, load_zeros i hi⟩
  have hsize : UINT_MODULUS ≤ zeros.m_end := le_of_eq zeros_end.symm
  have heq := eq_loop_never_ends zeros zeros hsize hload
  have hne := ne_loop_never_ends zeros zeros hsize hload
  refine ⟨rfl, fun fuel => heq fuel 0 hpos, fun fuel => hne fuel 0 false hpos, ?_, ?_,
    by decide, by decide, by decide, by decide, by decide, by decide⟩
  · unfold eq
    rw [if_neg (fun h => h rfl)]
    exact heq _ 0 hpos
  · unfold ne
    rw [if_neg (fun h => h rfl)]
    exact hne _ 0 false hpos

end sc.vector
namespace sc.vector

variable {T : Type}

/-- C26 (the code at the failing input): `a` is the copy, made by the copy
constructor, of the vector `1 2 3` of capacity 4, so that it has a storage area
of 3 cells under the capacity 4; the assignment `a = b` with `b = 5 6 7 8` of
capacity 4 finds the capacities equal, keeps the storage area of `a` and copies
four elements into it, past its end. This is the defect of the copy constructor
met by `push_back` as well. On a vector whose storage area has `m_capacity`
cells the assignment copies `b`, and the assignment of a vector to itself
leaves it as it is. -/
theorem assign_after_copy_leaves_storage :
    copy (⟨3, 4, [1, 2, 3, 0]⟩ : vector Int) = .ok ⟨3, 4, [1, 2, 3]⟩ ∧
    assign (⟨3, 4, [1, 2, 3]⟩ : vector Int) ⟨4, 4, [5, 6, 7, 8]⟩ false =
      .error Fault.index_out_of_range ∧
    assign (⟨3, 4, [1, 2, 3, 0]⟩ : vector Int) ⟨4, 4, [5, 6, 7, 8]⟩ false =
      .ok ⟨4, 4, [5, 6, 7, 8]⟩ ∧
    assign (⟨2, 8, [9, 1, 2, 3, 4, 0, 0, 0]⟩ : vector Int) ⟨1, 2, [7, 1]⟩ false =
      .ok ⟨1, 2, [7, 0]⟩ ∧
    assign (⟨3, 4, [1, 2, 3]⟩ : vector Int) ⟨3, 4, [1, 2, 3]⟩ true =
      .ok ⟨3, 4, [1, 2, 3]⟩ := by
  refine ⟨by decide, by decide, by decide, by decide, by decide⟩

/-- When at least `2^32` elements follow `last`, the loop of `erase` never
ends: the 32-bit counter goes back to 0 before `last + i` reaches the end. -/
theorem erase_loop_never_ends (first last m_end : Nat) (hfl : first ≤ last)
    (hbig : last + UINT_MODULUS ≤ m_end) :
    ∀ (fuel i : Nat) (s : List T), i < UINT_MODULUS → m_end ≤ s.length →
      erase_loop first last m_end fuel i s = .error Fault.out_of_fuel := by
  intro fuel
  induction fuel with
  | zero =>
    intro i s hi _
    unfold erase_loop
    rw [if_pos (show last + i ≠ m_end by omega)]
  | succ f ih =>
    intro i s hi hs
    have hpos : 0 < UINT_MODULUS := by unfold UINT_MODULUS; positivity
    unfold erase_loop
    rw [if_pos (show last + i ≠ m_end by omega)]
    simp only [load_of_lt s (last + i) (by omega), store_of_lt s (first + i) _ (by omega)]
    exact ih _ _ (Nat.mod_lt _ hpos) (by rw [List.length_set]; exact hs)

theorem erase_of_loop_error (v : vector T) (first last : Nat) (e : Fault)
    (h : erase_loop first last v.m_end (v.m_storage.length + 1) 0 v.m_storage = .error e) :
    erase v first last = .error e := by
  unfold erase
  rw [h]

/-- C27 (the code at the failing input): on the vector of `2^32` zeros,
`erase(begin(), begin())` never returns, whatever the number of rounds granted:
the counter declared `auto i{0u}` has 32 bits and goes back to 0 before
`last + i` reaches `end()`. On a short vector the range is removed, the size
drops by its length, the capacity stays and the position `first` is
returned. -/
theorem erase_never_returns_on_large_vectors :
    zeros.size = 2 ^ 32 ∧
    (∀ fuel : Nat,
      erase_loop 0 0 zeros.m_end fuel 0 zeros.m_storage = .error Fault.out_of_fuel) ∧
    erase zeros 0 0 = .error Fault.out_of_fuel ∧
    erase (⟨5, 8, [1, 2, 3, 4, 5, 0, 0, 0]⟩ : vector Int) 1 3 =
      .ok (⟨3, 8, [1, 4, 5, 4, 5, 0, 0, 0]⟩, 1) ∧
    (⟨3, 8, [1, 4, 5, 4, 5, 0, 0, 0]⟩ : vector Int).elements = [1, 4, 5] ∧
    erase (⟨5, 8, [1, 2, 3, 4, 5, 0, 0, 0]⟩ : vector Int) 2 2 =
      .ok (⟨5, 8, [1, 2, 3, 4, 5, 0, 0, 0]⟩, 2) := by
  have hpos : 0 < UINT_MODULUS := by unfold UINT_MODULUS; positivity
  have hlen : zeros.m_end ≤ zeros.m_storage.length := by
    rw [zeros_storage, zeros_end, List.length_replicate]
  have hbig : 0 + UINT_MODULUS ≤ zeros.m_end := by
    rw [Nat.zero_add, zeros_end]
  have h := @erase_loop_never_ends Int 0 0 zeros.m_end (le_refl 0) hbig
  exact ⟨rfl, fun fuel => h fuel 0 zeros.m_storage hpos hlen,
    erase_of_loop_error zeros 0 0 _ (h _ 0 zeros.m_storage hpos hlen),
    by decide, by decide, by decide⟩

end sc.vector

namespace sta.stack

variable {T : Type}

/-- C21: `pop` and `top` throw exactly on the empty stack (size 0, `empty`
true), before anything is modified; on a stack that is not empty `top` returns
the last element and `pop` returns the same element, lowers the size by one and
touches nothing else; after `push x` on a well-formed stack that element is
`x`. -/
theorem pop_top_throw_iff_empty [Inhabited T] (s : stack T) :
    ((s.pop = .error Fault.pop_on_empty ↔ s.size = 0) ∧
      (s.top = .error Fault.top_on_empty ↔ s.size = 0) ∧
      (s.empty = true ↔ s.size = 0) ∧
      ((∃ e, s.pop = .error e) ↔ s.size = 0) ∧ ((∃ e, s.top = .error e) ↔ s.size = 0)) ∧
    (s.size ≠ 0 → ∃ x s1, s.top = .ok x ∧ s.pop = .ok (x, s1) ∧ s1.size + 1 = s.size ∧
      s1.m_capacity = s.m_capacity ∧ s1.m_storage = s.m_storage) ∧
    (∀ x : T, WellFormed s → (s.push x).1.top = .ok x ∧
      ∃ s1, (s.push x).1.pop = .ok (x, s1) ∧ s1.size = s.size) := by
  have hsz : s.size = s.m_end := rfl
  refine ⟨⟨?_, ?_, ?_, ?_, ?_⟩, ?_, ?_⟩
  · unfold pop
    constructor
    · intro h
      by_contra hne
      rw [if_neg (by omega)] at h
      cases h
    · intro h
      rw [if_pos (by omega)]
  · unfold top
    constructor
    · intro h
      by_contra hne
      rw [if_neg (by omega)] at h
      cases h
    · intro h
      rw [if_pos (by omega)]
  · simp [empty, size]
  · unfold pop
    constructor
    · rintro ⟨e, h⟩
      by_contra hne
      rw [if_neg (by omega)] at h
      cases h
    · intro h
      exact ⟨_, by rw [if_pos (by omega)]⟩
  · unfold top
    constructor
    · rintro ⟨e, h⟩
      by_contra hne
      rw [if_neg (by omega)] at h
      cases h
    · intro h
      exact ⟨_, by rw [if_pos (by omega)]⟩
  · intro hne
    have hm : s.m_end ≠ 0 := by omega
    refine ⟨s.m_storage.getD (s.m_end - 1) default, ⟨s.m_end - 1, s.m_capacity, s.m_storage⟩,
      ?_, ?_, ?_, rfl, rfl⟩
    · unfold top; rw [if_neg hm]
    · unfold pop; rw [if_neg hm]
    · show s.m_end - 1 + 1 = s.m_end
      omega
  · intro x hw
    have hr := Rep_push (Rep_of_WellFormed s hw) x
    obtain ⟨s1, hp, hr1⟩ := Rep_pop_cons hr
    exact ⟨Rep_top_cons hr, s1, hp, by rw [Rep_size hr1, Rep_size (Rep_of_WellFormed s hw)]⟩

/-- C21, at the empty stack and at the stack holding 1 and 2. -/
theorem pop_top_throw_iff_empty_witness :
    (new : stack Int).pop = .error Fault.pop_on_empty ∧
    (new : stack Int).top = .error Fault.top_on_empty ∧
    (push_all (new : stack Int) [1, 2]).top = .ok 2 ∧
    (∃ x s1, (push_all (new : stack Int) [1, 2]).top = .ok x ∧
      (push_all (new : stack Int) [1, 2]).pop = .ok (x, s1) ∧
      s1.size + 1 = (push_all (new : stack Int) [1, 2]).size ∧
      s1.m_capacity = (push_all (new : stack Int) [1, 2]).m_capacity ∧
      s1.m_storage = (push_all (new : stack Int) [1, 2]).m_storage) ∧
    ((new : stack Int).push 5).1.top = .ok 5 :=
  ⟨(pop_top_throw_iff_empty (new : stack Int)).1.1.2 rfl,
   (pop_top_throw_iff_empty (new : stack Int)).1.2.1.2 rfl,
   rfl,
   (pop_top_throw_iff_empty (push_all (new : stack Int) [1, 2])).2.1 (by decide),
   ((pop_top_throw_iff_empty (new : stack Int)).2.2 5 (by decide)).1⟩

end sta.stack

namespace BaresManager

open Token.token_t ExprTree Token Parser.code_t

theorem sample_lexer_blank : BlankLineContract sample_lexer := by
  intro line hblank
  unfold sample_lexer
  by_cases h1 : line = "4 + 3"
  · rw [h1] at hblank
    exact absurd hblank (by decide)
  · by_cases h2 : line = "5 * 4 / 0"
    · rw [h2] at hblank
      exact absurd hblank (by decide)
    · rw [if_neg h1, if_neg h2]

/-- C28: with a lexer that keeps the clause of its contract on blank lines, on
every line that is empty or holds only white space the lexer status is
`MISSING_TERM` at column 0 and `parse_and_compute` emits the message of a missing
term at column 1, leaves the tokens as they were and sets the final value to 0,
without converting or evaluating. -/
theorem blank_line_missing_term (lexer : Lexer) (MIN MAX : Int) (bm : BaresManager)
    (line : String) (out : List String)
    (hlexer : BlankLineContract lexer) (hblank : is_blank line = true) :
    (lexer line).1 = ⟨MISSING_TERM, 0⟩ ∧
      parse_and_compute lexer MIN MAX bm line out =
        .ok (⟨⟨MISSING_TERM, 0⟩, bm.tokens, 0⟩, out ++ ["Missing <term> at column (1)!\n"]) := by
  have hl := hlexer line hblank
  refine ⟨hl, ?_⟩
  have herr : (lexer line).1.type ≠ OK := by rw [hl]; decide
  have hmsg : print_error_msg (lexer line).1 line =
      .ok "Missing <term> at column (1)!\n" := by
    rw [hl]
    unfold print_error_msg
    rw [if_neg (by simp)]
    rfl
  rw [hl] at hmsg
  have herr2 : MISSING_TERM ≠ OK := by decide
  unfold parse_and_compute
  simp only [hl, if_pos herr2, hmsg]

/-- C28, at the empty line and at a line of three blanks. -/
theorem blank_line_missing_term_witness :
    (is_blank "" = true ∧ is_blank "   " = true) ∧
    parse_and_compute sample_lexer SHRT_MIN SHRT_MAX ⟨status_ok, [operand "7"], 7⟩ "" [] =
      .ok (⟨⟨MISSING_TERM, 0⟩, [operand "7"], 0⟩, ["Missing <term> at column (1)!\n"]) ∧
    parse_and_compute sample_lexer SHRT_MIN SHRT_MAX ⟨status_ok, [operand "7"], 7⟩ "   " [] =
      .ok (⟨⟨MISSING_TERM, 0⟩, [operand "7"], 0⟩, ["Missing <term> at column (1)!\n"]) :=
  ⟨⟨by decide, by decide⟩,
    (blank_line_missing_term sample_lexer SHRT_MIN SHRT_MAX ⟨status_ok, [operand "7"], 7⟩ ""
      [] sample_lexer_blank (by decide)).2,
    (blank_line_missing_term sample_lexer SHRT_MIN SHRT_MAX ⟨status_ok, [operand "7"], 7⟩
      "   " [] sample_lexer_blank (by decide)).2⟩

theorem operands_postfix_tokens (e : ExprTree) (hv : Valid e) :
    operands (postfix_tokens e) = operands (tokens_of e) := by
  induction e with
  | leaf t => rfl
  | group lp e rp ih =>
    obtain ⟨⟨hl, _⟩, ⟨hr, _⟩, he⟩ := hv
    have h1 : is_operand lp = false := by simp [is_operand, hl]
    have h2 : is_operand rp = false := by simp [is_operand, hr]
    simp only [postfix_tokens, tokens_of, operands] at ih ⊢
    rw [List.filter_cons_of_neg (by simp [h1]), List.filter_append, ih he]
    simp [h2]
  | node a op b iha ihb =>
    obtain ⟨hop, hva, hvb, _, _⟩ := hv
    have h1 : is_operand op = false := by simp [is_operand, hop.1]
    simp only [postfix_tokens, tokens_of, operands] at iha ihb ⊢
    rw [List.filter_append, List.filter_append, List.filter_append,
      List.filter_cons_of_neg (by simp [h1]), iha hva, ihb hvb]
    simp [h1]

theorem without_parens_postfix_tokens (e : ExprTree) (hv : Valid e) :
    (postfix_tokens e).Perm (without_parens (tokens_of e)) := by
  induction e with
  | leaf t =>
    have ht : t.type = OPERAND := hv
    have : is_paren t = false := by simp [is_paren, ht]
    simp [postfix_tokens, tokens_of, without_parens, this]
  | group lp e rp ih =>
    obtain ⟨⟨hl, _⟩, ⟨hr, _⟩, he⟩ := hv
    have h1 : is_paren lp = true := by simp [is_paren, hl]
    have h2 : is_paren rp = true := by simp [is_paren, hr]
    have := ih he
    simp only [postfix_tokens, tokens_of, without_parens] at this ⊢
    rw [List.filter_cons_of_neg (by simp [h1]), List.filter_append]
    simpa [h2] using this
  | node a op b iha ihb =>
    obtain ⟨hop, hva, hvb, _, _⟩ := hv
    have h1 : is_paren op = false := by simp [is_paren, hop.1]
    have ha := iha hva
    have hb := ihb hvb
    simp only [postfix_tokens, tokens_of, without_parens] at ha hb ⊢
    rw [List.filter_append, List.filter_cons_of_pos (by simp [h1])]
    exact ha.append ((List.perm_append_singleton op _).trans (hb.cons op))

theorem postfix_tokens_no_paren (e : ExprTree) (hv : Valid e) :
    ∀ t ∈ postfix_tokens e, t.type ≠ OPEN_PARENTHESES ∧ t.type ≠ CLOSE_PARENTHESES := by
  induction e with
  | leaf t =>
    intro x hx
    have ht : t.type = OPERAND := hv
    simp only [postfix_tokens, List.mem_singleton] at hx
    rw [hx, ht]
    exact ⟨by decide, by decide⟩
  | group lp e rp ih => exact ih hv.2.2
  | node a op b iha ihb =>
    obtain ⟨hop, hva, hvb, _, _⟩ := hv
    intro x hx
    simp only [postfix_tokens, List.mem_append, List.mem_singleton] at hx
    rcases hx with hx | hx | hx
    · exact iha hva x hx
    · exact ihb hvb x hx
    · rw [hx, hop.1]
      exact ⟨by decide, by decide⟩

theorem postfix_tokens_length (e : ExprTree) (hv : Valid e) :
    (postfix_tokens e).length + (tokens_of e).countP is_paren = (tokens_of e).length := by
  induction e with
  | leaf t =>
    have ht : t.type = OPERAND := hv
    have : is_paren t = false := by simp [is_paren, ht]
    simp [postfix_tokens, tokens_of, this]
  | group lp e rp ih =>
    obtain ⟨⟨hl, _⟩, ⟨hr, _⟩, he⟩ := hv
    have h1 : is_paren lp = true := by simp [is_paren, hl]
    have h2 : is_paren rp = true := by simp [is_paren, hr]
    have := ih he
    simp only [postfix_tokens, tokens_of, List.countP_cons, List.countP_append, h1, h2,
      List.countP_nil, List.length_cons, List.length_append, List.length_nil, if_true]
    omega
  | node a op b iha ihb =>
    obtain ⟨hop, hva, hvb, _, _⟩ := hv
    have h1 : is_paren op = false := by simp [is_paren, hop.1]
    have ha := iha hva
    have hb := ihb hvb
    simp only [postfix_tokens, tokens_of, List.countP_cons, List.countP_append, h1,
      List.length_cons, List.length_append, List.length_nil, Bool.false_eq_true, if_false]
    omega

/-- C29: on the tokens of every derivation of the grammar, the operand tokens
of what `infix_to_postfix` returns are the operand tokens of the input, token
for token and in the same order. -/
theorem infix_to_postfix_keeps_operand_order (g : ExprTree) (bm : BaresManager)
    (hg : Grammar g) (htok : bm.tokens = tokens_of g) :
    infix_to_postfix bm = .ok ⟨bm.status, postfix_tokens (regroup g), bm.final_value⟩ ∧
      operands (postfix_tokens (regroup g)) = operands bm.tokens := by
  obtain ⟨hv, ht, _⟩ := regroup_spec g hg
  constructor
  · rw [infix_to_postfix_eq, htok, ← ht, postfix_of_tree _ hv]
  · rw [operands_postfix_tokens _ hv, ht, htok]

/-- C29, at `2 * (3 + 4) - 5 % 3`: the operands are `2 3 4 5 3` on both
sides. -/
theorem infix_to_postfix_keeps_operand_order_witness :
    operands (tokens_of sample_derivation) =
      [operand "2", operand "3", operand "4", operand "5", operand "3"] ∧
    infix_to_postfix ⟨status_ok, tokens_of sample_derivation, 0⟩ =
      .ok ⟨status_ok, postfix_tokens (regroup sample_derivation), 0⟩ ∧
    operands (postfix_tokens (regroup sample_derivation)) =
      operands (tokens_of sample_derivation) :=
  ⟨by decide,
    infix_to_postfix_keeps_operand_order sample_derivation
      ⟨status_ok, tokens_of sample_derivation, 0⟩ (by decide) rfl⟩

/-- C30: on the tokens of every derivation of the grammar, what
`infix_to_postfix` returns holds no parenthesis token, is a permutation of the
operand and operator tokens of the input, and is shorter than the input by the
number of its parenthesis tokens. -/
theorem infix_to_postfix_permutes (g : ExprTree) (bm : BaresManager)
    (hg : Grammar g) (htok : bm.tokens = tokens_of g) :
    infix_to_postfix bm = .ok ⟨bm.status, postfix_tokens (regroup g), bm.final_value⟩ ∧
      (∀ t ∈ postfix_tokens (regroup g),
        t.type ≠ OPEN_PARENTHESES ∧ t.type ≠ CLOSE_PARENTHESES) ∧
      (postfix_tokens (regroup g)).Perm (without_parens bm.tokens) ∧
      (postfix_tokens (regroup g)).length + bm.tokens.countP is_paren = bm.tokens.length := by
  obtain ⟨hv, ht, _⟩ := regroup_spec g hg
  refine ⟨?_, postfix_tokens_no_paren _ hv, ?_, ?_⟩
  · rw [infix_to_postfix_eq, htok, ← ht, postfix_of_tree _ hv]
  · rw [htok, ← ht]
    exact without_parens_postfix_tokens _ hv
  · rw [htok, ← ht]
    exact postfix_tokens_length _ hv

/-- C30, at `2 * (3 + 4) - 5 % 3`: eleven tokens, two of them parentheses, nine
tokens returned. -/
theorem infix_to_postfix_permutes_witness :
    (tokens_of sample_derivation).length = 11 ∧
    (tokens_of sample_derivation).countP is_paren = 2 ∧
    (postfix_tokens (regroup sample_derivation)).length = 9 ∧
    infix_to_postfix ⟨status_ok, tokens_of sample_derivation, 0⟩ =
      .ok ⟨status_ok, postfix_tokens (regroup sample_derivation), 0⟩ ∧
    (∀ t ∈ postfix_tokens (regroup sample_derivation),
      t.type ≠ OPEN_PARENTHESES ∧ t.type ≠ CLOSE_PARENTHESES) ∧
    (postfix_tokens (regroup sample_derivation)).Perm
      (without_parens (tokens_of sample_derivation)) ∧
    (postfix_tokens (regroup sample_derivation)).length +
      (tokens_of sample_derivation).countP is_paren = (tokens_of sample_derivation).length :=
  ⟨by decide, by decide, by decide,
    infix_to_postfix_permutes sample_derivation
      ⟨status_ok, tokens_of sample_derivation, 0⟩ (by decide) rfl⟩

end BaresManager

/-! ## Theorems: the value stack during the scan (C31) -/

namespace BaresManager

open Token.token_t ExprTree Token sta.stack

/-- C31: on the tokens of every derivation of the grammar, `infix_to_postfix`
returns, and in the scan of `calculate` over what it returned neither `top` nor
`pop` ever throws: every operator finds its two values. The scan returns, and
so does `calculate`; when it reached the end of the tokens it has read all of
them and exactly one value is on the stack, and when it left through the
`break` the result is out of bounds. The one other outcome is that the scan
stops on a division that is undefined for the working type, which takes an
operand `-2^63` or a result domain that reaches down to `-2^63`. -/
theorem calculate_operators_find_two_values (MIN MAX : Int) (g : ExprTree)
    (bm : BaresManager) (hg : Grammar g) (htok : bm.tokens = tokens_of g) :
    ∃ bm1 : BaresManager, infix_to_postfix bm = .ok bm1 ∧
      ((∃ (bm2 : BaresManager) (s : CalcState) (interrupted : Bool) (n : Nat),
          calculate_scan MIN MAX bm1.tokens 0 ⟨sta.stack.new, 0, bm1.status⟩ =
            .ok (s, interrupted, n) ∧
          calculate_loop MIN MAX bm1.tokens ⟨sta.stack.new, 0, bm1.status⟩ = .ok s ∧
          calculate MIN MAX bm1 = .ok bm2 ∧
          (interrupted = false →
            n = bm1.tokens.length ∧ s.st.size = 1 ∧ WellFormed s.st) ∧
          (interrupted = true → s.result < MIN ∨ s.result > MAX)) ∨
        (calculate_scan MIN MAX bm1.tokens 0 ⟨sta.stack.new, 0, bm1.status⟩ =
            .error Fault.division_trap ∧
          calculate_loop MIN MAX bm1.tokens ⟨sta.stack.new, 0, bm1.status⟩ =
            .error Fault.division_trap ∧
          ¬ (LLONG_MIN < MIN ∧ OperandsRepresentable bm.tokens))) := by
  obtain ⟨hv, ht, _⟩ := regroup_spec g hg
  have hconv : infix_to_postfix bm =
      .ok ⟨bm.status, postfix_tokens (regroup g), bm.final_value⟩ := by
    rw [infix_to_postfix_eq, htok, ← ht, postfix_of_tree _ hv]
  refine ⟨_, hconv, ?_⟩
  have herase := calculate_scan_erase MIN MAX (postfix_tokens (regroup g)) 0
    ⟨sta.stack.new, 0, bm.status⟩
  rcases calculate_scan_outcome MIN MAX (regroup g) hv bm.status with
    ⟨s, b, n, hscan, _, hfalse, htrue⟩ | ⟨hscan, hC⟩
  · left
    rw [hscan] at herase
    obtain ⟨bm2, hcalc, _⟩ :=
      (calculate_of_loop MIN MAX ⟨bm.status, postfix_tokens (regroup g), bm.final_value⟩).2
        s herase
    exact ⟨bm2, s, b, n, hscan, herase, hcalc, hfalse, fun h => (htrue h).2.2⟩
  · right
    rw [hscan] at herase
    refine ⟨hscan, herase, ?_⟩
    rw [htok, ← ht]
    exact hC

/-- C31, at `2 * (3 + 4) - 5 % 3` with 16-bit bounds: nine tokens read, one
value left, the last result 12. By contrast the scan of `1 +`, which is not a
postfix sequence, throws on the second `top`, and the scan of
`-9223372036854775808 -1 %` stops on the undefined remainder. -/
theorem calculate_operators_find_two_values_witness :
    Grammar sample_derivation ∧
    (LLONG_MIN < SHRT_MIN ∧ OperandsRepresentable (tokens_of sample_derivation)) ∧
    (∃ bm1 : BaresManager,
      infix_to_postfix ⟨status_ok, tokens_of sample_derivation, 0⟩ = .ok bm1 ∧
      ((∃ (bm2 : BaresManager) (s : CalcState) (interrupted : Bool) (n : Nat),
          calculate_scan SHRT_MIN SHRT_MAX bm1.tokens 0 ⟨sta.stack.new, 0, bm1.status⟩ =
            .ok (s, interrupted, n) ∧
          calculate_loop SHRT_MIN SHRT_MAX bm1.tokens ⟨sta.stack.new, 0, bm1.status⟩ =
            .ok s ∧
          calculate SHRT_MIN SHRT_MAX bm1 = .ok bm2 ∧
          (interrupted = false →
            n = bm1.tokens.length ∧ s.st.size = 1 ∧ WellFormed s.st) ∧
          (interrupted = true → s.result < SHRT_MIN ∨ s.result > SHRT_MAX)) ∨
        (calculate_scan SHRT_MIN SHRT_MAX bm1.tokens 0 ⟨sta.stack.new, 0, bm1.status⟩ =
            .error Fault.division_trap ∧
          calculate_loop SHRT_MIN SHRT_MAX bm1.tokens ⟨sta.stack.new, 0, bm1.status⟩ =
            .error Fault.division_trap ∧
          ¬ (LLONG_MIN < SHRT_MIN ∧
            OperandsRepresentable
              (BaresManager.mk status_ok (tokens_of sample_derivation) 0).tokens)))) ∧
    (calculate_scan SHRT_MIN SHRT_MAX (postfix_tokens (regroup sample_derivation)) 0
        ⟨sta.stack.new, 0, status_ok⟩).toOption.map
          (fun p => (p.1.st.size, p.1.result, p.2.1, p.2.2)) =
      some (1, 12, false, 9) ∧
    calculate_loop SHRT_MIN SHRT_MAX [operand "1", operator "+"]
        ⟨sta.stack.new, 0, status_ok⟩ = .error Fault.top_on_empty ∧
    calculate_loop SHRT_MIN SHRT_MAX
        [operand "-9223372036854775808", operand "-1", operator "%"]
        ⟨sta.stack.new, 0, status_ok⟩ = .error Fault.division_trap :=
  ⟨by decide, by decide,
    calculate_operators_find_two_values SHRT_MIN SHRT_MAX sample_derivation
      ⟨status_ok, tokens_of sample_derivation, 0⟩ (by decide) rfl,
    by decide, rfl, rfl⟩

end BaresManager

/-! ## Theorems: the loops end (C32) -/

namespace BaresManager

open Token.token_t ExprTree Token sta.stack

/-- The loop run on an operator ends within as many rounds as the stack has
elements, on any stack; every round moves one token from the stack to the
output. -/
theorem operator_loop_shrinks (v : String) :
    ∀ (fuel : Nat) (st : sta.stack Token) (pf : List Token), st.m_end ≤ fuel →
      ∃ st1 pf1, operator_loop v fuel st pf = .ok (st1, pf1) ∧ st1.m_end ≤ st.m_end ∧
        pf1.length + st1.m_end = pf.length + st.m_end := by
  intro fuel
  induction fuel with
  | zero =>
    intro st pf h
    have h0 : st.m_end = 0 := by omega
    refine ⟨st, pf, ?_, le_refl _, rfl⟩
    unfold operator_loop
    simp [sta.stack.empty, h0]
  | succ f ih =>
    intro st pf h
    unfold operator_loop
    by_cases he : st.m_end = 0
    · exact ⟨st, pf, by simp [sta.stack.empty, he], le_refl _, rfl⟩
    · have hem : st.empty = false := by simp [sta.stack.empty, he]
      simp only [hem, Bool.false_eq_true, if_false, sta.stack.top, if_neg he]
      by_cases hp : prec v ≤ prec (st.m_storage.getD (st.m_end - 1) default).value
      · simp only [if_pos hp, sta.stack.pop, if_neg he]
        obtain ⟨st1, pf1, hrun, hle, hlen⟩ :=
          ih ⟨st.m_end - 1, st.m_capacity, st.m_storage⟩
            (pf ++ [st.m_storage.getD (st.m_end - 1) default]) (by simp only; omega)
        refine ⟨st1, pf1, hrun, ?_, ?_⟩
        · simp only at hle; omega
        · simp only [List.length_append, List.length_singleton] at hlen; omega
      · simp only [if_neg hp]
        exact ⟨st, pf, rfl, le_refl _, rfl⟩

/-- The loop run after the last token ends within as many rounds as the stack
has elements, on any stack, and leaves the stack empty. -/
theorem drain_loop_shrinks :
    ∀ (fuel : Nat) (st : sta.stack Token) (pf : List Token), st.m_end ≤ fuel →
      ∃ st1 pf1, drain_loop fuel st pf = .ok (st1, pf1) ∧ st1.m_end = 0 ∧
        pf1.length = pf.length + st.m_end := by
  intro fuel
  induction fuel with
  | zero =>
    intro st pf h
    have h0 : st.m_end = 0 := by omega
    refine ⟨st, pf, ?_, h0, by omega⟩
    unfold drain_loop
    simp [sta.stack.empty, h0]
  | succ f ih =>
    intro st pf h
    unfold drain_loop
    by_cases he : st.m_end = 0
    · exact ⟨st, pf, by simp [sta.stack.empty, he], he, by omega⟩
    · have hem : st.empty = false := by simp [sta.stack.empty, he]
      simp only [hem, Bool.false_eq_true, if_false, sta.stack.top, if_neg he, sta.stack.pop]
      obtain ⟨st1, pf1, hrun, hz, hlen⟩ :=
        ih ⟨st.m_end - 1, st.m_capacity, st.m_storage⟩
          (pf ++ [st.m_storage.getD (st.m_end - 1) default]) (by simp only; omega)
      refine ⟨st1, pf1, hrun, hz, ?_⟩
      simp only [List.length_append, List.length_singleton] at hlen
      omega

/-- The loop run on a closing parenthesis ends within as many rounds as the
stack has elements, on any stack: either `top` throws on the emptied stack or
the loop stops below an opening parenthesis. -/
theorem close_loop_shrinks :
    ∀ (fuel : Nat) (st : sta.stack Token) (pf : List Token), st.m_end ≤ fuel →
      close_loop fuel st pf = .error Fault.top_on_empty ∨
        ∃ st1 pf1, close_loop fuel st pf = .ok (st1, pf1) ∧ 0 < st1.m_end ∧
          st1.m_end ≤ st.m_end ∧ pf1.length + st1.m_end = pf.length + st.m_end := by
  intro fuel
  induction fuel with
  | zero =>
    intro st pf h
    have h0 : st.m_end = 0 := by omega
    left
    unfold close_loop
    simp [sta.stack.top, h0]
  | succ f ih =>
    intro st pf h
    unfold close_loop
    by_cases he : st.m_end = 0
    · left
      simp [sta.stack.top, he]
    · simp only [sta.stack.top, if_neg he]
      by_cases hp : (st.m_storage.getD (st.m_end - 1) default).type ≠ OPEN_PARENTHESES
      · simp only [if_pos hp, sta.stack.pop, if_neg he]
        rcases ih ⟨st.m_end - 1, st.m_capacity, st.m_storage⟩
            (pf ++ [st.m_storage.getD (st.m_end - 1) default]) (by simp only; omega) with
          hthrow | ⟨st1, pf1, hrun, hpos, hle, hlen⟩
        · exact Or.inl hthrow
        · refine Or.inr ⟨st1, pf1, hrun, hpos, ?_, ?_⟩
          · simp only at hle; omega
          · simp only [List.length_append, List.length_singleton] at hlen; omega
      · simp only [if_neg hp]
        exact Or.inr ⟨st, pf, rfl, by omega, le_refl _, rfl⟩

/-- The `for` loop of `infix_to_postfix` hands every token once, in reading
order, to `infix_step`. -/
theorem infix_loop_visits_once (ts : List Token) :
    ∀ (st : sta.stack Token) (pf : List Token),
      infix_loop ts st pf = List.foldlM (fun p c => infix_step c p.1 p.2) (st, pf) ts := by
  induction ts with
  | nil => intro st pf; rfl
  | cons c rest ih =>
    intro st pf
    unfold infix_loop
    rw [List.foldlM_cons]
    cases infix_step c st pf with
    | error e => rfl
    | ok p =>
      obtain ⟨st1, pf1⟩ := p
      exact ih st1 pf1

/-- The power loop entered with the exponent `k + 1` makes exactly `k` rounds,
one multiplication each. -/
theorem pow_loop_rounds (a : Int) (k : Nat) :
    ∀ (fuel : Nat) (expo : Int), (k : Int) < 2 ^ 63 →
      (k ≤ fuel → pow_loop a fuel expo ((k : Int) + 1) =
        .ok (Nat.iterate (fun x => wrap64 (x * a)) k expo)) ∧
      (fuel < k → pow_loop a fuel expo ((k : Int) + 1) = .error Fault.out_of_fuel) := by
  induction k with
  | zero =>
    intro fuel expo _
    constructor
    · intro _
      unfold pow_loop
      simp
    · intro h
      omega
  | succ k ih =>
    intro fuel expo hk
    have hne : ((k + 1 : Nat) : Int) + 1 ≠ 1 := by omega
    have hw : wrap64 (((k + 1 : Nat) : Int) + 1 - 1) = (k : Int) + 1 := by
      rw [wrap64_id]
      · push_cast; ring
      · unfold LLONG_MIN; omega
      · unfold LLONG_MAX; omega
    cases fuel with
    | zero =>
      constructor
      · intro h; omega
      · intro _
        unfold pow_loop
        rw [if_pos hne]
    | succ f =>
      obtain ⟨h1, h2⟩ := ih f (wrap64 (expo * a)) (by omega)
      constructor
      · intro h
        unfold pow_loop
        rw [if_pos hne]
        simp only
        rw [hw, h1 (by omega), Function.iterate_succ_apply]
      · intro h
        unfold pow_loop
        rw [if_pos hne]
        simp only
        rw [hw, h2 (by omega)]

/-- C32: on the tokens of every derivation of the grammar `infix_to_postfix`
returns, and on what it produced the loop of `calculate` ends after reading
each token at most once, all of them when it is not left through the `break`,
and `calculate` returns; the one other way the run ends is on a division that
is undefined for the working type, which takes an operand `-2^63` or a result
domain that reaches down to `-2^63`. No loop runs on. The `for` loop of the
conversion hands each token once to its body; each inner pop loop, on any
stack, ends within as many rounds as the stack has elements, every round moving
one token from the stack to the output; the power loop is reached only when
the exponent is neither zero nor negative, and entered with an exponent
`b ≥ 1` it makes exactly `b - 1` rounds of one multiplication each. -/
theorem infix_to_postfix_calculate_terminate (MIN MAX : Int) (g : ExprTree)
    (bm : BaresManager) (hg : Grammar g) (htok : bm.tokens = tokens_of g) :
    (∃ bm1 : BaresManager, infix_to_postfix bm = .ok bm1 ∧
      ((∃ (bm2 : BaresManager) (s : CalcState) (interrupted : Bool) (n : Nat),
          calculate_scan MIN MAX bm1.tokens 0 ⟨sta.stack.new, 0, bm1.status⟩ =
            .ok (s, interrupted, n) ∧
          calculate_loop MIN MAX bm1.tokens ⟨sta.stack.new, 0, bm1.status⟩ = .ok s ∧
          calculate MIN MAX bm1 = .ok bm2 ∧ n ≤ bm1.tokens.length ∧
          (interrupted = false → n = bm1.tokens.length ∧ s.st.size = 1) ∧
          (interrupted = true → 0 < n ∧ (s.result < MIN ∨ s.result > MAX))) ∨
        (calculate MIN MAX bm1 = .error Fault.division_trap ∧
          ¬ (LLONG_MIN < MIN ∧ OperandsRepresentable bm.tokens)))) ∧
    (∀ (st : sta.stack Token) (pf : List Token),
      infix_loop bm.tokens st pf =
        List.foldlM (fun p c => infix_step c p.1 p.2) (st, pf) bm.tokens) ∧
    (∀ (v : String) (st : sta.stack Token) (pf : List Token),
      (∃ st1 pf1, operator_loop v st.m_end st pf = .ok (st1, pf1) ∧ st1.m_end ≤ st.m_end ∧
        pf1.length + st1.m_end = pf.length + st.m_end) ∧
      (∃ st1 pf1, drain_loop st.m_end st pf = .ok (st1, pf1) ∧ st1.m_end = 0 ∧
        pf1.length = pf.length + st.m_end) ∧
      (close_loop st.m_end st pf = .error Fault.top_on_empty ∨
        ∃ st1 pf1, close_loop st.m_end st pf = .ok (st1, pf1) ∧ 0 < st1.m_end ∧
          st1.m_end ≤ st.m_end ∧ pf1.length + st1.m_end = pf.length + st.m_end)) ∧
    (∀ a b r : Int, apply_operator '^' a b r =
      if b = 0 then .ok 1 else if b < 0 then .ok 0 else pow_loop a b.toNat a b) ∧
    (∀ a b : Int, 1 ≤ b → b ≤ LLONG_MAX → ∀ fuel : Nat,
      (b.toNat - 1 ≤ fuel → pow_loop a fuel a b =
        .ok (Nat.iterate (fun x => wrap64 (x * a)) (b.toNat - 1) a)) ∧
      (fuel < b.toNat - 1 → pow_loop a fuel a b = .error Fault.out_of_fuel)) := by
  obtain ⟨hv, ht, _⟩ := regroup_spec g hg
  refine ⟨?_, infix_loop_visits_once bm.tokens, ?_, ?_, ?_⟩
  · have hconv : infix_to_postfix bm =
        .ok ⟨bm.status, postfix_tokens (regroup g), bm.final_value⟩ := by
      rw [infix_to_postfix_eq, htok, ← ht, postfix_of_tree _ hv]
    refine ⟨_, hconv, ?_⟩
    have herase := calculate_scan_erase MIN MAX (postfix_tokens (regroup g)) 0
      ⟨sta.stack.new, 0, bm.status⟩
    rcases calculate_scan_outcome MIN MAX (regroup g) hv bm.status with
      ⟨s, b, n, hscan, _, hfalse, htrue⟩ | ⟨hscan, hC⟩
    · left
      rw [hscan] at herase
      obtain ⟨bm2, hcalc, _⟩ :=
        (calculate_of_loop MIN MAX
          ⟨bm.status, postfix_tokens (regroup g), bm.final_value⟩).2 s herase
      refine ⟨bm2, s, b, n, hscan, herase, hcalc, ?_, fun h => ⟨(hfalse h).1, (hfalse h).2.1⟩,
        fun h => ⟨(htrue h).1, (htrue h).2.2⟩⟩
      cases b with
      | false => exact le_of_eq (hfalse rfl).1
      | true => exact (htrue rfl).2.1
    · right
      rw [hscan] at herase
      refine ⟨(calculate_of_loop MIN MAX
        ⟨bm.status, postfix_tokens (regroup g), bm.final_value⟩).1 _ herase, ?_⟩
      rw [htok, ← ht]
      exact hC
  · intro v st pf
    exact ⟨operator_loop_shrinks v st.m_end st pf (le_refl _),
      drain_loop_shrinks st.m_end st pf (le_refl _),
      close_loop_shrinks st.m_end st pf (le_refl _)⟩
  · intro a b r
    simp [apply_operator]
  · intro a b hb1 hb2 fuel
    obtain ⟨k, hk⟩ : ∃ k : Nat, b = (k : Int) + 1 := ⟨b.toNat - 1, by omega⟩
    have hkt : b.toNat - 1 = k := by omega
    unfold LLONG_MAX at hb2
    rw [hkt, hk]
    exact pow_loop_rounds a k fuel a (by omega)

/-- C32, at `2 * (3 + 4) - 5 % 3` with 16-bit bounds, where the scan reads the
nine tokens; the scan of `1 32767 2 * +` leaves through the `break` after four
of the five tokens; `2 ^ 10` takes nine rounds of the power loop and not
eight. -/
theorem infix_to_postfix_calculate_terminate_witness :
    Grammar sample_derivation ∧
    (LLONG_MIN < SHRT_MIN ∧ OperandsRepresentable (tokens_of sample_derivation)) ∧
    (∃ bm1 : BaresManager,
      infix_to_postfix ⟨status_ok, tokens_of sample_derivation, 0⟩ = .ok bm1 ∧
      ((∃ (bm2 : BaresManager) (s : CalcState) (interrupted : Bool) (n : Nat),
          calculate_scan SHRT_MIN SHRT_MAX bm1.tokens 0 ⟨sta.stack.new, 0, bm1.status⟩ =
            .ok (s, interrupted, n) ∧
          calculate_loop SHRT_MIN SHRT_MAX bm1.tokens ⟨sta.stack.new, 0, bm1.status⟩ =
            .ok s ∧
          calculate SHRT_MIN SHRT_MAX bm1 = .ok bm2 ∧ n ≤ bm1.tokens.length ∧
          (interrupted = false → n = bm1.tokens.length ∧ s.st.size = 1) ∧
          (interrupted = true →
            0 < n ∧ (s.result < SHRT_MIN ∨ s.result > SHRT_MAX))) ∨
        (calculate SHRT_MIN SHRT_MAX bm1 = .error Fault.division_trap ∧
          ¬ (LLONG_MIN < SHRT_MIN ∧
            OperandsRepresentable
              (BaresManager.mk status_ok (tokens_of sample_derivation) 0).tokens)))) ∧
    ((calculate_scan SHRT_MIN SHRT_MAX (postfix_tokens (regroup sample_derivation)) 0
        ⟨sta.stack.new, 0, status_ok⟩).toOption.map (fun p => p.2) = some (false, 9) ∧
      (calculate_scan SHRT_MIN SHRT_MAX
        [operand "1", operand "32767", operand "2", operator "*", operator "+"] 0
        ⟨sta.stack.new, 0, status_ok⟩).toOption.map (fun p => p.2) = some (true, 4)) ∧
    (pow_loop 2 9 2 10 = .ok 1024 ∧ pow_loop 2 8 2 10 = .error Fault.out_of_fuel) ∧
    ((1 : Int) ≤ 10 ∧ (10 : Int) ≤ LLONG_MAX ∧
      ((10 : Int).toNat - 1 ≤ 9 → pow_loop 2 9 2 10 =
        .ok (Nat.iterate (fun x => wrap64 (x * 2)) ((10 : Int).toNat - 1) 2))) :=
  ⟨by decide, by decide,
    (infix_to_postfix_calculate_terminate SHRT_MIN SHRT_MAX sample_derivation
      ⟨status_ok, tokens_of sample_derivation, 0⟩ (by decide) rfl).1,
    ⟨by decide, by decide⟩,
    ⟨by decide, by decide⟩,
    by decide, by decide,
    ((infix_to_postfix_calculate_terminate SHRT_MIN SHRT_MAX sample_derivation
      ⟨status_ok, tokens_of sample_derivation, 0⟩ (by decide) rfl).2.2.2.2
        2 10 (by decide) (by decide) 9).1⟩

end BaresManager

/-! ## Theorems: a pair of parentheses around the whole expression (C33) -/

namespace BaresManager

open Token.token_t ExprTree Token

/-- C33: on the tokens of every derivation of the grammar, putting an opening
parenthesis before them and a closing parenthesis after them does not change
what `infix_to_postfix` returns, which is the postfix sequence of the regrouped
derivation in both cases. -/
theorem infix_to_postfix_outer_parentheses (g : ExprTree) (bm : BaresManager)
    (lp rp : Token) (hg : Grammar g) (htok : bm.tokens = tokens_of g)
    (hlp : lp.type = OPEN_PARENTHESES ∧ lp.value = "(")
    (hrp : rp.type = CLOSE_PARENTHESES ∧ rp.value = ")") :
    infix_to_postfix ⟨bm.status, [lp] ++ bm.tokens ++ [rp], bm.final_value⟩ =
        infix_to_postfix bm ∧
      infix_to_postfix bm =
        .ok ⟨bm.status, postfix_tokens (regroup g), bm.final_value⟩ := by
  obtain ⟨hv, ht, _⟩ := regroup_spec g hg
  have hinner : infix_to_postfix bm =
      .ok ⟨bm.status, postfix_tokens (regroup g), bm.final_value⟩ := by
    rw [infix_to_postfix_eq, htok, ← ht, postfix_of_tree _ hv]
  have hvg : Valid (group lp (regroup g) rp) := ⟨hlp, hrp, hv⟩
  have htg : [lp] ++ bm.tokens ++ [rp] = tokens_of (group lp (regroup g) rp) := by
    simp [tokens_of, ht, htok]
  refine ⟨?_, hinner⟩
  rw [hinner, infix_to_postfix_eq]
  simp only [htg, postfix_of_tree _ hvg, postfix_tokens]

/-- C33, at `2 * (3 + 4) - 5 % 3` and `( 2 * (3 + 4) - 5 % 3 )`. -/
theorem infix_to_postfix_outer_parentheses_witness :
    Grammar sample_derivation ∧
    infix_to_postfix
        ⟨status_ok, [open_paren] ++ tokens_of sample_derivation ++ [close_paren], 0⟩ =
      infix_to_postfix ⟨status_ok, tokens_of sample_derivation, 0⟩ ∧
    infix_to_postfix ⟨status_ok, tokens_of sample_derivation, 0⟩ =
      .ok ⟨status_ok,
        [operand "2", operand "3", operand "4", operator "+", operator "*", operand "5",
          operand "3", operator "%", operator "-"], 0⟩ :=
  ⟨by decide,
    (infix_to_postfix_outer_parentheses sample_derivation
      ⟨status_ok, tokens_of sample_derivation, 0⟩ open_paren close_paren (by decide) rfl
      (by decide) (by decide)).1,
    by decide⟩

end BaresManager

/-! ## Theorems: the invariant of `sta::stack` (C34) -/

namespace sta.stack

variable {T : Type}

/-- The capacities the doubling rule produces from zero. -/
theorem push_capacity [Inhabited T] (s : stack T) (x : T) :
    (s.push x).1.m_capacity =
      if s.m_end ≥ s.m_capacity then (if s.m_capacity = 0 then 1 else s.m_capacity * 2)
      else s.m_capacity := by
  unfold push
  by_cases h : s.m_end ≥ s.m_capacity
  · by_cases h0 : s.m_capacity = 0
    · simp [h, h0]
    · simp [h, h0]
  · simp [h]

/-- Well-formedness and the shape of the capacity pass through every call. -/
theorem after_invariant [Inhabited T] (s : stack T) (c : Call T)
    (h : WellFormed s ∧ (s.m_capacity = 0 ∨ ∃ k : Nat, s.m_capacity = 2 ^ k)) :
    WellFormed (s.after c) ∧
      ((s.after c).m_capacity = 0 ∨ ∃ k : Nat, (s.after c).m_capacity = 2 ^ k) := by
  obtain ⟨hw, hc⟩ := h
  cases c with
  | push x =>
    refine ⟨WellFormed_of_Rep (Rep_push (Rep_of_WellFormed s hw) x), ?_⟩
    show (s.push x).1.m_capacity = 0 ∨ ∃ k : Nat, (s.push x).1.m_capacity = 2 ^ k
    rw [push_capacity]
    by_cases hfull : s.m_end ≥ s.m_capacity
    · rw [if_pos hfull]
      rcases hc with h0 | ⟨k, hk⟩
      · rw [if_pos h0]
        exact Or.inr ⟨0, rfl⟩
      · have hne : s.m_capacity ≠ 0 := by rw [hk]; positivity
        rw [if_neg hne, hk]
        exact Or.inr ⟨k + 1, by rw [pow_succ]⟩
    · rw [if_neg hfull]
      exact hc
  | pop =>
    have hpop : s.after Call.pop =
        if s.m_end = 0 then s else ⟨s.m_end - 1, s.m_capacity, s.m_storage⟩ := by
      unfold after pop
      by_cases he : s.m_end = 0 <;> simp [he]
    rw [hpop]
    by_cases he : s.m_end = 0
    · rw [if_pos he]
      exact ⟨hw, hc⟩
    · rw [if_neg he]
      refine ⟨⟨?_, hw.2⟩, hc⟩
      have := hw.1
      show s.m_end - 1 ≤ s.m_capacity
      omega
  | top => exact ⟨hw, hc⟩

theorem run_invariant [Inhabited T] (calls : List (Call T)) :
    ∀ s : stack T, (WellFormed s ∧ (s.m_capacity = 0 ∨ ∃ k : Nat, s.m_capacity = 2 ^ k)) →
      WellFormed (run s calls) ∧
        ((run s calls).m_capacity = 0 ∨ ∃ k : Nat, (run s calls).m_capacity = 2 ^ k) := by
  induction calls with
  | nil => intro s h; exact h
  | cons c cs ih =>
    intro s h
    exact ih (s.after c) (after_invariant s c h)

theorem run_append [Inhabited T] (cs ds : List (Call T)) :
    ∀ s : stack T, run s (cs ++ ds) = run (run s cs) ds := by
  induction cs with
  | nil => intro s; rfl
  | cons c cs ih => intro s; exact ih (s.after c)

/-- What `push` does to the three fields of a well-formed stack. -/
theorem push_fields [Inhabited T] (s : stack T) (hw : WellFormed s) (x : T) :
    (s.push x).1.m_end = s.m_end + 1 ∧
    (s.push x).1.m_capacity =
      (if s.m_end = s.m_capacity then (if s.m_capacity = 0 then 1 else 2 * s.m_capacity)
       else s.m_capacity) ∧
    s.m_end < (s.push x).1.m_capacity ∧
    (s.push x).1.m_storage.length = (s.push x).1.m_capacity ∧
    (s.push x).1.m_storage[s.m_end]? = some x ∧
    (∀ i : Nat, i < s.m_end → (s.push x).1.m_storage[i]? = s.m_storage[i]?) ∧
    (s.m_end < s.m_capacity → (s.push x).1.m_storage = s.m_storage.set s.m_end x) := by
  obtain ⟨h1, h2⟩ := hw
  have hrep := Rep_push (Rep_of_WellFormed s ⟨h1, h2⟩) x
  have hw1 := WellFormed_of_Rep hrep
  have hend : (s.push x).1.m_end = s.m_end + 1 := by
    unfold push
    by_cases h : s.m_end ≥ s.m_capacity <;> simp [h]
  have hcap : (s.push x).1.m_capacity =
      (if s.m_end = s.m_capacity then (if s.m_capacity = 0 then 1 else 2 * s.m_capacity)
       else s.m_capacity) := by
    rw [push_capacity]
    by_cases h : s.m_end = s.m_capacity
    · have hge : s.m_end ≥ s.m_capacity := by omega
      rw [if_pos hge, if_pos h, Nat.mul_comm]
    · have hge : ¬ s.m_end ≥ s.m_capacity := by omega
      rw [if_neg hge, if_neg h]
  have hlt : s.m_end < (s.push x).1.m_capacity := by
    have := hw1.1
    rw [hend] at this
    omega
  refine ⟨hend, hcap, hlt, hw1.2, ?_, ?_, ?_⟩
  · unfold push
    by_cases h : s.m_end ≥ s.m_capacity
    · have hlen : s.m_end <
          (List.take s.m_end s.m_storage ++
            List.replicate ((if s.m_capacity = 0 then s.m_capacity + 1 else s.m_capacity * 2) -
              s.m_end) default).length := by
        by_cases h0 : s.m_capacity = 0
        · simp [h0]; omega
        · simp [h0]; omega
      simp only [h, if_true]
      rw [List.getElem?_set_self hlen]
    · have hlen : s.m_end < s.m_storage.length := by omega
      simp only [h, if_false]
      rw [List.getElem?_set_self hlen]
  · intro i hi
    unfold push
    by_cases h : s.m_end ≥ s.m_capacity
    · simp only [h, if_true]
      rw [List.getElem?_set_ne (by omega)]
      rw [List.getElem?_append_left (by simp; omega)]
      rw [List.getElem?_take_of_lt hi]
    · simp only [h, if_false]
      rw [List.getElem?_set_ne (by omega)]
  · intro hlt2
    unfold push
    have h : ¬ s.m_end ≥ s.m_capacity := by omega
    simp only [h, if_false]

/-- C34: every stack left by a sequence of `push`, `pop` and `top` calls on the
stack of the constructor has `m_end ≤ m_capacity` and a storage area of
exactly `m_capacity` cells, and its capacity is zero or a power of two. On
such a stack `push` raises `m_end` by one, changes the capacity only when
`m_end = m_capacity` (from 0 to 1, otherwise to the double), writes the new
element at the index `m_end`, which lies below the capacity, keeps the
elements at the indices below `m_end`, and without a reallocation changes no
other cell; `pop` changes neither the capacity nor the storage area. -/
theorem reachable_well_formed [Inhabited T] (s : stack T) (h : Reachable s) (x : T) :
    (s.m_end ≤ s.m_capacity ∧ s.m_storage.length = s.m_capacity) ∧
    (s.m_capacity = 0 ∨ ∃ k : Nat, s.m_capacity = 2 ^ k) ∧
    ((s.push x).1.m_end = s.m_end + 1 ∧
      (s.push x).1.m_capacity =
        (if s.m_end = s.m_capacity then (if s.m_capacity = 0 then 1 else 2 * s.m_capacity)
         else s.m_capacity) ∧
      s.m_end < (s.push x).1.m_capacity ∧
      (s.push x).1.m_storage.length = (s.push x).1.m_capacity ∧
      (s.push x).1.m_storage[s.m_end]? = some x ∧
      (∀ i : Nat, i < s.m_end → (s.push x).1.m_storage[i]? = s.m_storage[i]?) ∧
      (s.m_end < s.m_capacity → (s.push x).1.m_storage = s.m_storage.set s.m_end x)) ∧
    (∀ (y : T) (s1 : stack T), s.pop = .ok (y, s1) →
      s1.m_end + 1 = s.m_end ∧ s1.m_capacity = s.m_capacity ∧ s1.m_storage = s.m_storage) ∧
    Reachable (s.push x).1 := by
  obtain ⟨calls, hrun⟩ := h
  have hinv := run_invariant calls (new : stack T)
    ⟨⟨le_refl _, rfl⟩, Or.inl rfl⟩
  rw [hrun] at hinv
  refine ⟨hinv.1, hinv.2, push_fields s hinv.1 x, ?_, ?_⟩
  · intro y s1 hp
    unfold pop at hp
    by_cases he : s.m_end = 0
    · simp [he] at hp
    · simp only [if_neg he, Except.ok.injEq, Prod.mk.injEq] at hp
      obtain ⟨_, hs⟩ := hp
      rw [← hs]
      exact ⟨by show s.m_end - 1 + 1 = s.m_end; omega, rfl, rfl⟩
  · refine ⟨calls ++ [Call.push x], ?_⟩
    rw [run_append, hrun]
    rfl

/-- C34, at the stack left by four pushes, two pops and a `top`: capacities
0, 1, 2, 4 along the pushes, and a fifth element moves the stack of four to a
storage area of eight cells. -/
theorem reachable_well_formed_witness :
    Reachable (run (new : stack Int) [.push 1, .push 2, .push 3, .pop, .top, .pop, .pop,
      .pop, .push 7]) ∧
    ((run (new : stack Int) []).m_capacity = 0 ∧
      (run (new : stack Int) [.push 1]).m_capacity = 1 ∧
      (run (new : stack Int) [.push 1, .push 2]).m_capacity = 2 ∧
      (run (new : stack Int) [.push 1, .push 2, .push 3]).m_capacity = 4 ∧
      (run (new : stack Int) [.push 1, .push 2, .push 3, .push 4]).m_capacity = 4 ∧
      (run (new : stack Int) [.push 1, .push 2, .push 3, .push 4, .push 5]).m_storage =
        [1, 2, 3, 4, 5, 0, 0, 0]) ∧
    ((run (new : stack Int) [.push 1, .push 2, .push 3, .pop, .top, .pop, .pop, .pop,
        .push 7]).m_end ≤
      (run (new : stack Int) [.push 1, .push 2, .push 3, .pop, .top, .pop, .pop, .pop,
        .push 7]).m_capacity ∧
      (run (new : stack Int) [.push 1, .push 2, .push 3, .pop, .top, .pop, .pop, .pop,
        .push 7]).m_storage.length =
      (run (new : stack Int) [.push 1, .push 2, .push 3, .pop, .top, .pop, .pop, .pop,
        .push 7]).m_capacity) :=
  ⟨⟨_, rfl⟩, by decide,
    (reachable_well_formed
      (run (new : stack Int) [.push 1, .push 2, .push 3, .pop, .top, .pop, .pop, .pop,
        .push 7]) ⟨_, rfl⟩ 0).1⟩

end sta.stack
